import Mathlib

/-!
Verification of `q2_feature_classifier/classifier.py`.

The development shallowly embeds the module's data model and operations:

* `PVal` models the Python values the module manipulates: JSON primitives,
  lists, dicts, live scikit-learn estimator objects (anything exposing the
  `get_params` contract), and non-JSON-serialisable runtime objects
  (`PVal.blob`).
* `Env` models the import universe the class resolver `_load_class` sees:
  the local `q2_feature_classifier.custom` extension module and the
  `sklearn` package with its submodules.
* `spec_from_pipeline` / `pipeline_from_spec` are the encode/decode pair,
  `_load_class` the resolver, `_autodetect_orientation` / `classify_sklearn`
  the classification orchestration (with the external `predict` contract as
  an oracle parameter), `_pipeline_signature` the signature deriver and
  `generic_fitter` the catalog fitter wrapper.

All container recursion goes through the mutual triple `PVal`/`PList`/`PKVs`
so every function is plain structural recursion and evaluates by `decide`.
-/

namespace Q2FC

/-! ## Character-list helpers (Python `in`, `rsplit`, `split`, `startswith`) -/

/-- Split a character list at the first occurrence of `c`:
`breakFirst c l = some (a, b)` with `l = a ++ c :: b` and `c ∉ a`. -/
def breakFirst (c : Char) : List Char → Option (List Char × List Char)
  | [] => none
  | x :: xs =>
    if x = c then some ([], xs)
    else (breakFirst c xs).map (fun p => (x :: p.1, p.2))

/-- Split a character list at the last occurrence of `c`
(Python `s.rsplit(c, 1)` when `c` occurs). -/
def breakLast (c : Char) (l : List Char) : Option (List Char × List Char) :=
  (breakFirst c l.reverse).map (fun p => (p.2.reverse, p.1.reverse))

/-- Python `c in s`. -/
def hasChar (c : Char) (s : String) : Bool := s.data.contains c

/-- Python `s.rsplit('.', 1)` under the assumption that `'.' ∈ s`;
returns `(module, klass)`. -/
def rsplitDot (s : String) : String × String :=
  match breakLast '.' s.data with
  | some (a, b) => (String.mk a, String.mk b)
  | none => (s, "")

/-- Python `(x).split('.', 1)[1]`: everything after the first `'.'`. -/
def afterFirstDot (s : String) : String :=
  match breakFirst '.' s.data with
  | some (_, b) => String.mk b
  | none => s

/-- Python `s.startswith(p)`. -/
def strPre (p s : String) : Bool := p.data.isPrefixOf s.data

/-! ## The value model -/

mutual
/-- A Python value as seen by the serialisation code: JSON primitives,
lists, dicts, estimator objects (`est module className params`, the objects
exposing `get_params`), and opaque non-JSON-serialisable runtime objects
(`blob`). -/
inductive PVal where
  | null : PVal
  | bool : Bool → PVal
  | int : Int → PVal
  | float : Rat → PVal
  | str : String → PVal
  | arr : PList → PVal
  | obj : PKVs → PVal
  | est : String → String → PKVs → PVal
  | blob : Nat → PVal
/-- A list of Python values. -/
inductive PList where
  | nil : PList
  | cons : PVal → PList → PList
/-- Ordered key/value pairs (a Python dict or keyword-argument mapping). -/
inductive PKVs where
  | nil : PKVs
  | cons : String → PVal → PKVs → PKVs
end

deriving instance DecidableEq for PVal, PList, PKVs

namespace PKVs

/-- Append two key/value sequences. -/
def append : PKVs → PKVs → PKVs
  | .nil, b => b
  | .cons k v t, b => .cons k v (append t b)

/-- The keys, in order. -/
def keysOf : PKVs → List String
  | .nil => []
  | .cons k _ t => k :: keysOf t

/-- First value stored under `k` (Python dict lookup for de-duplicated dicts). -/
def lookupKV (kvs : PKVs) (k : String) : Option PVal :=
  match kvs with
  | .nil => none
  | .cons k' v t => if k' = k then some v else lookupKV t k

/-- Drop every pair whose key is `k`. -/
def removeKey (kvs : PKVs) (k : String) : PKVs :=
  match kvs with
  | .nil => .nil
  | .cons k' v t => if k' = k then removeKey t k else .cons k' v (removeKey t k)

/-- Does some pair have key `k`? -/
def hasKey (kvs : PKVs) (k : String) : Bool :=
  match kvs with
  | .nil => false
  | .cons k' _ t => k' = k || hasKey t k

/-- Rename every key by putting `p` in front (sklearn's `key + '__' + subkey`). -/
def withKeyPre (p : String) : PKVs → PKVs
  | .nil => .nil
  | .cons k v t => .cons (p ++ k) v (withKeyPre p t)

/-- Membership of a (key, value) pair. -/
def entryMem (k : String) (v : PVal) : PKVs → Bool
  | .nil => false
  | .cons k' v' t => (k = k' && v = v') || entryMem k v t

/-- No two pairs share a key. -/
def nodupKeys : PKVs → Bool
  | .nil => true
  | .cons k _ t => !hasKey t k && nodupKeys t

end PKVs

namespace PList

/-- Membership in a `PList`. -/
def memP (v : PVal) : PList → Bool
  | .nil => false
  | .cons w t => v = w || memP v t

end PList

/-! ## The import universe and the class resolver `_load_class` -/

/-- A class object: whether it subclasses `sklearn.base.BaseEstimator`, and
its constructor signature as an ordered list of (parameter, default value)
pairs (sklearn estimators give every `__init__` parameter a default). -/
structure ClassInfo where
  isEstimator : Bool
  defaults : PKVs
deriving DecidableEq

/-- A module attribute reachable by `getattr`: either a class or some other
object (a function, a submodule, a constant, ...), for which Python's
`issubclass` raises `TypeError`. -/
inductive Attr where
  | cls : ClassInfo → Attr
  | other : Attr
deriving DecidableEq

/-- A module's attribute table. -/
def Module := List (String × Attr)

instance : DecidableEq Module := inferInstanceAs (DecidableEq (List (String × Attr)))

/-- The import universe seen by `_load_class`.

Modelled from the spec: `custom` is the attribute table of the local
`q2_feature_classifier.custom` extension module (the trusted extension
namespace of §6, whose source is not part of the embedded files);
`sklearnTop` is the attribute table of the already-imported `sklearn`
package itself, `sklearn` maps each importable submodule path
(`"naive_bayes"`, `"feature_extraction.text"`, ...) to its attribute
table, and `sklearnPkgs` lists the submodule paths that are packages —
the ones having a `__path__` attribute (`"feature_extraction"` is one,
the plain file module `"naive_bayes"` is not). -/
structure Env where
  custom : Module
  sklearnTop : Module
  sklearn : List (String × Module)
  sklearnPkgs : List String
deriving DecidableEq

/-- The exceptions the resolver can raise.  `valueError` is the resolver's
own uniform error and `typeError` the one `issubclass` raises on a
non-class; the remaining three model the distinct exceptions that the
CPython import machinery lets escape from `importlib.util.find_spec`:
`moduleNotFound` is `ModuleNotFoundError` "No module named 'P'" for a
missing parent prefix `P` (the payload); `notAPackage` is
`ModuleNotFoundError` "No module named ...; 'A' is not a package" raised
by `__import__` when an intermediate ancestor `A` (the payload) is a plain
module; `noPathAttr` is the failure of `find_spec`'s `parent.__path__`
access when the immediate parent (the payload) is a plain module —
`AttributeError` on the Python of the repository's era (3.5/3.6), wrapped
into `ModuleNotFoundError` "__path__ attribute not found on ..." from
Python 3.7; `importErr` is the plain ImportError for a relative name
reaching beyond the top-level package. -/
inductive LoadErr where
  | valueError : String → LoadErr
  | moduleNotFound : String → LoadErr
  | typeError : String → LoadErr
  | notAPackage : String → LoadErr
  | noPathAttr : String → LoadErr
  | importErr : String → LoadErr
deriving DecidableEq

/-- The uniform resolver message: `classname + ' is not a recognised class'`. -/
def errMsg (s : String) : String := s ++ " is not a recognised class"

/-- The parent package of a dotted module path (`"a.b.c" ↦ "a.b"`). -/
def parentOf (m : String) : Option String :=
  (breakLast '.' m.data).map (fun p => String.mk p.1)

/-- Split a module path at its dots: `"a.b" ↦ ["a", "b"]`, `"" ↦ [""]`
(the accumulator holds the current segment reversed). -/
def splitDots : List Char → List Char → List String
  | [], acc => [String.mk acc.reverse]
  | c :: rest, acc =>
    if c = '.' then String.mk acc.reverse :: splitDots rest []
    else splitDots rest (c :: acc)

/-- The successive dotted prefixes built from a segment list:
`joinPrefixes "" ["a", "b"] = ["a", "a.b"]` (`cur` carries the prefix so
far with its trailing dot). -/
def joinPrefixes (cur : String) : List String → List String
  | [] => []
  | seg :: rest => (cur ++ seg) :: joinPrefixes (cur ++ seg ++ ".") rest

/-- The dotted prefixes of a module path: `"a.b" ↦ ["a", "a.b"]`. -/
def dottedPrefixes (s : String) : List String :=
  joinPrefixes "" (splitDots s.data [])

/-- The parent-import walk of `__import__('sklearn.' + par,
fromlist=['__path__'])` followed by `find_spec`'s `parent.__path__`
access, over the dotted prefixes of `par` in order: each prefix must be an
importable sklearn submodule (else `ModuleNotFoundError`), each
intermediate prefix must be a package for the import to descend past it
(else the "... is not a package" `ModuleNotFoundError`), and the last
prefix — the parent itself — must be a package to have `__path__` (else
the `noPathAttr` failure). -/
def walkImport (env : Env) : List String → Except LoadErr Unit
  | [] => .ok ()
  | p :: rest =>
    if (env.sklearn.lookup p).isSome then
      if env.sklearnPkgs.contains p then walkImport env rest
      else
        match rest with
        | [] => .error (.noPathAttr ("sklearn." ++ p))
        | _ :: _ => .error (.notAPackage ("sklearn." ++ p))
    else .error (.moduleNotFound ("sklearn." ++ p))

/-- Models `importlib.util.find_spec('.' + m, 'sklearn') is not None`.

CPython resolves `'.' + m` against `sklearn` and, when the full name is
not cached, imports the parent before searching: a module part that itself
starts with a dot makes relative-name resolution raise plain ImportError
("attempted relative import beyond top-level package"); for a dotted `m`
the parent chain is imported prefix by prefix and its errors escape from
`find_spec` instead of a `None` return — a missing prefix raises
`ModuleNotFoundError`, a plain-module intermediate raises the "... is not
a package" `ModuleNotFoundError`, and a plain-module immediate parent
fails the `parent.__path__` access (`noPathAttr`); only with the whole
parent chain importable packages does `find_spec` search for `m` itself
and return a spec or `None`.  For `m = ""`, `'.'` resolves to `sklearn`
itself, which is imported, so a spec is found. -/
def findSpecSk (env : Env) (m : String) : Except LoadErr Bool :=
  if m = "" then .ok true
  else if strPre "." m then
    .error (.importErr "attempted relative import beyond top-level package")
  else
    match parentOf m with
    | none => .ok (env.sklearn.lookup m).isSome
    | some par =>
      match walkImport env (dottedPrefixes par) with
      | .error e => .error e
      | .ok _ => .ok (env.sklearn.lookup m).isSome

/-- The module object `importlib.import_module` returns in the sklearn
branch, together with its `__name__` (the model assumes a class's
`__module__` is the module it is looked up in). -/
def importSk (env : Env) (m : String) : String × Module :=
  if m = "" then ("sklearn", env.sklearnTop)
  else ("sklearn." ++ m, (env.sklearn.lookup m).getD [])

/-- `_load_class` from `classifier.py`: resolve a type-tag string to a
class.  On success it returns the class together with the full module path
and attribute name it was resolved from; it constructs nothing. -/
def _load_class (env : Env) (classname : String) :
    Except LoadErr (String × String × ClassInfo) :=
  let em := LoadErr.valueError (errMsg classname)
  if ¬ hasChar '.' classname then .error em
  else
    let mk := rsplitDot classname
    let imported : Except LoadErr (String × Module) :=
      if mk.1 = "custom" then .ok ("q2_feature_classifier.custom", env.custom)
      else
        match findSpecSk env mk.1 with
        | .error e => .error e
        | .ok true => .ok (importSk env mk.1)
        | .ok false => .error em
    match imported with
    | .error e => .error e
    | .ok (modName, modAttrs) =>
      match modAttrs.lookup mk.2 with
      | none => .error em
      | some .other => .error (.typeError "issubclass() arg 1 must be a class")
      | some (.cls info) =>
        if info.isEstimator then .ok (modName, mk.2, info) else .error em

/-- The `'__type__'` tag the encoder writes for a class with `__module__ = m`
and `__name__ = c`: `(m + '.' + c).split('.', 1)[1]`. -/
def tagOf (m c : String) : String := afterFirstDot (m ++ "." ++ c)

/-- Does the resolver map the tag of `(m, c)` back to the very same class?
(Used as the self-resolution invariant of decoded estimators.) -/
def reresolve (env : Env) (m c : String) : Option ClassInfo :=
  match _load_class env (tagOf m c) with
  | .ok (m', c', info) => if m' = m ∧ c' = c then some info else none
  | .error _ => none

/-! ## `get_params` flattening (the external estimator-introspection contract)

sklearn's `get_params(deep=True)` returns, for each direct parameter
`(k, v)`, the pair itself plus — when `v` is again an estimator — every pair
of `v.get_params(deep=True)` under the key `k + '__' + subkey`. -/

/-- Is a value an estimator object (Python `hasattr(value, 'get_params')`)? -/
def isEst : PVal → Bool
  | .est _ _ _ => true
  | _ => false

mutual
/-- `v.get_params(deep=True)` for an estimator value, `{}` otherwise. -/
def deepParams : PVal → PKVs
  | .est _ _ ps => flattenKVs ps
  | _ => .nil
/-- Flatten a direct-parameter table: sub-estimator parameters are spliced
in under `key + '__' + subkey` next to the direct pair itself. -/
def flattenKVs : PKVs → PKVs
  | .nil => .nil
  | .cons k v t =>
    PKVs.append (PKVs.withKeyPre (k ++ "__") (deepParams v))
      (.cons k v (flattenKVs t))
end

/-- The `subobjs` prefixes collected by the encoder: `key + '__'` for every
entry of the flattened parameter mapping whose value is an estimator. -/
def subobjsOf : PKVs → List String
  | .nil => []
  | .cons k v t => if isEst v then (k ++ "__") :: subobjsOf t else subobjsOf t

/-- Is `k` dropped by the encoder's redundancy filter, i.e. does it start
with some collected `subobjs` entry? -/
def subDropped (sos : List String) (k : String) : Bool :=
  sos.any (fun so => strPre so k)

/-! ## Spec Codec — encode (`spec_from_pipeline`'s `StepsEncoder`)

`json.dumps(..., cls=StepsEncoder)` composed with `json.loads` maps every
estimator object to a dict: iterate its flattened `get_params()` mapping,
drop every key matching a `subobjs` prefix, keep each remaining value if it
serialises (recursively encoding nested estimators), silently drop it on
`TypeError`, and finally add the `'__type__'` tag.  Only the direct
parameter pairs can survive the `subobjs` filter — every spliced-in
flattened pair starts with `key + '__'` for its estimator-valued root `key`
(theorem `flattened_entries_subDropped` below) — so the iteration is written
over the direct pairs, against the faithful `subobjs` set collected from the
flattened mapping.  A `blob` anywhere outside an estimator makes the
enclosing `json.dumps` raise `TypeError`, hence `Option`. -/

mutual
/-- Encode one value (`none` models a `TypeError` from `json.dumps`). -/
def encodeVal : PVal → Option PVal
  | .null => some .null
  | .bool b => some (.bool b)
  | .int n => some (.int n)
  | .float q => some (.float q)
  | .str s => some (.str s)
  | .arr xs => (encodeList xs).map .arr
  | .obj kvs => (encodeKVs kvs).map .obj
  | .est m c ps =>
    some (.obj (PKVs.append (encodeParams (subobjsOf (flattenKVs ps)) ps)
      (.cons "__type__" (.str (tagOf m c)) .nil)))
  | .blob _ => none
/-- Encode the elements of a list; any failure fails the whole list. -/
def encodeList : PList → Option PList
  | .nil => some .nil
  | .cons v t =>
    match encodeVal v with
    | none => none
    | some w => (encodeList t).map (.cons w)
/-- Encode the entries of a plain dict; any failure fails the whole dict. -/
def encodeKVs : PKVs → Option PKVs
  | .nil => some .nil
  | .cons k v t =>
    match encodeVal v with
    | none => none
    | some w => (encodeKVs t).map (.cons k w)
/-- The estimator-parameter loop: skip `subobjs`-matching keys, keep
encodable values, silently drop the rest. -/
def encodeParams (sos : List String) : PKVs → PKVs
  | .nil => .nil
  | .cons k v t =>
    if subDropped sos k then encodeParams sos t
    else
      match encodeVal v with
      | some w => .cons k w (encodeParams sos t)
      | none => encodeParams sos t
end

/-! ## Spec Codec — decode (`pipeline_from_spec`) -/

/-- Keyword construction `klass(**kwargs)`: every keyword must be a
constructor parameter (otherwise Python raises `TypeError`); each parameter
takes the keyword value when given, its default otherwise, in signature
order. -/
def bindDefaults : PKVs → PKVs → PKVs
  | .nil, _ => .nil
  | .cons k d t, kw => .cons k ((PKVs.lookupKV kw k).getD d) (bindDefaults t kw)

/-- Do all keys of `kw` name parameters of the signature `ds`? -/
def kwargsOk (ds kw : PKVs) : Bool :=
  (PKVs.keysOf kw).all (fun k => PKVs.hasKey ds k)

/-- `klass(**kwargs)` for a resolved class. -/
def construct (info : ClassInfo) (kwargs : PKVs) : Except LoadErr PKVs :=
  if kwargsOk info.defaults kwargs then .ok (bindDefaults info.defaults kwargs)
  else .error (.typeError "unexpected keyword argument")

/-- The decode hook's action on a fully-decoded dict: when the reserved
`'__type__'` key is present with a string tag, resolve the class and
construct it from the remaining pairs; a non-string tag makes the resolver's
`'.' in classname` test raise `TypeError`. -/
def decodeHook (env : Env) (kvs' : PKVs) : Except LoadErr PVal :=
  match PKVs.lookupKV kvs' "__type__" with
  | none => .ok (.obj kvs')
  | some (.str tag) =>
    (match _load_class env tag with
     | .error e => .error e
     | .ok (m, c, info) =>
       match construct info (PKVs.removeKey kvs' "__type__") with
       | .error e => .error e
       | .ok ps => .ok (.est m c ps))
  | some _ => .error (.typeError "argument of type is not iterable")

mutual
/-- `json.loads(json.dumps(spec), object_hook=as_steps)`: rebuild bottom-up,
replacing every dict that carries the reserved `'__type__'` key by an
instance of the resolved class constructed from the remaining pairs. -/
def decodeVal (env : Env) : PVal → Except LoadErr PVal
  | .null => .ok .null
  | .bool b => .ok (.bool b)
  | .int n => .ok (.int n)
  | .float q => .ok (.float q)
  | .str s => .ok (.str s)
  | .arr xs =>
    (match decodeList env xs with
     | .ok ys => .ok (.arr ys)
     | .error e => .error e)
  | .obj kvs =>
    (match decodeKVs env kvs with
     | .ok kvs' => decodeHook env kvs'
     | .error e => .error e)
  | .est m c ps => .ok (.est m c ps)
  | .blob n => .ok (.blob n)
/-- Decode list elements in order. -/
def decodeList (env : Env) : PList → Except LoadErr PList
  | .nil => .ok .nil
  | .cons v t =>
    (match decodeVal env v with
     | .ok v' =>
       (match decodeList env t with
        | .ok t' => .ok (.cons v' t')
        | .error e => .error e)
     | .error e => .error e)
/-- Decode dict entries in order (the hook fires bottom-up). -/
def decodeKVs (env : Env) : PKVs → Except LoadErr PKVs
  | .nil => .ok .nil
  | .cons k v t =>
    (match decodeVal env v with
     | .ok v' =>
       (match decodeKVs env t with
        | .ok t' => .ok (.cons k v' t')
        | .error e => .error e)
     | .error e => .error e)
end

/-! ## Pipelines and the two public codec entry points -/

/-- The sklearn `Pipeline` object, reduced to the state the codec touches:
its ordered `steps` list of (name, estimator-or-value) pairs.  The
`Pipeline` class itself is external library code; its constructor stores the
steps and `get_params()['steps']` returns them. -/
structure Pipeline where
  steps : List (PVal × PVal)
deriving DecidableEq

/-- Rebuild the JSON shape of a steps list: a list of two-element lists. -/
def stepsToPVal (steps : List (PVal × PVal)) : PVal :=
  .arr (steps.foldr (fun (p : PVal × PVal) acc =>
    PList.cons (.arr (.cons p.1 (.cons p.2 .nil))) acc) .nil)

/-- Unpack each element of the steps list as a two-element list. -/
def stepsOfList : PList → Except LoadErr (List (PVal × PVal))
  | .nil => .ok []
  | .cons (.arr (.cons n (.cons v .nil))) t =>
    (match stepsOfList t with
     | .ok st => .ok ((n, v) :: st)
     | .error e => .error e)
  | .cons _ _ => .error (.valueError "not enough values to unpack")

/-- Unpack the outermost decoded list into (name, object) steps
(`Pipeline(steps)` unpacks each step as a pair and fails otherwise). -/
def toSteps : PVal → Except LoadErr (List (PVal × PVal))
  | .arr xs => stepsOfList xs
  | _ => .error (.typeError "steps must be a list")

mutual
/-- Does a value contain no estimator and no `blob`?  Exactly then does the
plain `json.dumps` (no custom encoder) succeed on it. -/
def plainJson : PVal → Bool
  | .null | .bool _ | .int _ | .float _ | .str _ => true
  | .arr xs => plainJsonList xs
  | .obj kvs => plainJsonKVs kvs
  | .est _ _ _ => false
  | .blob _ => false
/-- `plainJson` over a list. -/
def plainJsonList : PList → Bool
  | .nil => true
  | .cons v t => plainJson v && plainJsonList t
/-- `plainJson` over dict entries. -/
def plainJsonKVs : PKVs → Bool
  | .nil => true
  | .cons _ v t => plainJson v && plainJsonKVs t
end

/-- `pipeline_from_spec` from `classifier.py`: re-serialise the spec with
the plain encoder (raising on non-JSON input), decode with the
`'__type__'` hook, and hand the outermost list to `Pipeline`. -/
def pipeline_from_spec (env : Env) (spec : PVal) : Except LoadErr Pipeline :=
  if ¬ plainJson spec then .error (.typeError "not JSON serializable")
  else
    match decodeVal env spec with
    | .error e => .error e
    | .ok decoded =>
      match toSteps decoded with
      | .error e => .error e
      | .ok steps => .ok ⟨steps⟩

/-- `spec_from_pipeline` from `classifier.py`:
`json.loads(json.dumps(pipeline.get_params()['steps'], cls=StepsEncoder))`. -/
def spec_from_pipeline (p : Pipeline) : Option PVal :=
  encodeVal (stepsToPVal p.steps)

/-! ## Well-formedness predicates -/

mutual
/-- Every dict node (at any depth, estimator parameters included) has
pairwise-distinct keys — true of every value a real Python program holds,
since Python dicts cannot repeat keys. -/
def nodupObjs : PVal → Bool
  | .arr xs => nodupObjsList xs
  | .obj kvs => PKVs.nodupKeys kvs && nodupObjsKVs kvs
  | .est _ _ ps => PKVs.nodupKeys ps && nodupObjsKVs ps
  | _ => true
/-- `nodupObjs` over a list. -/
def nodupObjsList : PList → Bool
  | .nil => true
  | .cons v t => nodupObjs v && nodupObjsList t
/-- `nodupObjs` over dict entries. -/
def nodupObjsKVs : PKVs → Bool
  | .nil => true
  | .cons _ v t => nodupObjs v && nodupObjsKVs t
end

mutual
/-- An inert value: no estimator object and no dict carrying the reserved
`'__type__'` key anywhere, with duplicate-free dicts.  Constructor defaults
of real estimator classes are inert: they are ordinary runtime values, not
spec fragments, and only spec dicts use the reserved key. -/
def inertV : PVal → Bool
  | .arr xs => inertList xs
  | .obj kvs =>
    !PKVs.hasKey kvs "__type__" && PKVs.nodupKeys kvs && inertKVs kvs
  | .est _ _ _ => false
  | _ => true
/-- `inertV` over a list. -/
def inertList : PList → Bool
  | .nil => true
  | .cons v t => inertV v && inertList t
/-- `inertV` over dict entries. -/
def inertKVs : PKVs → Bool
  | .nil => true
  | .cons _ v t => inertV v && inertKVs t
end

/-- All default values of a signature are inert. -/
def defaultsInert : PKVs → Bool
  | .nil => true
  | .cons _ d t => inertV d && defaultsInert t

/-- A well-behaved constructor signature: duplicate-free parameter names,
none of them the reserved `'__type__'`, and inert default values. -/
def defaultsOK (ds : PKVs) : Bool :=
  PKVs.nodupKeys ds && !PKVs.hasKey ds "__type__" && defaultsInert ds

/-- All classes of a module have well-behaved signatures. -/
def moduleOK (m : Module) : Bool :=
  m.all (fun a =>
    match a.2 with
    | .cls info => defaultsOK info.defaults
    | .other => true)

/-- No attribute of a module is an estimator class. -/
def moduleNoEstimator (m : Module) : Bool :=
  m.all (fun a =>
    match a.2 with
    | .cls info => !info.isEstimator
    | .other => true)

/-- A well-formed import universe: every reachable class has a well-behaved
signature, and — as in the real `sklearn` package — the package's own
top-level namespace exposes no estimator classes (estimators live in
submodules). -/
def EnvWF (env : Env) : Bool :=
  moduleOK env.custom && moduleOK env.sklearnTop
  && (env.sklearn.all (fun p => moduleOK p.2))
  && moduleNoEstimator env.sklearnTop

mutual
/-- The invariant of decoded values: opaque objects and the reserved tag key
occur nowhere outside estimator parameters, and every estimator
self-resolves (`reresolve`) to a class whose signature its parameters match
pairwise — each parameter value either re-encodes (and is itself good) or is
exactly the signature default. -/
def goodV (env : Env) : PVal → Bool
  | .arr xs => goodList env xs
  | .obj kvs => !PKVs.hasKey kvs "__type__" && PKVs.nodupKeys kvs && goodKVs env kvs
  | .est m c ps =>
    (match reresolve env m c with
     | some info => goodParams env ps info.defaults
     | none => false)
  | .blob _ => false
  | _ => true
/-- `goodV` over a list. -/
def goodList (env : Env) : PList → Bool
  | .nil => true
  | .cons v t => goodV env v && goodList env t
/-- `goodV` over dict entries. -/
def goodKVs (env : Env) : PKVs → Bool
  | .nil => true
  | .cons _ v t => goodV env v && goodKVs env t
/-- Estimator parameters against the signature, in lockstep. -/
def goodParams (env : Env) : PKVs → PKVs → Bool
  | .nil, .nil => true
  | .cons k v t, .cons dk d dt =>
    k = dk && (if (encodeVal v).isSome then goodV env v else v == d)
    && goodParams env t dt
  | .nil, .cons _ _ _ => false
  | .cons _ _ _, .nil => false
end

/-! ## Classify Orchestrator and Orientation Detector

The external `predict` contract of `_skl` is a parameter
(`predictO reads confidence` returns one `(seq_id, taxon, confidence)`
triple per read), as is the reads' `reverse_complement` operation. -/

/-- A sequence read record: stable identifier plus raw sequence data. -/
structure Read where
  rid : String
  seq : String
deriving DecidableEq

deriving instance DecidableEq for Except

/-- Insert into a `Rat` list sorted ascending. -/
def insertRat (x : Rat) : List Rat → List Rat
  | [] => [x]
  | y :: t => if x ≤ y then x :: y :: t else y :: insertRat x t

/-- Sort a `Rat` list ascending. -/
def sortRats : List Rat → List Rat
  | [] => []
  | x :: t => insertRat x (sortRats t)

/-- `numpy.median`: middle element of the sorted data for odd length, the
mean of the two middle elements for even length (0 for the empty list,
where numpy would produce NaN). -/
def medianRat (l : List Rat) : Rat :=
  let s := sortRats l
  let m := l.length
  if m = 0 then 0
  else if m % 2 = 1 then s.getD (m / 2) 0
  else (s.getD (m / 2 - 1) 0 + s.getD (m / 2) 0) / 2

/-- The external predict contract: a batch of reads and a confidence
setting go to one `(seq_id, taxon, confidence)` triple per read. -/
def PredictOracle : Type := List Read → Rat → List (String × String × Rat)

/-- `_autodetect_orientation` from `classifier.py`.  Alongside the oriented
read stream it returns the list of `(batch, confidence)` arguments of every
trial call made to the external predict contract, so that theorems can speak
about which predictions were attempted.  The read stream is single-pass: the
model's output list is exactly the sequence of reads the returned iterator
would yield, with the sampled prefix prepended back rather than re-read. -/
def _autodetect_orientation (rc : Read → Read) (predictO : PredictOracle)
    (reads : List Read) (n : Nat) (read_orientation : Option String) :
    Except String (List Read × List (List Read × Rat)) :=
  match reads with
  | [] => .error "empty reads input"
  | read :: rest =>
    let reads := read :: rest
    if read_orientation = some "same" then .ok (reads, [])
    else if read_orientation = some "reverse-complement" then
      .ok (reads.map rc, [])
    else
      let first_n_reads := reads.take n
      let remaining := reads.drop n
      let same_confidence := (predictO first_n_reads 0).map (fun t => t.2.2)
      let reversed_n_reads := first_n_reads.map rc
      let reverse_confidence := (predictO reversed_n_reads 0).map (fun t => t.2.2)
      let calls := [(first_n_reads, (0 : Rat)), (reversed_n_reads, (0 : Rat))]
      if medianRat (List.zipWith (· - ·) same_confidence reverse_confidence) > 0
      then .ok (first_n_reads ++ remaining, calls)
      else .ok (reversed_n_reads ++ remaining.map rc, calls)

/-- The low sentinel confidence reported when confidence computation is
disabled.  Modelled from the spec: §3 allows "a confidence score in [0,1]
or the minimum sentinel" and §4.3 calls the `confidence` domain `[-1, 1]`,
so the minimum sentinel is `-1`. -/
def sentinelConfidence : Rat := -1

/-- Join taxonomic rank names into one label. -/
def joinRanks : List String → String
  | [] => ""
  | [r] => r
  | r :: t => r ++ ";" ++ joinRanks t

/-- Per-read classifier knowledge: the ranked taxonomic assignment of a
read, deepest rank last, each rank with its running (cumulative)
confidence. -/
def Assigner : Type := Read → List (String × Rat)

/-- Modelled from the spec: `_skl.predict` (the module `_skl.py` is not
among the embedded sources).  Per §4.3: `confidence = -1` disables
confidence computation entirely — the label is returned as-is and the
confidence reported as the sentinel; otherwise the running confidences are
computed and the label truncated to the deepest rank whose running
confidence still reaches the threshold, an empty result becoming the
literal label `Unassigned`.  The spec does not fix the confidence reported
with `Unassigned`; the model reports 0 there. -/
def predictModel (assign : Assigner) (reads : List Read) (confidence : Rat) :
    List (String × String × Rat) :=
  reads.map (fun r =>
    let a := assign r
    if confidence = -1 then
      (r.rid, joinRanks (a.map (fun p => p.1)), sentinelConfidence)
    else
      let kept := a.takeWhile (fun p => confidence ≤ p.2)
      match kept.getLast? with
      | none => (r.rid, "Unassigned", 0)
      | some last => (r.rid, joinRanks (kept.map (fun p => p.1)), last.2))

/-- `classify_sklearn` from `classifier.py`, with the external predict
contract instantiated by `predictModel assign` both for the orientation
trials and for the main pass.  Chunking and the parallel-dispatch tuning
parameters (`chunk_size`, `n_jobs`, `pre_dispatch`) are forwarded to the
external contract and do not change which rows are produced, so the model
elides them.  The result rows are the `(Feature ID, Taxon, Confidence)`
table rows in input order. -/
def classify_sklearn (rc : Read → Read) (assign : Assigner)
    (reads : List Read) (confidence : Rat) (read_orientation : Option String) :
    Except String (List (String × String × Rat)) :=
  match _autodetect_orientation rc (fun rs c => predictModel assign rs c)
      reads 100 read_orientation with
  | .error e => .error e
  | .ok oriented => .ok (predictModel assign oriented.1 confidence)

/-! ## Signature Deriver (`_pipeline_signature`) -/

/-- The exact Python runtime types appearing in `_pipeline_signature`'s
`type_map` (`int`, `float`, `bool`, `str`). -/
inductive PyType where
  | intT | floatT | boolT | strT
deriving DecidableEq

/-- `type(default)` when it is one of the `type_map` keys.  Python's `bool`
is a distinct type from `int`, and `None`, lists and dicts are not in the
map. -/
def pyTypeOf : PVal → Option PyType
  | .int _ => some .intT
  | .float _ => some .floatT
  | .bool _ => some .boolT
  | .str _ => some .strT
  | _ => none

/-- The plugin parameter types `Int`, `Float`, `Bool`, `Str`. -/
inductive QType where
  | QInt | QFloat | QBool | QStr
deriving DecidableEq

/-- `type_map.get(annotation, Str)`; the annotation is always a map key. -/
def typeMapGet : PyType → QType
  | .intT => .QInt
  | .floatT => .QFloat
  | .boolT => .QBool
  | .strT => .QStr

/-- One derived `inspect.Parameter`: name, default and annotation. -/
structure SigParam where
  name : String
  default : PVal
  ann : PyType
deriving DecidableEq

/-- Insertion into a key-sorted association list. -/
def insertByKey (x : String × PVal) : List (String × PVal) → List (String × PVal)
  | [] => [x]
  | y :: t => if x.1 ≤ y.1 then x :: y :: t else y :: insertByKey x t

/-- `sorted(params.items())`: Python sorts the pairs; the keys are distinct
dict keys, so only the key comparison ever decides. -/
def sortByKey : List (String × PVal) → List (String × PVal)
  | [] => []
  | x :: t => insertByKey x (sortByKey t)

/-- Step names as strings; a non-string step name would make the later
`sorted()` comparison between keys raise `TypeError`. -/
def stepNames : List (PVal × PVal) → Except LoadErr (List (String × PVal))
  | [] => .ok []
  | (.str n, v) :: t =>
    (match stepNames t with
     | .ok nt => .ok ((n, v) :: nt)
     | .error e => .error e)
  | (_, _) :: _ => .error (.typeError "unorderable parameter names")

/-- Convert a `PKVs` table to a `List` of pairs. -/
def pkvsToList : PKVs → List (String × PVal)
  | .nil => []
  | .cons k v t => (k, v) :: pkvsToList t

/-- `Pipeline.get_params(deep=True)` of the external library: the `steps`
parameter itself, each named step, and — for estimator steps — their
flattened parameters under `name + '__' + key`. -/
def pipelineGetParams (p : Pipeline) : Except LoadErr (List (String × PVal)) :=
  match stepNames p.steps with
  | .error e => .error e
  | .ok named =>
    .ok (("steps", stepsToPVal p.steps)
      :: (named ++ named.flatMap (fun nv =>
        pkvsToList (PKVs.withKeyPre (nv.1 ++ "__") (deepParams nv.2)))))

/-- The body of `_pipeline_signature`'s loop over the sorted parameter
items: skip non-JSON-serialisable defaults; a default whose exact type is a
`type_map` key keeps its value and that annotation; any other default is
annotated `str` and replaced by its JSON text (`dumpsStr`, the external
`json.dumps`).  Returns the `parameters` table and the `signature_params`
list, in iteration order. -/
def sigLoop (dumpsStr : PVal → String) :
    List (String × PVal) → List (String × QType) × List SigParam
  | [] => ([], [])
  | (param, default) :: rest =>
    let (ps, sps) := sigLoop dumpsStr rest
    if plainJson default then
      match pyTypeOf default with
      | some t => ((param, typeMapGet t) :: ps, ⟨param, default, t⟩ :: sps)
      | none =>
        ((param, .QStr) :: ps, ⟨param, .str (dumpsStr default), .strT⟩ :: sps)
    else (ps, sps)

/-- `_pipeline_signature` from `classifier.py`. -/
def _pipeline_signature (env : Env) (dumpsStr : PVal → String) (spec : PVal) :
    Except LoadErr (List (String × QType) × List SigParam) :=
  match pipeline_from_spec env spec with
  | .error e => .error e
  | .ok pipeline =>
    match pipelineGetParams pipeline with
    | .error e => .error e
    | .ok params => .ok (sigLoop dumpsStr (sortByKey params))

/-! ## Catalog fitter wrapper (`generic_fitter`) -/

/-- The best-effort decode of one incoming keyword value: a string runs
through the external `json.loads` (`loadsO`); on decode failure the raw
string is kept; a non-string value makes `json.loads` raise `TypeError`,
which is also caught, keeping the value. -/
def bestEffortParse (loadsO : String → Option PVal) : PVal → PVal
  | .str s => (loadsO s).getD (.str s)
  | v => v

/-- `generic_fitter` from `_register_fitter` in `classifier.py`, up to the
external fitting call: best-effort-decode every keyword override, rebuild
the fixed pipeline from its spec, and hand pipeline and overrides to the
external `set_params`/`fit_pipeline` contract (returned as a pair). -/
def generic_fitter (env : Env) (loadsO : String → Option PVal) (spec : PVal)
    (kwargs : List (String × PVal)) :
    Except LoadErr (Pipeline × List (String × PVal)) :=
  let kwargs := kwargs.map (fun kv => (kv.1, bestEffortParse loadsO kv.2))
  match pipeline_from_spec env spec with
  | .error e => .error e
  | .ok pipeline => .ok (pipeline, kwargs)

/-! ## Helper functions and predicates for the round-trip development -/

/-- Is a value a dict carrying the reserved `'__type__'` key (the shape the
decode hook fires on)? -/
def isTypeTagObj : PVal → Bool
  | .obj kvs => (PKVs.lookupKV kvs "__type__").isSome
  | _ => false

/-- One encode-then-decode round trip of a value (the value itself when
either half fails; the lemmas below only use it where both succeed). -/
def roundVal (env : Env) (v : PVal) : PVal :=
  match encodeVal v with
  | some w =>
    (match decodeVal env w with
     | .ok v' => v'
     | .error _ => v)
  | none => v

/-- Is a parameter entry dropped by the encoder: either its key matches a
`subobjs` entry or its value fails to serialise? -/
def entryDrop (sos : List String) (k : String) (v : PVal) : Bool :=
  subDropped sos k || (encodeVal v).isNone

/-- The keyword mapping the decode hook passes to the constructor when it
rebuilds an encoded estimator: the kept parameter entries, each one
round-tripped. -/
def keptKW (env : Env) (sos : List String) : PKVs → PKVs
  | .nil => .nil
  | .cons k v t =>
    if entryDrop sos k v then keptKW env sos t
    else .cons k (roundVal env v) (keptKW env sos t)

/-- The parameters of the rebuilt estimator, pairwise over the original
parameters and the signature: a kept entry round-trips, a dropped entry
falls back to its signature default. -/
def zipKept (env : Env) (sos : List String) : PKVs → PKVs → PKVs
  | .cons k v t, .cons _ d dt =>
    .cons k (if entryDrop sos k v then d else roundVal env v)
      (zipKept env sos t dt)
  | _, _ => .nil

/-- Pointwise fixed-point property of a parameter table: every entry value
that serialises at all round-trips to a value that re-encodes identically
and is an estimator exactly when the original was. -/
def entriesFixedParams (env : Env) (ps : PKVs) : Prop :=
  ∀ k v, PKVs.entryMem k v ps = true → ∀ w, encodeVal v = some w →
    decodeVal env w = .ok (roundVal env v) ∧ encodeVal (roundVal env v) = some w
    ∧ isEst (roundVal env v) = isEst v

/-! ## Spec-side statements for the resolver claim

These definitions follow the specification's wording (§4.2), for comparison
with `_load_class`'s actual behaviour. -/

/-- Is there an estimator-class attribute `c` in module table `t`? -/
def estClassAt (t : Module) (c : String) : Option ClassInfo :=
  match t.lookup c with
  | some (.cls info) => if info.isEstimator then some info else none
  | _ => none

/-- Every dotted prefix of the parent path is an importable sklearn
submodule and a package (has `__path__`): exactly when the parent-import
walk of `find_spec` gets through without raising. -/
def prefixPackagesOK (env : Env) (par : String) : Bool :=
  (dottedPrefixes par).all (fun p =>
    (env.sklearn.lookup p).isSome && env.sklearnPkgs.contains p)

/-- The success condition of the amended resolver claim: the tag has a
namespace separator, and its namespace resolves through the import system —
the literal `custom`, the empty namespace (sklearn itself), an undotted
existing sklearn submodule, or a dotted sklearn submodule all of whose
parent prefixes are importable packages — to a module holding an estimator
class of that name. -/
def resolvableSpec (env : Env) (s : String) : Bool :=
  hasChar '.' s &&
  (let (m, k) := rsplitDot s
   if m = "custom" then (estClassAt env.custom k).isSome
   else if m = "" then (estClassAt env.sklearnTop k).isSome
   else if strPre "." m then false
   else
     match parentOf m with
     | none => (env.sklearn.lookup m).isSome
         && (estClassAt ((env.sklearn.lookup m).getD []) k).isSome
     | some par => prefixPackagesOK env par
         && (env.sklearn.lookup m).isSome
         && (estClassAt ((env.sklearn.lookup m).getD []) k).isSome)

/-- The relative-resolution escape from the uniform error: a namespace
part that itself starts with a dot makes `find_spec`'s relative-name
resolution raise plain ImportError. -/
def relativeEscape (s : String) : Bool :=
  hasChar '.' s &&
  (let (m, _) := rsplitDot s
   decide ¬(m = "custom") && decide ¬(m = "") && strPre "." m)

/-- The import-system escape from the uniform error: importing the dotted
namespace's parent chain hits a missing prefix or a plain-module
intermediate, and `__import__` raises `ModuleNotFoundError` out of
`find_spec` instead of the uniform `ValueError`. -/
def importEscape (env : Env) (s : String) : Bool :=
  hasChar '.' s &&
  (let (m, _) := rsplitDot s
   decide ¬(m = "custom") && decide ¬(m = "") && !strPre "." m &&
   (match parentOf m with
    | none => false
    | some par =>
      match walkImport env (dottedPrefixes par) with
      | .error (.moduleNotFound _) => true
      | .error (.notAPackage _) => true
      | _ => false))

/-- The `__path__` escape from the uniform error: the dotted namespace's
parent chain imports, but the immediate parent is a plain module, so
`find_spec`'s `parent.__path__` access fails (`AttributeError` on
Python 3.5/3.6, `ModuleNotFoundError` from 3.7) instead of returning
`None`. -/
def pathEscape (env : Env) (s : String) : Bool :=
  hasChar '.' s &&
  (let (m, _) := rsplitDot s
   decide ¬(m = "custom") && decide ¬(m = "") && !strPre "." m &&
   (match parentOf m with
    | none => false
    | some par =>
      match walkImport env (dottedPrefixes par) with
      | .error (.noPathAttr _) => true
      | _ => false))

/-- The `issubclass` escape from the uniform error: the namespace resolves
and the name exists but is not a class, so `issubclass` raises `TypeError`
instead of the uniform `ValueError`. -/
def classEscape (env : Env) (s : String) : Bool :=
  hasChar '.' s &&
  (let (m, k) := rsplitDot s
   let table :=
     if m = "custom" then some env.custom
     else if m = "" then some env.sklearnTop
     else if strPre "." m then none
     else
       match parentOf m with
       | none => if (env.sklearn.lookup m).isSome
           then some ((env.sklearn.lookup m).getD []) else none
       | some par => if prefixPackagesOK env par
             && (env.sklearn.lookup m).isSome
           then some ((env.sklearn.lookup m).getD []) else none
   match table with
   | some t => t.lookup k == some .other
   | none => false)

/-! # Theorems -/

/-! ## Splitting and prefix lemmas -/

theorem breakFirst_eq {c : Char} :
    ∀ {l a b : List Char}, breakFirst c l = some (a, b) →
      l = a ++ c :: b ∧ c ∉ a := by
  intro l
  induction l with
  | nil => intro a b h; simp [breakFirst] at h
  | cons x xs ih =>
    intro a b h
    by_cases hx : x = c
    · subst hx
      simp only [breakFirst, eq_self_iff_true, ite_true, Option.some.injEq,
        Prod.mk.injEq] at h
      obtain ⟨ha, hb⟩ := h
      subst hb
      rw [← ha]
      simp
    · simp only [breakFirst, if_neg hx] at h
      match hbf : breakFirst c xs with
      | none => rw [hbf] at h; simp at h
      | some (a', b') =>
        rw [hbf] at h
        simp only [Option.map_some', Option.some.injEq, Prod.mk.injEq] at h
        obtain ⟨ha, hb⟩ := h
        subst hb
        obtain ⟨hl, hm⟩ := ih hbf
        refine ⟨by rw [← ha, hl]; simp, ?_⟩
        rw [← ha]
        intro hmem
        rcases List.mem_cons.mp hmem with h1 | h2
        · exact hx h1.symm
        · exact hm h2

theorem breakFirst_append {c : Char} :
    ∀ {a : List Char} (b : List Char), c ∉ a →
      breakFirst c (a ++ c :: b) = some (a, b) := by
  intro a
  induction a with
  | nil => intro b _; simp [breakFirst]
  | cons x xs ih =>
    intro b hni
    have hx : ¬ x = c := fun h => hni (h ▸ List.mem_cons_self x xs)
    have hxs : c ∉ xs := fun h => hni (List.mem_cons_of_mem x h)
    simp [breakFirst, hx, ih b hxs]

theorem breakLast_eq {c : Char} {l a b : List Char}
    (h : breakLast c l = some (a, b)) : l = a ++ c :: b ∧ c ∉ b := by
  unfold breakLast at h
  match hbf : breakFirst c l.reverse with
  | none => rw [hbf] at h; simp at h
  | some (a', b') =>
    rw [hbf] at h
    simp only [Option.map_some', Option.some.injEq, Prod.mk.injEq] at h
    obtain ⟨ha, hb⟩ := h
    obtain ⟨hl, hm⟩ := breakFirst_eq hbf
    have hl' : l = b'.reverse ++ c :: a'.reverse := by
      have := congrArg List.reverse hl
      simpa [List.reverse_append] using this
    subst ha; subst hb
    exact ⟨hl', by simpa using hm⟩

theorem breakLast_append {c : Char} (a : List Char) {b : List Char}
    (h : c ∉ b) : breakLast c (a ++ c :: b) = some (a, b) := by
  unfold breakLast
  have hrev : (a ++ c :: b).reverse = b.reverse ++ c :: a.reverse := by
    simp [List.reverse_append]
  rw [hrev, breakFirst_append a.reverse (by simpa using h)]
  simp

theorem data_append_dot (m c : String) :
    (m ++ "." ++ c).data = m.data ++ '.' :: c.data := by
  simp [String.data_append]

theorem hasChar_dot_append (m c : String) :
    hasChar '.' (m ++ "." ++ c) = true := by
  have : '.' ∈ (m ++ "." ++ c).data := by
    rw [data_append_dot]
    simp
  simp only [hasChar, List.contains_iff_exists_mem_beq]
  exact ⟨'.', this, rfl⟩

theorem rsplitDot_append (m c : String) (hc : '.' ∉ c.data) :
    rsplitDot (m ++ "." ++ c) = (m, c) := by
  unfold rsplitDot
  rw [data_append_dot, breakLast_append m.data hc]

theorem afterFirstDot_append (m c : String) (hm : '.' ∉ m.data) :
    afterFirstDot (m ++ "." ++ c) = c := by
  unfold afterFirstDot
  rw [data_append_dot, breakFirst_append c.data hm]

theorem strPre_iff {p s : String} : strPre p s = true ↔ p.data <+: s.data := by
  simp [strPre, List.isPrefixOf_iff_prefix]

theorem strPre_trans_append {a j k : String}
    (h1 : strPre (a ++ "__") j = true) (h2 : strPre (j ++ "__") k = true) :
    strPre (a ++ "__") k = true := by
  rw [strPre_iff] at *
  exact h1.trans ((List.prefix_append j.data "__".data).trans
    (by simpa [String.data_append] using h2))

theorem breakFirst_isSome_of_mem {c : Char} :
    ∀ {l : List Char}, c ∈ l → (breakFirst c l).isSome = true := by
  intro l
  induction l with
  | nil => intro h; simp at h
  | cons x xs ih =>
    intro h
    by_cases hx : x = c
    · simp [breakFirst, hx]
    · have : c ∈ xs := by
        rcases List.mem_cons.mp h with h1 | h2
        · exact absurd h1.symm hx
        · exact h2
      simp only [breakFirst, if_neg hx]
      match hbf : breakFirst c xs with
      | none => rw [hbf] at ih; simp [ih this] at *
      | some p => simp

theorem rsplitDot_no_dot {s a b : String} (hs : hasChar '.' s = true)
    (h : rsplitDot s = (a, b)) : '.' ∉ b.data ∧ s = a ++ "." ++ b := by
  have hmem : '.' ∈ s.data := by
    simpa [hasChar, List.contains_iff_exists_mem_beq] using hs
  have hrev : '.' ∈ s.data.reverse := by simpa using hmem
  have hsome := breakFirst_isSome_of_mem hrev
  unfold rsplitDot at h
  match hbl : breakLast '.' s.data with
  | none =>
    exfalso
    unfold breakLast at hbl
    match hbf : breakFirst '.' s.data.reverse with
    | none => rw [hbf] at hsome; simp at hsome
    | some p => rw [hbf] at hbl; simp at hbl
  | some (x, y) =>
    rw [hbl] at h
    obtain ⟨he, hni⟩ := breakLast_eq hbl
    simp only [Prod.mk.injEq] at h
    obtain ⟨ha, hb⟩ := h
    subst ha; subst hb
    refine ⟨hni, ?_⟩
    apply String.ext
    rw [data_append_dot]
    exact he

/-! ## Induction principles for the key/value and list components -/

@[induction_eliminator]
theorem PKVs.kvsInduction {motive : PKVs → Prop} (nil : motive .nil)
    (cons : ∀ (k : String) (v : PVal) (t : PKVs), motive t → motive (.cons k v t)) :
    ∀ l, motive l
  | .nil => nil
  | .cons k v t => cons k v t (PKVs.kvsInduction nil cons t)

@[induction_eliminator]
theorem PList.plistInduction {motive : PList → Prop} (nil : motive .nil)
    (cons : ∀ (v : PVal) (t : PList), motive t → motive (.cons v t)) :
    ∀ l, motive l
  | .nil => nil
  | .cons v t => cons v t (PList.plistInduction nil cons t)

/-! ## Generic association-list lemmas -/

theorem lookup_mem {α β} [BEq α] [LawfulBEq α] :
    ∀ {l : List (α × β)} {a : α} {b : β}, l.lookup a = some b → (a, b) ∈ l := by
  intro l
  induction l with
  | nil => intro a b h; simp [List.lookup] at h
  | cons x t ih =>
    intro a b h
    match x with
    | (k, v) =>
      by_cases hk : a == k
      · simp only [List.lookup, hk, Option.some.injEq] at h
        have : a = k := eq_of_beq hk
        subst this
        subst h
        exact List.mem_cons_self _ _
      · simp only [List.lookup, Bool.not_eq_true] at h
        rw [Bool.eq_false_iff.mpr hk] at h
        exact List.mem_cons_of_mem _ (ih h)

namespace PKVs

theorem lookupKV_entryMem : ∀ {kvs : PKVs} {k v},
    lookupKV kvs k = some v → entryMem k v kvs = true := by
  intro kvs
  induction kvs with
  | nil => intro k v h; simp [lookupKV] at h
  | cons k' v' t ih =>
    intro k v h
    by_cases hk : k' = k
    · simp only [lookupKV, if_pos hk, Option.some.injEq] at h
      simp [entryMem, hk, h]
    · simp only [lookupKV, if_neg hk] at h
      simp [entryMem, ih h]

theorem entryMem_cons {k v k' v' : _} {t : PKVs} :
    entryMem k v (.cons k' v' t) = true ↔ (k = k' ∧ v = v') ∨ entryMem k v t = true := by
  simp [entryMem]

theorem lookupKV_eq_none_of_not_hasKey : ∀ {kvs : PKVs} {k},
    hasKey kvs k = false → lookupKV kvs k = none := by
  intro kvs
  induction kvs with
  | nil => intro k _; rfl
  | cons k' v' t ih =>
    intro k h
    simp only [hasKey, Bool.or_eq_false_iff, decide_eq_false_iff_not] at h
    simp [lookupKV, h.1, ih h.2]

theorem hasKey_of_entryMem : ∀ {kvs : PKVs} {k v},
    entryMem k v kvs = true → hasKey kvs k = true := by
  intro kvs
  induction kvs with
  | nil => intro k v h; simp [entryMem] at h
  | cons k' v' t ih =>
    intro k v h
    rcases entryMem_cons.mp h with ⟨h1, _⟩ | h2
    · simp [hasKey, h1]
    · simp [hasKey, ih h2]

theorem entryMem_of_removeKey : ∀ {kvs : PKVs} {k v k'},
    entryMem k v (removeKey kvs k') = true → entryMem k v kvs = true ∧ k ≠ k' := by
  intro kvs
  induction kvs with
  | nil => intro k v k' h; simp [removeKey, entryMem] at h
  | cons a b t ih =>
    intro k v k' h
    by_cases ha : a = k'
    · rw [removeKey, if_pos ha] at h
      obtain ⟨h1, h2⟩ := ih h
      exact ⟨entryMem_cons.mpr (Or.inr h1), h2⟩
    · rw [removeKey, if_neg ha] at h
      rcases entryMem_cons.mp h with ⟨h1, h2⟩ | h2
      · exact ⟨entryMem_cons.mpr (Or.inl ⟨h1, h2⟩), by rw [h1]; exact ha⟩
      · obtain ⟨h3, h4⟩ := ih h2
        exact ⟨entryMem_cons.mpr (Or.inr h3), h4⟩

theorem hasKey_iff_mem_keys : ∀ {kvs : PKVs} {k},
    hasKey kvs k = true ↔ k ∈ keysOf kvs := by
  intro kvs
  induction kvs with
  | nil => intro k; simp [hasKey, keysOf]
  | cons a b t ih =>
    intro k
    simp only [hasKey, keysOf, Bool.or_eq_true, decide_eq_true_eq, List.mem_cons]
    constructor
    · rintro (h | h)
      · exact Or.inl h.symm
      · exact Or.inr (ih.mp h)
    · rintro (h | h)
      · exact Or.inl h.symm
      · exact Or.inr (ih.mpr h)

theorem keysOf_append : ∀ {a b : PKVs},
    keysOf (append a b) = keysOf a ++ keysOf b := by
  intro a
  induction a with
  | nil => intro b; rfl
  | cons k v t ih => intro b; simp [append, keysOf, ih]

end PKVs

/-! ## Resolver lemmas -/

theorem moduleOK_lookup {t : Module} {c info} (hok : moduleOK t = true)
    (h : t.lookup c = some (.cls info)) : defaultsOK info.defaults = true := by
  have hm := lookup_mem h
  have := List.all_eq_true.mp hok _ hm
  simpa using this

theorem moduleNoEstimator_lookup {t : Module} {c info}
    (hne : moduleNoEstimator t = true)
    (h : t.lookup c = some (.cls info)) : info.isEstimator = false := by
  have hm := lookup_mem h
  have := List.all_eq_true.mp hne _ hm
  simpa using this

/-- Case analysis of a successful resolution: the class is an estimator, the
attribute name carries no dot, and the resolved module is the custom module,
sklearn itself, or a found sklearn submodule. -/
theorem load_ok_shape {env : Env} {s m c : String} {info : ClassInfo}
    (h : _load_class env s = .ok (m, c, info)) :
    info.isEstimator = true ∧ '.' ∉ c.data ∧
    ((m = "q2_feature_classifier.custom" ∧ env.custom.lookup c = some (.cls info)) ∨
     (m = "sklearn" ∧ env.sklearnTop.lookup c = some (.cls info)) ∨
     (∃ ms, ms ≠ "custom" ∧ ms ≠ "" ∧ m = "sklearn." ++ ms ∧
        findSpecSk env ms = .ok true ∧
        ((env.sklearn.lookup ms).getD []).lookup c = some (.cls info))) := by
  unfold _load_class at h
  by_cases hdot : hasChar '.' s
  · rw [if_neg (by simp [hdot])] at h
    match hrs : rsplitDot s with
    | (module, klass) =>
      rw [hrs] at h
      dsimp only at h
      obtain ⟨hnd, _⟩ := rsplitDot_no_dot hdot hrs
      by_cases hcu : module = "custom"
      · rw [if_pos hcu] at h
        dsimp only at h
        match hlk : env.custom.lookup klass with
        | none => rw [hlk] at h; exact absurd h (by simp)
        | some .other => rw [hlk] at h; exact absurd h (by simp)
        | some (.cls i) =>
          rw [hlk] at h
          dsimp only at h
          by_cases hest : i.isEstimator
          · rw [if_pos hest] at h
            simp only [Except.ok.injEq, Prod.mk.injEq] at h
            obtain ⟨h1, h2, h3⟩ := h
            subst h1; subst h2; subst h3
            exact ⟨hest, hnd, Or.inl ⟨rfl, hlk⟩⟩
          · rw [if_neg hest] at h; exact absurd h (by simp)
      · rw [if_neg hcu] at h
        match hfs : findSpecSk env module with
        | .error e => rw [hfs] at h; exact absurd h (by simp)
        | .ok false => rw [hfs] at h; exact absurd h (by simp)
        | .ok true =>
          rw [hfs] at h
          simp only [importSk] at h
          by_cases hemp : module = ""
          · rw [if_pos hemp] at h
            dsimp only at h
            match hlk : env.sklearnTop.lookup klass with
            | none => rw [hlk] at h; exact absurd h (by simp)
            | some .other => rw [hlk] at h; exact absurd h (by simp)
            | some (.cls i) =>
              rw [hlk] at h
              dsimp only at h
              by_cases hest : i.isEstimator
              · rw [if_pos hest] at h
                simp only [Except.ok.injEq, Prod.mk.injEq] at h
                obtain ⟨h1, h2, h3⟩ := h
                subst h1; subst h2; subst h3
                exact ⟨hest, hnd, Or.inr (Or.inl ⟨rfl, hlk⟩)⟩
              · rw [if_neg hest] at h; exact absurd h (by simp)
          · rw [if_neg hemp] at h
            dsimp only at h
            match hlk : ((env.sklearn.lookup module).getD []).lookup klass with
            | none => rw [hlk] at h; exact absurd h (by simp)
            | some .other => rw [hlk] at h; exact absurd h (by simp)
            | some (.cls i) =>
              rw [hlk] at h
              dsimp only at h
              by_cases hest : i.isEstimator
              · rw [if_pos hest] at h
                simp only [Except.ok.injEq, Prod.mk.injEq] at h
                obtain ⟨h1, h2, h3⟩ := h
                subst h1; subst h2; subst h3
                exact ⟨hest, hnd, Or.inr (Or.inr ⟨module, hcu, hemp, rfl, hfs, hlk⟩)⟩
              · rw [if_neg hest] at h; exact absurd h (by simp)
  · rw [if_pos (by simp [hdot])] at h
    exact absurd h (by simp)

theorem sklearn_dotfree : '.' ∉ "sklearn".data := by decide

theorem q2fc_dotfree : '.' ∉ "q2_feature_classifier".data := by decide

theorem custom_full_split :
    ("q2_feature_classifier.custom" : String) = "q2_feature_classifier" ++ "." ++ "custom" := by
  decide

theorem sklearn_pre_split (ms : String) :
    ("sklearn." ++ ms : String) = "sklearn" ++ "." ++ ms := by
  apply String.ext
  simp [String.data_append]

/-- A resolved class re-resolves: running `_load_class` on the tag the
encoder would write for the resolved `(module, name)` pair finds the very
same class.  Needs the well-formed environment to rule out top-level
estimator classes, whose tags would lose their namespace. -/
theorem load_reresolve {env : Env} {s m c : String} {info : ClassInfo}
    (hwf : EnvWF env = true)
    (h : _load_class env s = .ok (m, c, info)) :
    reresolve env m c = some info := by
  obtain ⟨hest, hnd, hcase⟩ := load_ok_shape h
  have hwf4 : moduleNoEstimator env.sklearnTop = true := by
    simp only [EnvWF, Bool.and_eq_true] at hwf
    exact hwf.2
  rcases hcase with ⟨hm, hlk⟩ | ⟨hm, hlk⟩ | ⟨ms, hms1, hms2, hm, hfs, hlk⟩
  · -- custom module
    subst hm
    have htag : tagOf "q2_feature_classifier.custom" c = "custom" ++ "." ++ c := by
      unfold tagOf
      rw [custom_full_split]
      have : "q2_feature_classifier" ++ "." ++ "custom" ++ "." ++ c
          = "q2_feature_classifier" ++ "." ++ ("custom" ++ "." ++ c) := by
        apply String.ext
        simp [String.data_append]
      rw [this, afterFirstDot_append _ _ q2fc_dotfree]
    unfold reresolve
    rw [htag]
    have hload : _load_class env ("custom" ++ "." ++ c) =
        .ok ("q2_feature_classifier.custom", c, info) := by
      unfold _load_class
      rw [if_neg (not_not_intro (hasChar_dot_append "custom" c))]
      rw [rsplitDot_append "custom" c hnd]
      dsimp only
      rw [if_pos rfl]
      dsimp only
      rw [hlk]
      dsimp only
      rw [if_pos hest]
    rw [hload]
    simp
  · -- top-level sklearn: impossible in a well-formed environment
    exact absurd hest (by simp [moduleNoEstimator_lookup hwf4 hlk])
  · -- sklearn submodule
    subst hm
    have htag : tagOf ("sklearn." ++ ms) c = ms ++ "." ++ c := by
      unfold tagOf
      rw [sklearn_pre_split]
      have : "sklearn" ++ "." ++ ms ++ "." ++ c
          = "sklearn" ++ "." ++ (ms ++ "." ++ c) := by
        apply String.ext
        simp [String.data_append]
      rw [this, afterFirstDot_append _ _ sklearn_dotfree]
    unfold reresolve
    rw [htag]
    have hload : _load_class env (ms ++ "." ++ c) =
        .ok ("sklearn." ++ ms, c, info) := by
      unfold _load_class
      rw [if_neg (not_not_intro (hasChar_dot_append ms c))]
      rw [rsplitDot_append ms c hnd]
      dsimp only
      rw [if_neg hms1, hfs]
      dsimp only
      rw [importSk, if_neg hms2]
      dsimp only
      rw [hlk]
      dsimp only
      rw [if_pos hest]
    rw [hload]
    simp

/-- The signature of a resolved class is well-behaved in a well-formed
environment. -/
theorem load_defaultsOK {env : Env} {s m c : String} {info : ClassInfo}
    (hwf : EnvWF env = true)
    (h : _load_class env s = .ok (m, c, info)) :
    defaultsOK info.defaults = true := by
  obtain ⟨_, _, hcase⟩ := load_ok_shape h
  simp only [EnvWF, Bool.and_eq_true] at hwf
  obtain ⟨⟨⟨hcu, htop⟩, hsub⟩, _⟩ := hwf
  rcases hcase with ⟨_, hlk⟩ | ⟨_, hlk⟩ | ⟨ms, _, _, _, _, hlk⟩
  · exact moduleOK_lookup hcu hlk
  · exact moduleOK_lookup htop hlk
  · match hms : env.sklearn.lookup ms with
    | none => rw [hms] at hlk; simp [List.lookup] at hlk
    | some t =>
      rw [hms] at hlk
      simp only [Option.getD_some] at hlk
      have hmem := lookup_mem hms
      have := List.all_eq_true.mp hsub _ hmem
      exact moduleOK_lookup (by simpa using this) hlk

/-! ## Encoder basics -/

theorem plainJsonKVs_append : ∀ {a b : PKVs},
    plainJsonKVs a = true → plainJsonKVs b = true →
    plainJsonKVs (PKVs.append a b) = true := by
  intro a
  induction a with
  | nil => intro b _ hb; exact hb
  | cons k v t ih =>
    intro b ha hb
    simp only [plainJsonKVs, Bool.and_eq_true] at ha
    simp [PKVs.append, plainJsonKVs, ha.1, ih ha.2 hb]

mutual
theorem encode_plain : ∀ (v : PVal), plainJson v = true → encodeVal v = some v
  | .null, _ => rfl
  | .bool _, _ => rfl
  | .int _, _ => rfl
  | .float _, _ => rfl
  | .str _, _ => rfl
  | .arr xs, h => by
    have := encode_plain_list xs (by simpa [plainJson] using h)
    simp [encodeVal, this]
  | .obj kvs, h => by
    have := encode_plain_kvs kvs (by simpa [plainJson] using h)
    simp [encodeVal, this]
  | .est _ _ _, h => by simp [plainJson] at h
  | .blob _, h => by simp [plainJson] at h
theorem encode_plain_list : ∀ (l : PList), plainJsonList l = true → encodeList l = some l
  | .nil, _ => rfl
  | .cons v t, h => by
    simp only [plainJsonList, Bool.and_eq_true] at h
    simp [encodeList, encode_plain v h.1, encode_plain_list t h.2]
theorem encode_plain_kvs : ∀ (l : PKVs), plainJsonKVs l = true → encodeKVs l = some l
  | .nil, _ => rfl
  | .cons k v t, h => by
    simp only [plainJsonKVs, Bool.and_eq_true] at h
    simp [encodeKVs, encode_plain v h.1, encode_plain_kvs t h.2]
end

mutual
theorem encode_out_plain : ∀ (v : PVal) {w : PVal},
    encodeVal v = some w → plainJson w = true
  | .null, _, h => by
    rw [show encodeVal .null = some .null from rfl] at h
    cases h; rfl
  | .bool b, _, h => by
    rw [show encodeVal (.bool b) = some (.bool b) from rfl] at h
    cases h; rfl
  | .int n, _, h => by
    rw [show encodeVal (.int n) = some (.int n) from rfl] at h
    cases h; rfl
  | .float q, _, h => by
    rw [show encodeVal (.float q) = some (.float q) from rfl] at h
    cases h; rfl
  | .str s, _, h => by
    rw [show encodeVal (.str s) = some (.str s) from rfl] at h
    cases h; rfl
  | .arr xs, w, h => by
    simp only [encodeVal] at h
    match he : encodeList xs with
    | none => rw [he] at h; simp at h
    | some ys =>
      rw [he] at h
      simp only [Option.map_some', Option.some.injEq] at h
      subst h
      simpa [plainJson] using encode_out_plain_list xs he
  | .obj kvs, w, h => by
    simp only [encodeVal] at h
    match he : encodeKVs kvs with
    | none => rw [he] at h; simp at h
    | some ys =>
      rw [he] at h
      simp only [Option.map_some', Option.some.injEq] at h
      subst h
      simpa [plainJson] using encode_out_plain_kvs kvs he
  | .est m c ps, w, h => by
    simp only [encodeVal, Option.some.injEq] at h
    subst h
    simp only [plainJson]
    have h1 := encode_out_plain_params (subobjsOf (flattenKVs ps)) ps
    have h2 : plainJsonKVs (.cons "__type__" (.str (tagOf m c)) .nil) = true := by
      simp [plainJsonKVs, plainJson]
    exact plainJsonKVs_append h1 h2
  | .blob _, _, h => by simp [encodeVal] at h
theorem encode_out_plain_list : ∀ (l : PList) {l' : PList},
    encodeList l = some l' → plainJsonList l' = true
  | .nil, _, h => by
    rw [show encodeList .nil = some .nil from rfl] at h
    cases h; rfl
  | .cons v t, l', h => by
    simp only [encodeList] at h
    match hv : encodeVal v with
    | none => rw [hv] at h; simp at h
    | some w =>
      rw [hv] at h
      match ht : encodeList t with
      | none => rw [ht] at h; simp at h
      | some t' =>
        rw [ht] at h
        simp only [Option.map_some', Option.some.injEq] at h
        subst h
        simp [plainJsonList, encode_out_plain v hv, encode_out_plain_list t ht]
theorem encode_out_plain_kvs : ∀ (l : PKVs) {l' : PKVs},
    encodeKVs l = some l' → plainJsonKVs l' = true
  | .nil, _, h => by
    rw [show encodeKVs .nil = some .nil from rfl] at h
    cases h; rfl
  | .cons k v t, l', h => by
    simp only [encodeKVs] at h
    match hv : encodeVal v with
    | none => rw [hv] at h; simp at h
    | some w =>
      rw [hv] at h
      match ht : encodeKVs t with
      | none => rw [ht] at h; simp at h
      | some t' =>
        rw [ht] at h
        simp only [Option.map_some', Option.some.injEq] at h
        subst h
        simp [plainJsonKVs, encode_out_plain v hv, encode_out_plain_kvs t ht]
theorem encode_out_plain_params : ∀ (sos : List String) (l : PKVs),
    plainJsonKVs (encodeParams sos l) = true
  | _, .nil => rfl
  | sos, .cons k v t => by
    simp only [encodeParams]
    by_cases hd : subDropped sos k
    · rw [if_pos hd]
      exact encode_out_plain_params sos t
    · rw [if_neg hd]
      match hv : encodeVal v with
      | none => exact encode_out_plain_params sos t
      | some w =>
        simp [plainJsonKVs, encode_out_plain v hv, encode_out_plain_params sos t]
end

/-! ## Decoder traversal lemmas -/

theorem decodeKVs_keys (env : Env) : ∀ (l : PKVs) {l' : PKVs},
    decodeKVs env l = .ok l' → PKVs.keysOf l' = PKVs.keysOf l := by
  intro l
  induction l with
  | nil =>
    intro l' h
    rw [show decodeKVs env .nil = .ok .nil from rfl] at h
    cases h; rfl
  | cons k v t ih =>
    intro l' h
    simp only [decodeKVs] at h
    match hv : decodeVal env v with
    | .error e => rw [hv] at h; simp at h
    | .ok v' =>
      rw [hv] at h
      match ht : decodeKVs env t with
      | .error e => rw [ht] at h; simp at h
      | .ok t' =>
        rw [ht] at h
        simp only [Except.ok.injEq] at h
        subst h
        simp [PKVs.keysOf, ih ht]

theorem decodeKVs_entries (env : Env) : ∀ (l : PKVs) {l' : PKVs},
    decodeKVs env l = .ok l' →
    ∀ k v', PKVs.entryMem k v' l' = true →
      ∃ v, PKVs.entryMem k v l = true ∧ decodeVal env v = .ok v' := by
  intro l
  induction l with
  | nil =>
    intro l' h k v' hm
    rw [show decodeKVs env .nil = .ok .nil from rfl] at h
    cases h
    simp [PKVs.entryMem] at hm
  | cons k0 v0 t ih =>
    intro l' h k v' hm
    simp only [decodeKVs] at h
    match hv : decodeVal env v0 with
    | .error e => rw [hv] at h; simp at h
    | .ok w0 =>
      rw [hv] at h
      match ht : decodeKVs env t with
      | .error e => rw [ht] at h; simp at h
      | .ok t' =>
        rw [ht] at h
        simp only [Except.ok.injEq] at h
        subst h
        rcases PKVs.entryMem_cons.mp hm with ⟨h1, h2⟩ | h2
        · subst h1; subst h2
          exact ⟨v0, PKVs.entryMem_cons.mpr (Or.inl ⟨rfl, rfl⟩), hv⟩
        · obtain ⟨v, hv1, hv2⟩ := ih ht k v' h2
          exact ⟨v, PKVs.entryMem_cons.mpr (Or.inr hv1), hv2⟩

theorem decodeKVs_append (env : Env) : ∀ (a : PKVs) {a' b b' : PKVs},
    decodeKVs env a = .ok a' → decodeKVs env b = .ok b' →
    decodeKVs env (PKVs.append a b) = .ok (PKVs.append a' b') := by
  intro a
  induction a with
  | nil =>
    intro a' b b' ha hb
    rw [show decodeKVs env .nil = .ok .nil from rfl] at ha
    cases ha
    exact hb
  | cons k v t ih =>
    intro a' b b' ha hb
    simp only [decodeKVs] at ha
    match hv : decodeVal env v with
    | .error e => rw [hv] at ha; simp at ha
    | .ok v' =>
      rw [hv] at ha
      match ht : decodeKVs env t with
      | .error e => rw [ht] at ha; simp at ha
      | .ok t' =>
        rw [ht] at ha
        simp only [Except.ok.injEq] at ha
        subst ha
        simp only [PKVs.append, decodeKVs]
        rw [hv, ih ht hb]

/-! ## Flattened parameters and the `subobjs` filter -/

theorem strPre_self_append (p k : String) : strPre p (p ++ k) = true := by
  rw [strPre_iff, String.data_append]
  exact List.prefix_append p.data k.data

theorem entryMem_append_iff {k : String} {v : PVal} : ∀ {a b : PKVs},
    PKVs.entryMem k v (PKVs.append a b) = true ↔
      PKVs.entryMem k v a = true ∨ PKVs.entryMem k v b = true := by
  intro a
  induction a with
  | nil => intro b; simp [PKVs.append, PKVs.entryMem]
  | cons k0 v0 t ih =>
    intro b
    simp only [PKVs.append]
    rw [PKVs.entryMem_cons, PKVs.entryMem_cons, ih]
    tauto

theorem withKeyPre_entry {p : String} : ∀ (l : PKVs) {k : String} {v : PVal},
    PKVs.entryMem k v (PKVs.withKeyPre p l) = true →
    ∃ k0, k = p ++ k0 ∧ PKVs.entryMem k0 v l = true := by
  intro l
  induction l with
  | nil => intro k v h; simp [PKVs.withKeyPre, PKVs.entryMem] at h
  | cons k0 v0 t ih =>
    intro k v h
    simp only [PKVs.withKeyPre] at h
    rcases PKVs.entryMem_cons.mp h with ⟨h1, h2⟩ | h2
    · exact ⟨k0, h1, PKVs.entryMem_cons.mpr (Or.inl ⟨rfl, h2⟩)⟩
    · obtain ⟨k1, hk1, hk2⟩ := ih h2
      exact ⟨k1, hk1, PKVs.entryMem_cons.mpr (Or.inr hk2)⟩

theorem flatten_has_direct : ∀ (l : PKVs) {k : String} {v : PVal},
    PKVs.entryMem k v l = true → PKVs.entryMem k v (flattenKVs l) = true := by
  intro l
  induction l with
  | nil => intro k v h; simp [PKVs.entryMem] at h
  | cons k0 v0 t ih =>
    intro k v h
    rw [show flattenKVs (.cons k0 v0 t)
      = PKVs.append (PKVs.withKeyPre (k0 ++ "__") (deepParams v0))
          (.cons k0 v0 (flattenKVs t)) from rfl]
    rcases PKVs.entryMem_cons.mp h with ⟨h1, h2⟩ | h2
    · exact entryMem_append_iff.mpr
        (Or.inr (PKVs.entryMem_cons.mpr (Or.inl ⟨h1, h2⟩)))
    · exact entryMem_append_iff.mpr
        (Or.inr (PKVs.entryMem_cons.mpr (Or.inr (ih h2))))

theorem flatten_est_entry : ∀ (l : PKVs) {k : String} {v : PVal},
    PKVs.entryMem k v (flattenKVs l) = true →
    PKVs.entryMem k v l = true ∨
      ∃ a u, PKVs.entryMem a u l = true ∧ isEst u = true ∧
        strPre (a ++ "__") k = true := by
  intro l
  induction l with
  | nil => intro k v h; simp [flattenKVs, PKVs.entryMem] at h
  | cons k0 v0 t ih =>
    intro k v h
    rw [show flattenKVs (.cons k0 v0 t)
      = PKVs.append (PKVs.withKeyPre (k0 ++ "__") (deepParams v0))
          (.cons k0 v0 (flattenKVs t)) from rfl] at h
    rcases entryMem_append_iff.mp h with h1 | h2
    · match v0, h1 with
      | .est m c ps, h1 =>
        obtain ⟨k1, hk1, _⟩ := withKeyPre_entry _ h1
        refine Or.inr ⟨k0, .est m c ps,
          PKVs.entryMem_cons.mpr (Or.inl ⟨rfl, rfl⟩), rfl, ?_⟩
        rw [hk1]
        exact strPre_self_append _ _
      | .null, h1 => simp [deepParams, PKVs.withKeyPre, PKVs.entryMem] at h1
      | .bool _, h1 => simp [deepParams, PKVs.withKeyPre, PKVs.entryMem] at h1
      | .int _, h1 => simp [deepParams, PKVs.withKeyPre, PKVs.entryMem] at h1
      | .float _, h1 => simp [deepParams, PKVs.withKeyPre, PKVs.entryMem] at h1
      | .str _, h1 => simp [deepParams, PKVs.withKeyPre, PKVs.entryMem] at h1
      | .arr _, h1 => simp [deepParams, PKVs.withKeyPre, PKVs.entryMem] at h1
      | .obj _, h1 => simp [deepParams, PKVs.withKeyPre, PKVs.entryMem] at h1
      | .blob _, h1 => simp [deepParams, PKVs.withKeyPre, PKVs.entryMem] at h1
    · rcases PKVs.entryMem_cons.mp h2 with ⟨h3, h4⟩ | h4
      · exact Or.inl (PKVs.entryMem_cons.mpr (Or.inl ⟨h3, h4⟩))
      · rcases ih h4 with h5 | ⟨a, u, ha, hu, hp⟩
        · exact Or.inl (PKVs.entryMem_cons.mpr (Or.inr h5))
        · exact Or.inr ⟨a, u, PKVs.entryMem_cons.mpr (Or.inr ha), hu, hp⟩

theorem mem_subobjsOf : ∀ (l : PKVs) {so : String},
    so ∈ subobjsOf l ↔
      ∃ k v, PKVs.entryMem k v l = true ∧ isEst v = true ∧ so = k ++ "__" := by
  intro l
  induction l with
  | nil =>
    intro so
    simp only [subobjsOf]
    constructor
    · intro h; simp at h
    · rintro ⟨k, v, h, _, _⟩; simp [PKVs.entryMem] at h
  | cons k0 v0 t ih =>
    intro so
    simp only [subobjsOf]
    by_cases he : isEst v0
    · rw [if_pos he]
      constructor
      · intro h
        rcases List.mem_cons.mp h with h1 | h2
        · exact ⟨k0, v0, PKVs.entryMem_cons.mpr (Or.inl ⟨rfl, rfl⟩), he, h1⟩
        · obtain ⟨k, v, h3, h4, h5⟩ := ih.mp h2
          exact ⟨k, v, PKVs.entryMem_cons.mpr (Or.inr h3), h4, h5⟩
      · rintro ⟨k, v, h3, h4, h5⟩
        rcases PKVs.entryMem_cons.mp h3 with ⟨h6, h7⟩ | h7
        · subst h6; exact List.mem_cons.mpr (Or.inl h5)
        · exact List.mem_cons.mpr (Or.inr (ih.mpr ⟨k, v, h7, h4, h5⟩))
    · rw [if_neg he]
      constructor
      · intro h
        obtain ⟨k, v, h3, h4, h5⟩ := ih.mp h
        exact ⟨k, v, PKVs.entryMem_cons.mpr (Or.inr h3), h4, h5⟩
      · rintro ⟨k, v, h3, h4, h5⟩
        rcases PKVs.entryMem_cons.mp h3 with ⟨h6, h7⟩ | h7
        · subst h6; subst h7; exact absurd h4 (by simpa using he)
        · exact ih.mpr ⟨k, v, h7, h4, h5⟩

theorem subDropped_elim {l : PKVs} {x : String}
    (h : subDropped (subobjsOf l) x = true) :
    ∃ j v, PKVs.entryMem j v l = true ∧ isEst v = true ∧
      strPre (j ++ "__") x = true := by
  simp only [subDropped, List.any_eq_true] at h
  obtain ⟨so, hso, hpre⟩ := h
  obtain ⟨j, v, h1, h2, h3⟩ := (mem_subobjsOf l).mp hso
  subst h3
  exact ⟨j, v, h1, h2, hpre⟩

theorem subDropped_intro {l : PKVs} {j x : String} {v : PVal}
    (hm : PKVs.entryMem j v l = true) (he : isEst v = true)
    (hp : strPre (j ++ "__") x = true) :
    subDropped (subobjsOf l) x = true := by
  simp only [subDropped, List.any_eq_true]
  exact ⟨j ++ "__", (mem_subobjsOf l).mpr ⟨j, v, hm, he, rfl⟩, hp⟩

theorem subDropped_flatten (l : PKVs) (x : String) :
    subDropped (subobjsOf (flattenKVs l)) x = subDropped (subobjsOf l) x := by
  by_cases h : subDropped (subobjsOf (flattenKVs l)) x
  · rw [h]
    obtain ⟨j, v, h1, h2, h3⟩ := subDropped_elim h
    rcases flatten_est_entry l h1 with h4 | ⟨a, u, h4, h5, h6⟩
    · exact (subDropped_intro h4 h2 h3).symm
    · exact (subDropped_intro h4 h5 (strPre_trans_append h6 h3)).symm
  · rw [Bool.eq_false_iff.mpr h]
    by_cases h' : subDropped (subobjsOf l) x
    · exfalso
      obtain ⟨j, v, h1, h2, h3⟩ := subDropped_elim h'
      exact h (subDropped_intro (flatten_has_direct l h1) h2 h3)
    · exact (Bool.eq_false_iff.mpr h').symm

theorem pre_length {a j : String} (h : strPre (a ++ "__") j = true) :
    a.data.length + 2 ≤ j.data.length := by
  rw [strPre_iff] at h
  have := h.length_le
  simpa [String.data_append] using this

theorem exists_kept_ancestor_aux (l : PKVs) (x : String) :
    ∀ (n : Nat) (j : String) (v : PVal), j.data.length ≤ n →
      PKVs.entryMem j v l = true → isEst v = true →
      strPre (j ++ "__") x = true →
      ∃ j' v', PKVs.entryMem j' v' l = true ∧ isEst v' = true ∧
        strPre (j' ++ "__") x = true ∧
        subDropped (subobjsOf l) j' = false := by
  intro n
  induction n with
  | zero =>
    intro j v hlen hm he hp
    by_cases hd : subDropped (subobjsOf l) j
    · obtain ⟨j2, v2, h1, h2, h3⟩ := subDropped_elim hd
      have := pre_length h3
      omega
    · exact ⟨j, v, hm, he, hp, Bool.eq_false_iff.mpr hd⟩
  | succ n ih =>
    intro j v hlen hm he hp
    by_cases hd : subDropped (subobjsOf l) j
    · obtain ⟨j2, v2, h1, h2, h3⟩ := subDropped_elim hd
      have hlen2 := pre_length h3
      exact ih j2 v2 (by omega) h1 h2 (strPre_trans_append h3 hp)
    · exact ⟨j, v, hm, he, hp, Bool.eq_false_iff.mpr hd⟩

/-- Every key dropped by the `subobjs` filter has an estimator-valued
ancestor key that is itself not dropped. -/
theorem exists_kept_ancestor {l : PKVs} {x : String}
    (h : subDropped (subobjsOf l) x = true) :
    ∃ j v, PKVs.entryMem j v l = true ∧ isEst v = true ∧
      strPre (j ++ "__") x = true ∧ subDropped (subobjsOf l) j = false := by
  obtain ⟨j, v, h1, h2, h3⟩ := subDropped_elim h
  exact exists_kept_ancestor_aux l x j.data.length j v (le_refl _) h1 h2 h3

/-! ## Pointwise goodness lemmas -/

theorem hasKey_lookup_isSome : ∀ {l : PKVs} {k : String},
    PKVs.hasKey l k = true → (PKVs.lookupKV l k).isSome = true := by
  intro l
  induction l with
  | nil => intro k h; simp [PKVs.hasKey] at h
  | cons k0 v0 t ih =>
    intro k h
    simp only [PKVs.hasKey, Bool.or_eq_true, decide_eq_true_eq] at h
    by_cases hk : k0 = k
    · simp [PKVs.lookupKV, hk]
    · rcases h with h | h
      · exact absurd h hk
      · simp [PKVs.lookupKV, hk, ih h]

theorem lookup_none_hasKey_false {l : PKVs} {k : String}
    (h : PKVs.lookupKV l k = none) : PKVs.hasKey l k = false := by
  by_cases hh : PKVs.hasKey l k
  · have := hasKey_lookup_isSome hh
    rw [h] at this
    simp at this
  · exact Bool.eq_false_iff.mpr hh

theorem nodupKeys_iff_nodup : ∀ {l : PKVs},
    PKVs.nodupKeys l = true ↔ (PKVs.keysOf l).Nodup := by
  intro l
  induction l with
  | nil => simp [PKVs.nodupKeys, PKVs.keysOf]
  | cons k v t ih =>
    simp only [PKVs.nodupKeys, PKVs.keysOf, Bool.and_eq_true, Bool.not_eq_true',
      List.nodup_cons]
    constructor
    · rintro ⟨h1, h2⟩
      refine ⟨fun hm => ?_, ih.mp h2⟩
      rw [PKVs.hasKey_iff_mem_keys.mpr hm] at h1
      simp at h1
    · rintro ⟨h1, h2⟩
      refine ⟨?_, ih.mpr h2⟩
      by_cases hh : PKVs.hasKey t k
      · exact absurd (PKVs.hasKey_iff_mem_keys.mp hh) h1
      · exact Bool.eq_false_iff.mpr hh

theorem goodKVs_entry (env : Env) : ∀ {l : PKVs} {k : String} {v : PVal},
    goodKVs env l = true → PKVs.entryMem k v l = true → goodV env v = true := by
  intro l
  induction l with
  | nil => intro k v _ hm; simp [PKVs.entryMem] at hm
  | cons k0 v0 t ih =>
    intro k v hg hm
    simp only [goodKVs, Bool.and_eq_true] at hg
    rcases PKVs.entryMem_cons.mp hm with ⟨_, h2⟩ | h2
    · subst h2; exact hg.1
    · exact ih hg.2 h2

theorem encodeKVs_isSome_entry : ∀ {l : PKVs} {k : String} {v : PVal},
    (encodeKVs l).isSome = true → PKVs.entryMem k v l = true →
    (encodeVal v).isSome = true := by
  intro l
  induction l with
  | nil => intro k v _ hm; simp [PKVs.entryMem] at hm
  | cons k0 v0 t ih =>
    intro k v hs hm
    simp only [encodeKVs] at hs
    match hv : encodeVal v0 with
    | none => rw [hv] at hs; simp at hs
    | some w =>
      rw [hv] at hs
      match ht : encodeKVs t with
      | none => rw [ht] at hs; simp at hs
      | some t' =>
        rcases PKVs.entryMem_cons.mp hm with ⟨_, h2⟩ | h2
        · subst h2; simp [hv]
        · exact ih (by simp [ht]) h2

mutual
theorem inert_good (env : Env) : ∀ (v : PVal), inertV v = true →
    (encodeVal v).isSome = true → goodV env v = true
  | .null, _, _ => rfl
  | .bool _, _, _ => rfl
  | .int _, _, _ => rfl
  | .float _, _, _ => rfl
  | .str _, _, _ => rfl
  | .arr xs, hi, hs => by
    simp only [inertV] at hi
    simp only [encodeVal] at hs
    match he : encodeList xs with
    | none => rw [he] at hs; simp at hs
    | some ys =>
      simpa [goodV] using inert_good_list env xs hi (by simp [he])
  | .obj kvs, hi, hs => by
    simp only [inertV, Bool.and_eq_true] at hi
    simp only [encodeVal] at hs
    match he : encodeKVs kvs with
    | none => rw [he] at hs; simp at hs
    | some ys =>
      simp only [goodV, Bool.and_eq_true]
      exact ⟨⟨hi.1.1, hi.1.2⟩, inert_good_kvs env kvs hi.2 (by simp [he])⟩
  | .est _ _ _, hi, _ => by simp [inertV] at hi
  | .blob _, _, hs => by simp [encodeVal] at hs
theorem inert_good_list (env : Env) : ∀ (l : PList), inertList l = true →
    (encodeList l).isSome = true → goodList env l = true
  | .nil, _, _ => rfl
  | .cons v t, hi, hs => by
    simp only [inertList, Bool.and_eq_true] at hi
    simp only [encodeList] at hs
    match hv : encodeVal v with
    | none => rw [hv] at hs; simp at hs
    | some w =>
      rw [hv] at hs
      match ht : encodeList t with
      | none => rw [ht] at hs; simp at hs
      | some t' =>
        simp only [goodList, Bool.and_eq_true]
        exact ⟨inert_good env v hi.1 (by simp [hv]),
          inert_good_list env t hi.2 (by simp [ht])⟩
theorem inert_good_kvs (env : Env) : ∀ (l : PKVs), inertKVs l = true →
    (encodeKVs l).isSome = true → goodKVs env l = true
  | .nil, _, _ => rfl
  | .cons k v t, hi, hs => by
    simp only [inertKVs, Bool.and_eq_true] at hi
    simp only [encodeKVs] at hs
    match hv : encodeVal v with
    | none => rw [hv] at hs; simp at hs
    | some w =>
      rw [hv] at hs
      match ht : encodeKVs t with
      | none => rw [ht] at hs; simp at hs
      | some t' =>
        simp only [goodKVs, Bool.and_eq_true]
        exact ⟨inert_good env v hi.1 (by simp [hv]),
          inert_good_kvs env t hi.2 (by simp [ht])⟩
end

theorem bind_goodParams (env : Env) : ∀ (ds : PKVs) (kw : PKVs),
    defaultsInert ds = true →
    (∀ k v, PKVs.entryMem k v kw = true →
      goodV env v = true ∧ (encodeVal v).isSome = true) →
    goodParams env (bindDefaults ds kw) ds = true := by
  intro ds
  induction ds with
  | nil => intro kw _ _; rfl
  | cons k d dt ih =>
    intro kw hdi hkw
    simp only [defaultsInert, Bool.and_eq_true] at hdi
    simp only [bindDefaults, goodParams, Bool.and_eq_true]
    refine ⟨⟨by simp, ?_⟩, ih kw hdi.2 hkw⟩
    match hl : PKVs.lookupKV kw k with
    | some v =>
      obtain ⟨hg, hs⟩ := hkw k v (PKVs.lookupKV_entryMem hl)
      simp only [Option.getD_some]
      rw [if_pos hs]
      exact hg
    | none =>
      simp only [Option.getD_none]
      by_cases hs : (encodeVal d).isSome
      · rw [if_pos hs]
        exact inert_good env d hdi.1 hs
      · rw [if_neg hs]
        simp

/-! ## Decoded values satisfy the invariant -/

mutual
theorem decode_good (env : Env) (hwf : EnvWF env = true) : ∀ (s : PVal) {v : PVal},
    plainJson s = true → nodupObjs s = true → decodeVal env s = .ok v →
    goodV env v = true ∧ (encodeVal v).isSome = true
  | .null, v, _, _, h => by
    rw [show decodeVal env .null = .ok .null from rfl] at h
    cases h; exact ⟨rfl, rfl⟩
  | .bool b, v, _, _, h => by
    rw [show decodeVal env (.bool b) = .ok (.bool b) from rfl] at h
    cases h; exact ⟨rfl, rfl⟩
  | .int n, v, _, _, h => by
    rw [show decodeVal env (.int n) = .ok (.int n) from rfl] at h
    cases h; exact ⟨rfl, rfl⟩
  | .float q, v, _, _, h => by
    rw [show decodeVal env (.float q) = .ok (.float q) from rfl] at h
    cases h; exact ⟨rfl, rfl⟩
  | .str s, v, _, _, h => by
    rw [show decodeVal env (.str s) = .ok (.str s) from rfl] at h
    cases h; exact ⟨rfl, rfl⟩
  | .arr xs, v, hp, hn, h => by
    simp only [decodeVal] at h
    match he : decodeList env xs with
    | .error e => rw [he] at h; simp at h
    | .ok ys =>
      rw [he] at h
      simp only [Except.ok.injEq] at h
      subst h
      obtain ⟨hg, hs⟩ := decode_good_list env hwf xs
        (by simpa [plainJson] using hp) (by simpa [nodupObjs] using hn) he
      exact ⟨by simpa [goodV] using hg,
        by simpa [encodeVal, Option.isSome_map'] using hs⟩
  | .obj kvs, v, hp, hn, h => by
    simp only [decodeVal] at h
    match he : decodeKVs env kvs with
    | .error e => rw [he] at h; simp at h
    | .ok kvs' =>
      rw [he] at h
      simp only [nodupObjs, Bool.and_eq_true] at hn
      obtain ⟨hg, hs⟩ := decode_good_kvs env hwf kvs
        (by simpa [plainJson] using hp) hn.2 he
      dsimp only at h
      unfold decodeHook at h
      match hl : PKVs.lookupKV kvs' "__type__" with
      | none =>
        rw [hl] at h
        simp only [Except.ok.injEq] at h
        subst h
        refine ⟨?_, by simpa [encodeVal, Option.isSome_map'] using hs⟩
        simp only [goodV, Bool.and_eq_true]
        refine ⟨⟨by simpa using lookup_none_hasKey_false hl, ?_⟩, hg⟩
        have hkeys := decodeKVs_keys env kvs he
        exact nodupKeys_iff_nodup.mpr
          (hkeys ▸ nodupKeys_iff_nodup.mp hn.1)
      | some (.str tag) =>
        rw [hl] at h
        dsimp only at h
        match hload : _load_class env tag with
        | .error e => rw [hload] at h; simp at h
        | .ok (m, c, info) =>
          rw [hload] at h
          dsimp only at h
          match hcon : construct info (PKVs.removeKey kvs' "__type__") with
          | .error e => rw [hcon] at h; simp at h
          | .ok ps =>
            rw [hcon] at h
            simp only [Except.ok.injEq] at h
            subst h
            refine ⟨?_, by simp [encodeVal]⟩
            simp only [goodV]
            rw [load_reresolve hwf hload]
            unfold construct at hcon
            by_cases hok : kwargsOk info.defaults (PKVs.removeKey kvs' "__type__")
            · rw [if_pos hok] at hcon
              simp only [Except.ok.injEq] at hcon
              subst hcon
              have hdok := load_defaultsOK hwf hload
              simp only [defaultsOK, Bool.and_eq_true] at hdok
              apply bind_goodParams env _ _ hdok.2
              intro k w hw
              obtain ⟨hw1, _⟩ := PKVs.entryMem_of_removeKey hw
              exact ⟨goodKVs_entry env hg hw1, encodeKVs_isSome_entry hs hw1⟩
            · rw [if_neg hok] at hcon; simp at hcon
      | some .null => rw [hl] at h; simp at h
      | some (.bool _) => rw [hl] at h; simp at h
      | some (.int _) => rw [hl] at h; simp at h
      | some (.float _) => rw [hl] at h; simp at h
      | some (.arr _) => rw [hl] at h; simp at h
      | some (.obj _) => rw [hl] at h; simp at h
      | some (.est _ _ _) => rw [hl] at h; simp at h
      | some (.blob _) => rw [hl] at h; simp at h
  | .est m c ps, v, hp, _, h => by simp [plainJson] at hp
  | .blob n, v, hp, _, h => by simp [plainJson] at hp
theorem decode_good_list (env : Env) (hwf : EnvWF env = true) :
    ∀ (l : PList) {l' : PList},
    plainJsonList l = true → nodupObjsList l = true → decodeList env l = .ok l' →
    goodList env l' = true ∧ (encodeList l').isSome = true
  | .nil, l', _, _, h => by
    rw [show decodeList env .nil = .ok .nil from rfl] at h
    cases h; exact ⟨rfl, rfl⟩
  | .cons v t, l', hp, hn, h => by
    simp only [plainJsonList, Bool.and_eq_true] at hp
    simp only [nodupObjsList, Bool.and_eq_true] at hn
    simp only [decodeList] at h
    match hv : decodeVal env v with
    | .error e => rw [hv] at h; simp at h
    | .ok v' =>
      rw [hv] at h
      match ht : decodeList env t with
      | .error e => rw [ht] at h; simp at h
      | .ok t' =>
        rw [ht] at h
        simp only [Except.ok.injEq] at h
        subst h
        obtain ⟨hg1, hs1⟩ := decode_good env hwf v hp.1 hn.1 hv
        obtain ⟨hg2, hs2⟩ := decode_good_list env hwf t hp.2 hn.2 ht
        refine ⟨by simp [goodList, hg1, hg2], ?_⟩
        simp only [encodeList]
        match h1 : encodeVal v' with
        | none => rw [h1] at hs1; simp at hs1
        | some w =>
          match h2 : encodeList t' with
          | none => rw [h2] at hs2; simp at hs2
          | some ws => simp
theorem decode_good_kvs (env : Env) (hwf : EnvWF env = true) :
    ∀ (l : PKVs) {l' : PKVs},
    plainJsonKVs l = true → nodupObjsKVs l = true → decodeKVs env l = .ok l' →
    goodKVs env l' = true ∧ (encodeKVs l').isSome = true
  | .nil, l', _, _, h => by
    rw [show decodeKVs env .nil = .ok .nil from rfl] at h
    cases h; exact ⟨rfl, rfl⟩
  | .cons k v t, l', hp, hn, h => by
    simp only [plainJsonKVs, Bool.and_eq_true] at hp
    simp only [nodupObjsKVs, Bool.and_eq_true] at hn
    simp only [decodeKVs] at h
    match hv : decodeVal env v with
    | .error e => rw [hv] at h; simp at h
    | .ok v' =>
      rw [hv] at h
      match ht : decodeKVs env t with
      | .error e => rw [ht] at h; simp at h
      | .ok t' =>
        rw [ht] at h
        simp only [Except.ok.injEq] at h
        subst h
        obtain ⟨hg1, hs1⟩ := decode_good env hwf v hp.1 hn.1 hv
        obtain ⟨hg2, hs2⟩ := decode_good_kvs env hwf t hp.2 hn.2 ht
        refine ⟨by simp [goodKVs, hg1, hg2], ?_⟩
        simp only [encodeKVs]
        match h1 : encodeVal v' with
        | none => rw [h1] at hs1; simp at hs1
        | some w =>
          match h2 : encodeKVs t' with
          | none => rw [h2] at hs2; simp at hs2
          | some ws => simp
end

/-! ## Parameter-table round-trip machinery -/

theorem encodeKVs_keys : ∀ (l : PKVs) {l' : PKVs},
    encodeKVs l = some l' → PKVs.keysOf l' = PKVs.keysOf l := by
  intro l
  induction l with
  | nil =>
    intro l' h
    rw [show encodeKVs .nil = some .nil from rfl] at h
    cases h; rfl
  | cons k v t ih =>
    intro l' h
    simp only [encodeKVs] at h
    match hv : encodeVal v with
    | none => rw [hv] at h; simp at h
    | some w =>
      rw [hv] at h
      match ht : encodeKVs t with
      | none => rw [ht] at h; simp at h
      | some t' =>
        rw [ht] at h
        simp only [Option.map_some', Option.some.injEq] at h
        subst h
        simp [PKVs.keysOf, ih ht]

theorem inertV_not_est {v : PVal} (h : inertV v = true) : isEst v = false := by
  match v with
  | .est _ _ _ => simp [inertV] at h
  | .null | .bool _ | .int _ | .float _ | .str _ | .arr _ | .obj _ | .blob _ => rfl

theorem defaultsInert_entry : ∀ {ds : PKVs} {k : String} {d : PVal},
    defaultsInert ds = true → PKVs.entryMem k d ds = true → inertV d = true := by
  intro ds
  induction ds with
  | nil => intro k d _ hm; simp [PKVs.entryMem] at hm
  | cons k0 d0 t ih =>
    intro k d hi hm
    simp only [defaultsInert, Bool.and_eq_true] at hi
    rcases PKVs.entryMem_cons.mp hm with ⟨_, h2⟩ | h2
    · subst h2; exact hi.1
    · exact ih hi.2 h2

theorem goodParams_keys (env : Env) : ∀ (ps ds : PKVs),
    goodParams env ps ds = true → PKVs.keysOf ps = PKVs.keysOf ds := by
  intro ps
  induction ps with
  | nil =>
    intro ds h
    match ds with
    | .nil => rfl
    | .cons _ _ _ => simp [goodParams] at h
  | cons k v t ih =>
    intro ds h
    match ds with
    | .nil => simp [goodParams] at h
    | .cons dk d dt =>
      simp only [goodParams, Bool.and_eq_true, decide_eq_true_eq] at h
      simp [PKVs.keysOf, h.1.1, ih dt h.2]

theorem EF_tail {env : Env} {k : String} {v : PVal} {t : PKVs}
    (h : entriesFixedParams env (.cons k v t)) : entriesFixedParams env t := by
  intro k0 v0 hm w hw
  exact h k0 v0 (PKVs.entryMem_cons.mpr (Or.inr hm)) w hw

theorem EF_head {env : Env} {k : String} {v : PVal} {t : PKVs}
    (h : entriesFixedParams env (.cons k v t)) :
    ∀ w, encodeVal v = some w →
      decodeVal env w = .ok (roundVal env v) ∧ encodeVal (roundVal env v) = some w
      ∧ isEst (roundVal env v) = isEst v := by
  intro w hw
  exact h k v (PKVs.entryMem_cons.mpr (Or.inl ⟨rfl, rfl⟩)) w hw

theorem encodeParams_decode (env : Env) (sos : List String) : ∀ (ps : PKVs),
    entriesFixedParams env ps →
    decodeKVs env (encodeParams sos ps) = .ok (keptKW env sos ps) := by
  intro ps
  induction ps with
  | nil => intro _; rfl
  | cons k v t ih =>
    intro hef
    simp only [encodeParams, keptKW]
    by_cases hd : subDropped sos k
    · rw [if_pos hd, if_pos (by simp [entryDrop, hd])]
      exact ih (EF_tail hef)
    · rw [if_neg hd]
      match hv : encodeVal v with
      | none =>
        rw [if_pos (by simp [entryDrop, hv])]
        exact ih (EF_tail hef)
      | some w =>
        rw [if_neg (by simp [entryDrop, hd, hv])]
        obtain ⟨hdec, _, _⟩ := EF_head hef w hv
        simp only [decodeKVs]
        rw [hdec, ih (EF_tail hef)]

theorem keptKW_keys_sub (env : Env) (sos : List String) : ∀ (ps : PKVs) {k : String},
    k ∈ PKVs.keysOf (keptKW env sos ps) → k ∈ PKVs.keysOf ps := by
  intro ps
  induction ps with
  | nil => intro k h; simp [keptKW, PKVs.keysOf] at h
  | cons k0 v0 t ih =>
    intro k h
    simp only [keptKW] at h
    by_cases hd : entryDrop sos k0 v0
    · rw [if_pos hd] at h
      exact List.mem_cons_of_mem _ (ih h)
    · rw [if_neg hd] at h
      rcases List.mem_cons.mp h with h1 | h2
      · exact h1 ▸ List.mem_cons_self _ _
      · exact List.mem_cons_of_mem _ (ih h2)

theorem bindDefaults_drop_head : ∀ (dt : PKVs) (k : String) (x : PVal) (kw : PKVs),
    ¬ k ∈ PKVs.keysOf dt → bindDefaults dt (.cons k x kw) = bindDefaults dt kw := by
  intro dt
  induction dt with
  | nil => intro k x kw _; rfl
  | cons dk d t ih =>
    intro k x kw hk
    simp only [PKVs.keysOf, List.mem_cons, not_or] at hk
    simp only [bindDefaults, PKVs.lookupKV]
    rw [if_neg hk.1, ih k x kw hk.2]

theorem bind_keptKW (env : Env) (sos : List String) : ∀ (ps ds : PKVs),
    PKVs.keysOf ps = PKVs.keysOf ds → (PKVs.keysOf ds).Nodup →
    bindDefaults ds (keptKW env sos ps) = zipKept env sos ps ds := by
  intro ps
  induction ps with
  | nil =>
    intro ds hk _
    match ds with
    | .nil => rfl
    | .cons _ _ _ => simp [PKVs.keysOf] at hk
  | cons k v t ih =>
    intro ds hk hnd
    match ds with
    | .nil => simp [PKVs.keysOf] at hk
    | .cons dk d dt =>
      simp only [PKVs.keysOf, List.cons.injEq] at hk
      obtain ⟨hk1, hk2⟩ := hk
      subst hk1
      simp only [PKVs.keysOf, List.nodup_cons] at hnd
      have hknt : ¬ k ∈ PKVs.keysOf t := fun h => hnd.1 (hk2 ▸ h)
      simp only [keptKW, zipKept]
      by_cases hd : entryDrop sos k v
      · rw [if_pos hd, if_pos hd]
        simp only [bindDefaults]
        have hlk : PKVs.lookupKV (keptKW env sos t) k = none := by
          apply PKVs.lookupKV_eq_none_of_not_hasKey
          by_cases hh : PKVs.hasKey (keptKW env sos t) k
          · exact absurd (keptKW_keys_sub env sos t (PKVs.hasKey_iff_mem_keys.mp hh)) hknt
          · exact Bool.eq_false_iff.mpr hh
        rw [hlk]
        simp only [Option.getD_none]
        rw [ih dt hk2 hnd.2]
      · rw [if_neg hd, if_neg hd]
        simp [bindDefaults, PKVs.lookupKV,
          bindDefaults_drop_head dt k (roundVal env v) (keptKW env sos t) hnd.1,
          ih dt hk2 hnd.2]

theorem zipKept_mem_forward (env : Env) (sos : List String) : ∀ (ps ds : PKVs)
    {k : String} {v : PVal}, PKVs.keysOf ps = PKVs.keysOf ds →
    PKVs.entryMem k v ps = true →
    ∃ d, PKVs.entryMem k d ds = true ∧
      PKVs.entryMem k (if entryDrop sos k v then d else roundVal env v)
        (zipKept env sos ps ds) = true := by
  intro ps
  induction ps with
  | nil => intro ds k v _ hm; simp [PKVs.entryMem] at hm
  | cons k0 v0 t ih =>
    intro ds k v hk hm
    match ds with
    | .nil => simp [PKVs.keysOf] at hk
    | .cons dk d dt =>
      simp only [PKVs.keysOf, List.cons.injEq] at hk
      obtain ⟨hk1, hk2⟩ := hk
      rcases PKVs.entryMem_cons.mp hm with ⟨h1, h2⟩ | h2
      · subst h1; subst h2
        exact ⟨d, PKVs.entryMem_cons.mpr (Or.inl ⟨hk1, rfl⟩),
          by simp only [zipKept]; exact PKVs.entryMem_cons.mpr (Or.inl ⟨rfl, rfl⟩)⟩
      · obtain ⟨d1, hd1, hd2⟩ := ih dt hk2 h2
        exact ⟨d1, PKVs.entryMem_cons.mpr (Or.inr hd1),
          by simp only [zipKept]; exact PKVs.entryMem_cons.mpr (Or.inr hd2)⟩

theorem zipKept_mem_back (env : Env) (sos : List String) : ∀ (ps ds : PKVs)
    {k : String} {v2 : PVal}, PKVs.keysOf ps = PKVs.keysOf ds →
    PKVs.entryMem k v2 (zipKept env sos ps ds) = true →
    ∃ v d, PKVs.entryMem k v ps = true ∧ PKVs.entryMem k d ds = true ∧
      v2 = if entryDrop sos k v then d else roundVal env v := by
  intro ps
  induction ps with
  | nil => intro ds k v2 _ hm; simp [zipKept, PKVs.entryMem] at hm
  | cons k0 v0 t ih =>
    intro ds k v2 hk hm
    match ds with
    | .nil => simp [PKVs.keysOf] at hk
    | .cons dk d dt =>
      simp only [PKVs.keysOf, List.cons.injEq] at hk
      obtain ⟨hk1, hk2⟩ := hk
      simp only [zipKept] at hm
      rcases PKVs.entryMem_cons.mp hm with ⟨h1, h2⟩ | h2
      · subst h1
        exact ⟨v0, d, PKVs.entryMem_cons.mpr (Or.inl ⟨rfl, rfl⟩),
          PKVs.entryMem_cons.mpr (Or.inl ⟨hk1, rfl⟩), h2⟩
      · obtain ⟨v, d1, h3, h4, h5⟩ := ih dt hk2 h2
        exact ⟨v, d1, PKVs.entryMem_cons.mpr (Or.inr h3),
          PKVs.entryMem_cons.mpr (Or.inr h4), h5⟩

theorem est_encode_isSome {m c : String} {ps : PKVs} :
    (encodeVal (.est m c ps)).isSome = true := by
  simp [encodeVal]

/-- The `subobjs` filter computed on the rebuilt parameters agrees with the
filter computed on the originals. -/
theorem zip_filter_eq (env : Env) (ps ds : PKVs)
    (hgp : goodParams env ps ds = true) (hef : entriesFixedParams env ps)
    (hdi : defaultsInert ds = true) (x : String) :
    subDropped (subobjsOf (flattenKVs
      (zipKept env (subobjsOf (flattenKVs ps)) ps ds))) x
    = subDropped (subobjsOf (flattenKVs ps)) x := by
  have hkeys := goodParams_keys env ps ds hgp
  rw [subDropped_flatten, subDropped_flatten]
  by_cases h : subDropped (subobjsOf (zipKept env (subobjsOf (flattenKVs ps)) ps ds)) x
  · rw [h]
    obtain ⟨j, v2, h1, h2, h3⟩ := subDropped_elim h
    obtain ⟨v, d, h4, h5, h6⟩ := zipKept_mem_back env _ ps ds hkeys h1
    by_cases hd : entryDrop (subobjsOf (flattenKVs ps)) j v
    · rw [if_pos hd] at h6
      subst h6
      have := inertV_not_est (defaultsInert_entry hdi h5)
      rw [this] at h2
      simp at h2
    · rw [if_neg hd] at h6
      subst h6
      simp only [entryDrop, Bool.or_eq_true, not_or] at hd
      match hw : encodeVal v with
      | none => exact absurd (by simp [hw]) hd.2
      | some w =>
        obtain ⟨_, _, hest⟩ := hef j v h4 w hw
        rw [hest] at h2
        exact (subDropped_intro h4 h2 h3).symm
  · rw [Bool.eq_false_iff.mpr h]
    by_cases h' : subDropped (subobjsOf ps) x
    · exfalso
      obtain ⟨j, v, h1, h2, h3, h4⟩ := exists_kept_ancestor h'
      have hnd : ¬ entryDrop (subobjsOf (flattenKVs ps)) j v = true := by
        simp only [entryDrop, Bool.or_eq_true, not_or]
        constructor
        · rw [subDropped_flatten]
          simp [h4]
        · match hv : v, h2 with
          | .est m c ps0, _ => simp [encodeVal]
      obtain ⟨d, h5, h6⟩ := zipKept_mem_forward env _ ps ds hkeys h1
      rw [if_neg hnd] at h6
      have hre : isEst (roundVal env v) = true := by
        match hv : v, h2 with
        | .est m c ps0, _ =>
          obtain ⟨_, _, hest⟩ := hef j _ h1 _
            (show encodeVal (.est m c ps0) = some _ from rfl)
          exact hest.trans rfl
      exact h (subDropped_intro h6 hre h3)
    · rw [Bool.eq_false_iff.mpr h']

/-- Re-encoding the rebuilt parameter table gives back the encoded table. -/
theorem encodeParams_round (env : Env) : ∀ (ps ds : PKVs)
    (sos1 sos2 : List String),
    goodParams env ps ds = true → entriesFixedParams env ps →
    (∀ x, subDropped sos2 x = subDropped sos1 x) →
    encodeParams sos2 (zipKept env sos1 ps ds) = encodeParams sos1 ps := by
  intro ps
  induction ps with
  | nil =>
    intro ds sos1 sos2 hgp _ _
    match ds with
    | .nil => rfl
    | .cons _ _ _ => simp [goodParams] at hgp
  | cons k v t ih =>
    intro ds sos1 sos2 hgp hef hfil
    match ds with
    | .nil => simp [goodParams] at hgp
    | .cons dk d dt =>
      simp only [goodParams, Bool.and_eq_true, decide_eq_true_eq] at hgp
      obtain ⟨⟨hk1, hcond⟩, hrest⟩ := hgp
      simp only [zipKept, encodeParams]
      by_cases hd1 : subDropped sos1 k
      · have hd2 : subDropped sos2 k = true := by rw [hfil k]; exact hd1
        rw [if_pos hd2, if_pos hd1]
        exact ih dt sos1 sos2 hrest (EF_tail hef) hfil
      · have hd2 : ¬ subDropped sos2 k = true := by rw [hfil k]; exact hd1
        rw [if_neg hd2, if_neg hd1]
        match hw : encodeVal v with
        | none =>
          have hvd : v = d := by
            rw [hw] at hcond
            simpa using hcond
          subst hvd
          rw [if_pos (show entryDrop sos1 k v = true by simp [entryDrop, hw])]
          rw [hw]
          dsimp only
          exact ih dt sos1 sos2 hrest (EF_tail hef) hfil
        | some w =>
          rw [if_neg (show ¬ entryDrop sos1 k v = true by
            simp [entryDrop, hd1, hw])]
          obtain ⟨_, henc, _⟩ := EF_head hef w hw
          rw [henc]
          dsimp only
          rw [ih dt sos1 sos2 hrest (EF_tail hef) hfil]

/-! ## The estimator round-trip core -/

theorem reresolve_elim {env : Env} {m c : String} {info : ClassInfo}
    (h : reresolve env m c = some info) :
    _load_class env (tagOf m c) = .ok (m, c, info) := by
  unfold reresolve at h
  match hl : _load_class env (tagOf m c) with
  | .error e => rw [hl] at h; simp at h
  | .ok (m', c', i') =>
    rw [hl] at h
    dsimp only at h
    by_cases hmc : m' = m ∧ c' = c
    · rw [if_pos hmc] at h
      simp only [Option.some.injEq] at h
      rw [hmc.1, hmc.2, h]
    · rw [if_neg hmc] at h; simp at h

theorem removeKey_no_hasKey : ∀ {l : PKVs} {k : String},
    PKVs.hasKey l k = false → PKVs.removeKey l k = l := by
  intro l
  induction l with
  | nil => intro k _; rfl
  | cons k0 v0 t ih =>
    intro k h
    simp only [PKVs.hasKey, Bool.or_eq_false_iff, decide_eq_false_iff_not] at h
    simp [PKVs.removeKey, h.1, ih h.2]

theorem append_nil : ∀ (l : PKVs), PKVs.append l .nil = l := by
  intro l
  induction l with
  | nil => rfl
  | cons k v t ih => simp [PKVs.append, ih]

theorem removeKey_append (k : String) : ∀ (a b : PKVs),
    PKVs.removeKey (PKVs.append a b) k
      = PKVs.append (PKVs.removeKey a k) (PKVs.removeKey b k) := by
  intro a
  induction a with
  | nil => intro b; rfl
  | cons k0 v0 t ih =>
    intro b
    simp only [PKVs.append, PKVs.removeKey]
    by_cases hk : k0 = k
    · rw [if_pos hk, if_pos hk, ih b]
    · rw [if_neg hk, if_neg hk, ih b]
      rfl

theorem lookupKV_append_skip {k : String} : ∀ {a b : PKVs},
    PKVs.hasKey a k = false →
    PKVs.lookupKV (PKVs.append a b) k = PKVs.lookupKV b k := by
  intro a
  induction a with
  | nil => intro b _; rfl
  | cons k0 v0 t ih =>
    intro b h
    simp only [PKVs.hasKey, Bool.or_eq_false_iff, decide_eq_false_iff_not] at h
    simp only [PKVs.append, PKVs.lookupKV]
    rw [if_neg h.1, ih h.2]

theorem kwargsOk_of_keys {ds kw : PKVs}
    (h : ∀ k, k ∈ PKVs.keysOf kw → k ∈ PKVs.keysOf ds) :
    kwargsOk ds kw = true := by
  simp only [kwargsOk, List.all_eq_true]
  intro k hk
  exact PKVs.hasKey_iff_mem_keys.mpr (h k hk)

theorem keptKW_no_typekey (env : Env) (sos : List String) {ps ds : PKVs}
    (hkeys : PKVs.keysOf ps = PKVs.keysOf ds)
    (hnt : PKVs.hasKey ds "__type__" = false) :
    PKVs.hasKey (keptKW env sos ps) "__type__" = false := by
  by_cases hh : PKVs.hasKey (keptKW env sos ps) "__type__"
  · exfalso
    have h1 := keptKW_keys_sub env sos ps (PKVs.hasKey_iff_mem_keys.mp hh)
    rw [hkeys] at h1
    rw [PKVs.hasKey_iff_mem_keys.mpr h1] at hnt
    simp at hnt
  · exact Bool.eq_false_iff.mpr hh

/-- The heart of the round trip: decoding the encoding of a good estimator
rebuilds an estimator of the same class whose re-encoding is the original
encoding. -/
theorem est_case_core (env : Env) (m c : String) (ps : PKVs) (info : ClassInfo)
    (hwf : EnvWF env = true)
    (hres : reresolve env m c = some info)
    (hgp : goodParams env ps info.defaults = true)
    (hef : entriesFixedParams env ps) :
    decodeVal env (.obj (PKVs.append
        (encodeParams (subobjsOf (flattenKVs ps)) ps)
        (.cons "__type__" (.str (tagOf m c)) .nil)))
      = .ok (.est m c
          (zipKept env (subobjsOf (flattenKVs ps)) ps info.defaults))
    ∧ encodeVal (.est m c
          (zipKept env (subobjsOf (flattenKVs ps)) ps info.defaults))
      = some (.obj (PKVs.append
          (encodeParams (subobjsOf (flattenKVs ps)) ps)
          (.cons "__type__" (.str (tagOf m c)) .nil))) := by
  have hload := reresolve_elim hres
  have hdok := load_defaultsOK hwf hload
  simp only [defaultsOK, Bool.and_eq_true, Bool.not_eq_true'] at hdok
  obtain ⟨⟨hnd, hnt⟩, hdi⟩ := hdok
  have hkeys := goodParams_keys env ps info.defaults hgp
  have hndl : (PKVs.keysOf info.defaults).Nodup := nodupKeys_iff_nodup.mp hnd
  have hkkw := encodeParams_decode env (subobjsOf (flattenKVs ps)) ps hef
  have hdecall := decodeKVs_append env _ hkkw
    (show decodeKVs env (.cons "__type__" (.str (tagOf m c)) .nil)
      = .ok (.cons "__type__" (.str (tagOf m c)) .nil) from rfl)
  have hkwnt := keptKW_no_typekey env (subobjsOf (flattenKVs ps)) hkeys hnt
  have hlook : PKVs.lookupKV (PKVs.append
      (keptKW env (subobjsOf (flattenKVs ps)) ps)
      (.cons "__type__" (.str (tagOf m c)) .nil)) "__type__"
      = some (.str (tagOf m c)) := by
    rw [lookupKV_append_skip hkwnt]
    simp [PKVs.lookupKV]
  have hrem : PKVs.removeKey (PKVs.append
      (keptKW env (subobjsOf (flattenKVs ps)) ps)
      (.cons "__type__" (.str (tagOf m c)) .nil)) "__type__"
      = keptKW env (subobjsOf (flattenKVs ps)) ps := by
    rw [removeKey_append]
    rw [removeKey_no_hasKey hkwnt]
    rw [show PKVs.removeKey (.cons "__type__" (.str (tagOf m c)) .nil) "__type__"
      = .nil by simp [PKVs.removeKey]]
    exact append_nil _
  have hok : kwargsOk info.defaults
      (keptKW env (subobjsOf (flattenKVs ps)) ps) = true := by
    apply kwargsOk_of_keys
    intro k hk
    exact hkeys ▸ keptKW_keys_sub env _ ps hk
  have hbind := bind_keptKW env (subobjsOf (flattenKVs ps)) ps info.defaults
    hkeys hndl
  constructor
  · simp only [decodeVal]
    rw [hdecall]
    dsimp only
    unfold decodeHook
    rw [hlook]
    dsimp only
    rw [hload]
    dsimp only
    rw [show construct info (PKVs.removeKey (PKVs.append
        (keptKW env (subobjsOf (flattenKVs ps)) ps)
        (.cons "__type__" (.str (tagOf m c)) .nil)) "__type__")
      = .ok (zipKept env (subobjsOf (flattenKVs ps)) ps info.defaults) by
        rw [hrem]
        unfold construct
        rw [if_pos hok, hbind]]
  · simp only [encodeVal, Option.some.injEq, PVal.obj.injEq]
    have := encodeParams_round env ps info.defaults
      (subobjsOf (flattenKVs ps))
      (subobjsOf (flattenKVs
        (zipKept env (subobjsOf (flattenKVs ps)) ps info.defaults)))
      hgp hef
      (zip_filter_eq env ps info.defaults hgp hef hdi)
    rw [this]

theorem roundVal_eq {env : Env} {v w v' : PVal}
    (hw : encodeVal v = some w) (hd : decodeVal env w = .ok v') :
    roundVal env v = v' := by
  unfold roundVal
  rw [hw]
  dsimp only
  rw [hd]

/-! ## The fixed-point theorem for good values -/

mutual
theorem good_fixed (env : Env) (hwf : EnvWF env = true) : ∀ (v : PVal),
    goodV env v = true →
    ∃ w, encodeVal v = some w ∧ decodeVal env w = .ok (roundVal env v)
      ∧ encodeVal (roundVal env v) = some w
      ∧ isEst (roundVal env v) = isEst v
  | .null, _ => ⟨.null, rfl, rfl, rfl, rfl⟩
  | .bool b, _ => ⟨.bool b, rfl, rfl, rfl, rfl⟩
  | .int n, _ => ⟨.int n, rfl, rfl, rfl, rfl⟩
  | .float q, _ => ⟨.float q, rfl, rfl, rfl, rfl⟩
  | .str s, _ => ⟨.str s, rfl, rfl, rfl, rfl⟩
  | .arr xs, hg => by
    obtain ⟨ws, ys, h1, h2, h3⟩ := good_fixed_list env hwf xs
      (by simpa [goodV] using hg)
    have hw : encodeVal (.arr xs) = some (.arr ws) := by
      simp [encodeVal, h1]
    have hd : decodeVal env (.arr ws) = .ok (.arr ys) := by
      simp [decodeVal, h2]
    have hrv := roundVal_eq hw hd
    refine ⟨.arr ws, hw, ?_, ?_, ?_⟩
    · rw [hrv]; exact hd
    · rw [hrv]; simp [encodeVal, h3]
    · rw [hrv]; rfl
  | .obj kvs, hg => by
    simp only [goodV, Bool.and_eq_true, Bool.not_eq_true'] at hg
    obtain ⟨⟨hnt, hnd⟩, hgk⟩ := hg
    obtain ⟨ws, ys, h1, h2, h3⟩ := good_fixed_kvs env hwf kvs hgk
    have hw : encodeVal (.obj kvs) = some (.obj ws) := by
      simp [encodeVal, h1]
    have hkw : PKVs.keysOf ws = PKVs.keysOf kvs := encodeKVs_keys kvs h1
    have hky : PKVs.keysOf ys = PKVs.keysOf ws := decodeKVs_keys env ws h2
    have hlk : PKVs.lookupKV ys "__type__" = none := by
      apply PKVs.lookupKV_eq_none_of_not_hasKey
      by_cases hh : PKVs.hasKey ys "__type__"
      · have := PKVs.hasKey_iff_mem_keys.mp hh
        rw [hky, hkw] at this
        rw [PKVs.hasKey_iff_mem_keys.mpr this] at hnt
        simp at hnt
      · exact Bool.eq_false_iff.mpr hh
    have hd : decodeVal env (.obj ws) = .ok (.obj ys) := by
      simp only [decodeVal]
      rw [h2]
      dsimp only
      unfold decodeHook
      rw [hlk]
    have hrv := roundVal_eq hw hd
    refine ⟨.obj ws, hw, ?_, ?_, ?_⟩
    · rw [hrv]; exact hd
    · rw [hrv]; simp [encodeVal, h3]
    · rw [hrv]; rfl
  | .est m c ps, hg => by
    simp only [goodV] at hg
    match hres : reresolve env m c with
    | none => rw [hres] at hg; simp at hg
    | some info =>
      rw [hres] at hg
      have hef := good_fixed_params env hwf ps info.defaults hg
      obtain ⟨hdec, henc⟩ := est_case_core env m c ps info hwf hres hg hef
      have hw : encodeVal (.est m c ps) = some (.obj (PKVs.append
          (encodeParams (subobjsOf (flattenKVs ps)) ps)
          (.cons "__type__" (.str (tagOf m c)) .nil))) := rfl
      have hrv := roundVal_eq hw hdec
      refine ⟨_, hw, ?_, ?_, ?_⟩
      · rw [hrv]; exact hdec
      · rw [hrv]; exact henc
      · rw [hrv]; rfl
  | .blob n, hg => by simp [goodV] at hg
theorem good_fixed_list (env : Env) (hwf : EnvWF env = true) : ∀ (l : PList),
    goodList env l = true →
    ∃ ws ys, encodeList l = some ws ∧ decodeList env ws = .ok ys
      ∧ encodeList ys = some ws
  | .nil, _ => ⟨.nil, .nil, rfl, rfl, rfl⟩
  | .cons v t, hg => by
    simp only [goodList, Bool.and_eq_true] at hg
    obtain ⟨w, h1, h2, h3, _⟩ := good_fixed env hwf v hg.1
    obtain ⟨ws, ys, h4, h5, h6⟩ := good_fixed_list env hwf t hg.2
    refine ⟨.cons w ws, .cons (roundVal env v) ys, ?_, ?_, ?_⟩
    · simp [encodeList, h1, h4]
    · simp [decodeList, h2, h5]
    · simp [encodeList, h3, h6]
theorem good_fixed_kvs (env : Env) (hwf : EnvWF env = true) : ∀ (l : PKVs),
    goodKVs env l = true →
    ∃ ws ys, encodeKVs l = some ws ∧ decodeKVs env ws = .ok ys
      ∧ encodeKVs ys = some ws
  | .nil, _ => ⟨.nil, .nil, rfl, rfl, rfl⟩
  | .cons k v t, hg => by
    simp only [goodKVs, Bool.and_eq_true] at hg
    obtain ⟨w, h1, h2, h3, _⟩ := good_fixed env hwf v hg.1
    obtain ⟨ws, ys, h4, h5, h6⟩ := good_fixed_kvs env hwf t hg.2
    refine ⟨.cons k w ws, .cons k (roundVal env v) ys, ?_, ?_, ?_⟩
    · simp [encodeKVs, h1, h4]
    · simp [decodeKVs, h2, h5]
    · simp [encodeKVs, h3, h6]
theorem good_fixed_params (env : Env) (hwf : EnvWF env = true) :
    ∀ (ps ds : PKVs), goodParams env ps ds = true → entriesFixedParams env ps
  | .nil, ds, _ => by
    intro k v hm w hw
    simp [PKVs.entryMem] at hm
  | .cons k0 v0 t, ds, hg => by
    match ds with
    | .nil => simp [goodParams] at hg
    | .cons dk d dt =>
      simp only [goodParams, Bool.and_eq_true, decide_eq_true_eq] at hg
      obtain ⟨⟨_, hcond⟩, hrest⟩ := hg
      intro k v hm w hw
      rcases PKVs.entryMem_cons.mp hm with ⟨h1, h2⟩ | h2
      · subst h2
        rw [if_pos (by simp [hw])] at hcond
        obtain ⟨w', hw', hdec, henc, hest⟩ := good_fixed env hwf v hcond
        rw [hw] at hw'
        cases hw'
        exact ⟨hdec, henc, hest⟩
      · exact good_fixed_params env hwf t dt hrest k v h2 w hw
end

/-! ## Pipeline-level round trip -/

theorem stepsToPVal_ofList : ∀ (dl : PList) {steps : List (PVal × PVal)},
    stepsOfList dl = .ok steps → stepsToPVal steps = .arr dl := by
  intro dl
  induction dl with
  | nil =>
    intro steps h
    rw [show stepsOfList .nil = .ok [] from rfl] at h
    cases h; rfl
  | cons x t ih =>
    intro steps h
    match x, h with
    | .arr (.cons n (.cons v .nil)), h =>
      simp only [stepsOfList] at h
      match ht : stepsOfList t with
      | .error e => rw [ht] at h; simp at h
      | .ok st =>
        rw [ht] at h
        simp only [Except.ok.injEq] at h
        subst h
        have := ih ht
        simp only [stepsToPVal, List.foldr, PVal.arr.injEq] at this ⊢
        rw [this]
    | .null, h => simp [stepsOfList] at h
    | .bool _, h => simp [stepsOfList] at h
    | .int _, h => simp [stepsOfList] at h
    | .float _, h => simp [stepsOfList] at h
    | .str _, h => simp [stepsOfList] at h
    | .arr .nil, h => simp [stepsOfList] at h
    | .arr (.cons a .nil), h => simp [stepsOfList] at h
    | .arr (.cons a (.cons b (.cons d e))), h => simp [stepsOfList] at h
    | .obj _, h => simp [stepsOfList] at h
    | .est _ _ _, h => simp [stepsOfList] at h
    | .blob _, h => simp [stepsOfList] at h

theorem decodeVal_arr_shape {env : Env} {wl : PList} {x : PVal}
    (h : decodeVal env (.arr wl) = .ok x) :
    ∃ ys, x = .arr ys ∧ decodeList env wl = .ok ys := by
  simp only [decodeVal] at h
  match hd : decodeList env wl with
  | .error e => rw [hd] at h; simp at h
  | .ok ys =>
    rw [hd] at h
    simp only [Except.ok.injEq] at h
    exact ⟨ys, h.symm, rfl⟩

theorem encode_pair_shape {n v w : PVal}
    (h : encodeVal (.arr (.cons n (.cons v .nil))) = some w) :
    ∃ en ev, encodeVal n = some en ∧ encodeVal v = some ev ∧
      w = .arr (.cons en (.cons ev .nil)) := by
  simp only [encodeVal, encodeList] at h
  match hn : encodeVal n with
  | none => rw [hn] at h; simp at h
  | some en =>
    rw [hn] at h
    match hv : encodeVal v with
    | none => rw [hv] at h; simp at h
    | some ev =>
      rw [hv] at h
      simp only [show encodeList PList.nil = some PList.nil from rfl,
        Option.map_some', Option.some.injEq] at h
      exact ⟨en, ev, rfl, rfl, by rw [← h]⟩

theorem decode_pair_shape {env : Env} {en ev y : PVal}
    (h : decodeVal env (.arr (.cons en (.cons ev .nil))) = .ok y) :
    ∃ n v, y = .arr (.cons n (.cons v .nil)) := by
  obtain ⟨ys, hy, hd⟩ := decodeVal_arr_shape h
  simp only [decodeList] at hd
  match hn : decodeVal env en with
  | .error e => rw [hn] at hd; simp at hd
  | .ok n =>
    rw [hn] at hd
    match hv : decodeVal env ev with
    | .error e => rw [hv] at hd; simp at hd
    | .ok v =>
      rw [hv] at hd
      dsimp only at hd
      simp only [Except.ok.injEq] at hd
      subst hd
      exact ⟨n, v, hy⟩

theorem steps_shape_round (env : Env) : ∀ (dl wl ys : PList)
    {steps : List (PVal × PVal)},
    stepsOfList dl = .ok steps → encodeList dl = some wl →
    decodeList env wl = .ok ys →
    ∃ steps2, stepsOfList ys = .ok steps2 := by
  intro dl
  induction dl with
  | nil =>
    intro wl ys steps _ he hd
    rw [show encodeList .nil = some .nil from rfl] at he
    cases he
    rw [show decodeList env .nil = .ok .nil from rfl] at hd
    cases hd
    exact ⟨[], rfl⟩
  | cons x t ih =>
    intro wl ys steps hs he hd
    match x, hs with
    | .arr (.cons n (.cons v .nil)), hs =>
      simp only [stepsOfList] at hs
      match hst : stepsOfList t with
      | .error e => rw [hst] at hs; simp at hs
      | .ok st =>
        simp only [encodeList] at he
        match hex : encodeVal (.arr (.cons n (.cons v .nil))) with
        | none => rw [hex] at he; simp at he
        | some w1 =>
          rw [hex] at he
          match het : encodeList t with
          | none => rw [het] at he; simp at he
          | some wt =>
            rw [het] at he
            simp only [Option.map_some', Option.some.injEq] at he
            subst he
            obtain ⟨en, ev, _, _, hw1⟩ := encode_pair_shape hex
            subst hw1
            simp only [decodeList] at hd
            match hdp : decodeVal env (.arr (.cons en (.cons ev .nil))) with
            | .error e => rw [hdp] at hd; simp at hd
            | .ok y1 =>
              rw [hdp] at hd
              match hdt : decodeList env wt with
              | .error e => rw [hdt] at hd; simp at hd
              | .ok yt =>
                rw [hdt] at hd
                simp only [Except.ok.injEq] at hd
                subst hd
                obtain ⟨n2, v2, hy1⟩ := decode_pair_shape hdp
                subst hy1
                obtain ⟨st2, hst2⟩ := ih wt yt hst het hdt
                exact ⟨(n2, v2) :: st2, by simp [stepsOfList, hst2]⟩
    | .null, hs => simp [stepsOfList] at hs
    | .bool _, hs => simp [stepsOfList] at hs
    | .int _, hs => simp [stepsOfList] at hs
    | .float _, hs => simp [stepsOfList] at hs
    | .str _, hs => simp [stepsOfList] at hs
    | .arr .nil, hs => simp [stepsOfList] at hs
    | .arr (.cons a .nil), hs => simp [stepsOfList] at hs
    | .arr (.cons a (.cons b (.cons d e))), hs => simp [stepsOfList] at hs
    | .obj _, hs => simp [stepsOfList] at hs
    | .est _ _ _, hs => simp [stepsOfList] at hs
    | .blob _, hs => simp [stepsOfList] at hs

/-- The general one-round-trip fixed point: decoding any well-formed spec
and re-encoding gives a spec which decodes and re-encodes to itself. -/
theorem spec_roundtrip (env : Env) (hwf : EnvWF env = true) (s : PVal)
    (hnd : nodupObjs s = true) (p : Pipeline)
    (hdec : pipeline_from_spec env s = .ok p) :
    ∃ s1, spec_from_pipeline p = some s1 ∧
      ∃ p1, pipeline_from_spec env s1 = .ok p1 ∧
        spec_from_pipeline p1 = some s1 := by
  unfold pipeline_from_spec at hdec
  by_cases hp : plainJson s
  · rw [if_neg (by simp [hp])] at hdec
    match hdv : decodeVal env s with
    | .error e => rw [hdv] at hdec; simp at hdec
    | .ok decoded =>
      rw [hdv] at hdec
      dsimp only at hdec
      match hts : toSteps decoded with
      | .error e => rw [hts] at hdec; simp at hdec
      | .ok steps =>
        rw [hts] at hdec
        simp only [Except.ok.injEq] at hdec
        subst hdec
        obtain ⟨hgood, _⟩ := decode_good env hwf s hp hnd hdv
        obtain ⟨w, hw, hdec2, henc2, _⟩ := good_fixed env hwf decoded hgood
        -- decoded is a list of two-element lists
        match decoded, hts with
        | .arr dl, hts =>
          simp only [toSteps] at hts
          have hsteps : stepsToPVal steps = .arr dl := stepsToPVal_ofList dl hts
          have hplainw : plainJson w = true := encode_out_plain _ hw
          simp only [encodeVal] at hw
          match hwl : encodeList dl with
          | none => rw [hwl] at hw; simp at hw
          | some wl =>
            rw [hwl] at hw
            simp only [Option.map_some', Option.some.injEq] at hw
            subst hw
            obtain ⟨ys, hys, hysd⟩ := decodeVal_arr_shape hdec2
            obtain ⟨steps2, hsteps2⟩ := steps_shape_round env dl wl ys hts hwl hysd
            refine ⟨.arr wl, ?_, ⟨steps2⟩, ?_, ?_⟩
            · unfold spec_from_pipeline
              rw [show (Pipeline.mk steps).steps = steps from rfl, hsteps]
              simp [encodeVal, hwl]
            · unfold pipeline_from_spec
              rw [if_neg (by simp [hplainw]), hdec2]
              dsimp only
              rw [hys]
              simp [toSteps, hsteps2]
            · unfold spec_from_pipeline
              rw [show (Pipeline.mk steps2).steps = steps2 from rfl,
                stepsToPVal_ofList ys hsteps2, ← hys, henc2]
  · rw [if_pos (by simp [hp])] at hdec
    simp at hdec

/-! ## Orientation and classification lemmas -/

theorem getLast?_some_mem {α : Type} : ∀ {l : List α} {a : α},
    l.getLast? = some a → a ∈ l := by
  intro l
  induction l with
  | nil => intro a h; simp at h
  | cons x t ih =>
    intro a h
    match t with
    | [] =>
      simp only [List.getLast?_singleton, Option.some.injEq] at h
      simp [h]
    | y :: t' =>
      rw [List.getLast?_cons_cons] at h
      exact List.mem_cons_of_mem _ (ih h)

theorem autodetect_none_eq (rc : Read → Read) (predictO : PredictOracle)
    (reads : List Read) (h : reads ≠ []) (n : Nat) :
    _autodetect_orientation rc predictO reads n none =
      .ok (if
          medianRat (List.zipWith (· - ·)
            ((predictO (reads.take n) 0).map (fun t => t.2.2))
            ((predictO ((reads.take n).map rc) 0).map (fun t => t.2.2))) > 0
        then reads else reads.map rc,
        [(reads.take n, 0), ((reads.take n).map rc, 0)]) := by
  match reads with
  | [] => exact absurd rfl h
  | r :: rest =>
    simp only [_autodetect_orientation]
    rw [if_neg (show ¬((none : Option String) = some "same") by simp),
      if_neg (show ¬((none : Option String) = some "reverse-complement") by simp)]
    by_cases hm : medianRat (List.zipWith (· - ·)
        ((predictO ((r :: rest).take n) 0).map (fun t => t.2.2))
        ((predictO (((r :: rest).take n).map rc) 0).map (fun t => t.2.2))) > 0
    · rw [if_pos hm, if_pos hm, List.take_append_drop]
    · rw [if_neg hm, if_neg hm]
      rw [show ((r :: rest).take n).map rc ++ ((r :: rest).drop n).map rc
          = (r :: rest).map rc by
        rw [← List.map_append, List.take_append_drop]]

theorem classify_rows_shape {rc : Read → Read} {assign : Assigner}
    {reads : List Read} {t : Rat} {ro : Option String}
    {rows : List (String × String × Rat)}
    (hok : classify_sklearn rc assign reads t ro = .ok rows) :
    ∃ oriented, rows = predictModel assign oriented t := by
  unfold classify_sklearn at hok
  match ha : _autodetect_orientation rc
      (fun rs c => predictModel assign rs c) reads 100 ro with
  | .error e => rw [ha] at hok; simp at hok
  | .ok pair =>
    rw [ha] at hok
    simp only [Except.ok.injEq] at hok
    exact ⟨pair.1, hok.symm⟩

theorem predictModel_row {assign : Assigner} {oriented : List Read} {t : Rat}
    {row : String × String × Rat} (h : row ∈ predictModel assign oriented t) :
    ∃ r : Read,
      row = (if t = -1 then
        (r.rid, joinRanks ((assign r).map (fun p => p.1)), sentinelConfidence)
      else
        match ((assign r).takeWhile (fun p => t ≤ p.2)).getLast? with
        | none => (r.rid, "Unassigned", 0)
        | some last =>
          (r.rid, joinRanks (((assign r).takeWhile
            (fun p => t ≤ p.2)).map (fun p => p.1)), last.2)) := by
  unfold predictModel at h
  obtain ⟨r, _, hr⟩ := List.mem_map.mp h
  exact ⟨r, hr.symm⟩

/-! ## Encoder node-shape lemmas -/

theorem tagOf_dotted (top rest c : String) (htop : '.' ∉ top.data) :
    tagOf (top ++ "." ++ rest) c = rest ++ "." ++ c := by
  unfold tagOf afterFirstDot
  have hdata : ((top ++ "." ++ rest) ++ "." ++ c).data
      = top.data ++ '.' :: (rest ++ "." ++ c).data := by
    rw [data_append_dot, data_append_dot, data_append_dot]
    simp
  rw [hdata, breakFirst_append _ htop]

theorem encodeParams_cons (sos : List String) (k : String) (v : PVal) (t : PKVs) :
    encodeParams sos (.cons k v t) =
      if subDropped sos k then encodeParams sos t
      else match encodeVal v with
        | some w => .cons k w (encodeParams sos t)
        | none => encodeParams sos t := rfl

theorem encodeList_cons (v : PVal) (t : PList) :
    encodeList (.cons v t) =
      match encodeVal v with
      | none => none
      | some w => (encodeList t).map (.cons w) := rfl

theorem encodeParams_keep (sos : List String) : ∀ (l : PKVs) {k : String} {v w : PVal},
    PKVs.entryMem k v l = true → subDropped sos k = false →
    encodeVal v = some w → PKVs.entryMem k w (encodeParams sos l) = true := by
  intro l
  induction l with
  | nil => intro k v w h _ _; simp [PKVs.entryMem] at h
  | cons k0 v0 t ih =>
    intro k v w hm hnd henc
    rw [encodeParams_cons]
    rcases PKVs.entryMem_cons.mp hm with ⟨h1, h2⟩ | h2
    · subst h1; subst h2
      rw [if_neg (by simp [hnd]), henc]
      exact PKVs.entryMem_cons.mpr (Or.inl ⟨rfl, rfl⟩)
    · by_cases hd : subDropped sos k0
      · rw [if_pos hd]; exact ih h2 hnd henc
      · rw [if_neg hd]
        match hv : encodeVal v0 with
        | some w0 =>
          exact PKVs.entryMem_cons.mpr (Or.inr (ih h2 hnd henc))
        | none =>
          exact ih h2 hnd henc

theorem encodeParams_hasKey (sos : List String) : ∀ (l : PKVs) {k : String},
    PKVs.hasKey (encodeParams sos l) k = true →
    PKVs.hasKey l k = true ∧ subDropped sos k = false := by
  intro l
  induction l with
  | nil => intro k h; simp [encodeParams, PKVs.hasKey] at h
  | cons k0 v0 t ih =>
    intro k h
    rw [encodeParams_cons] at h
    by_cases hd : subDropped sos k0
    · rw [if_pos hd] at h
      obtain ⟨h1, h2⟩ := ih h
      exact ⟨by simp [PKVs.hasKey, h1], h2⟩
    · rw [if_neg hd] at h
      match hv : encodeVal v0 with
      | some w0 =>
        rw [hv] at h
        dsimp only at h
        simp only [PKVs.hasKey, Bool.or_eq_true] at h ⊢
        rcases h with h1 | h1
        · refine ⟨Or.inl h1, ?_⟩
          have hke : k0 = k := by simpa using h1
          rw [← hke]
          exact Bool.eq_false_iff.mpr hd
        · obtain ⟨h2, h3⟩ := ih h1
          exact ⟨Or.inr h2, h3⟩
      | none =>
        rw [hv] at h
        dsimp only at h
        obtain ⟨h1, h2⟩ := ih h
        exact ⟨by simp [PKVs.hasKey, h1], h2⟩

theorem encodeParams_drop_none (sos : List String) : ∀ (l : PKVs) {k : String} {v : PVal},
    PKVs.nodupKeys l = true → PKVs.entryMem k v l = true → encodeVal v = none →
    PKVs.hasKey (encodeParams sos l) k = false := by
  intro l
  induction l with
  | nil => intro k v _ hm _; simp [PKVs.entryMem] at hm
  | cons k0 v0 t ih =>
    intro k v hnd hm henc
    simp only [PKVs.nodupKeys, Bool.and_eq_true, Bool.not_eq_true'] at hnd
    rw [encodeParams_cons]
    rcases PKVs.entryMem_cons.mp hm with ⟨h1, h2⟩ | h2
    · subst h1; subst h2
      have hnot : PKVs.hasKey (encodeParams sos t) k = false := by
        by_cases hk : PKVs.hasKey (encodeParams sos t) k = true
        · exact absurd (encodeParams_hasKey sos t hk).1 (by simp [hnd.1])
        · exact Bool.eq_false_iff.mpr hk
      by_cases hd : subDropped sos k
      · rw [if_pos hd]; exact hnot
      · rw [if_neg hd, henc]
        exact hnot
    · have hkt : PKVs.hasKey t k = true := PKVs.hasKey_of_entryMem h2
      by_cases hd : subDropped sos k0
      · rw [if_pos hd]; exact ih hnd.2 h2 henc
      · rw [if_neg hd]
        match hv : encodeVal v0 with
        | some w0 =>
          have htail := ih hnd.2 h2 henc
          have hne : ¬ (k0 = k) := by
            intro he
            have h1 := hnd.1
            rw [he, hkt] at h1
            simp at h1
          simp [PKVs.hasKey, hne, htail]
        | none =>
          exact ih hnd.2 h2 henc

theorem encode_steps_list : ∀ (steps : List (PVal × PVal)),
    (∀ s ∈ steps, (∃ n : String, s.1 = PVal.str n) ∧ isEst s.2 = true) →
    ∃ el, encodeList (steps.foldr (fun (p : PVal × PVal) acc =>
      PList.cons (.arr (.cons p.1 (.cons p.2 .nil))) acc) .nil) = some el := by
  intro steps
  induction steps with
  | nil => intro _; exact ⟨.nil, rfl⟩
  | cons s t ih =>
    intro h
    obtain ⟨⟨n, hn⟩, hest⟩ := h s (List.mem_cons_self s t)
    obtain ⟨el, hel⟩ := ih (fun x hx => h x (List.mem_cons_of_mem s hx))
    have h1 : encodeVal s.1 = some (.str n) := by rw [hn]; rfl
    have hv2 : ∃ w2, encodeVal s.2 = some w2 := by
      match hs2 : s.2, hest with
      | .est m c ps, _ => exact ⟨_, rfl⟩
    obtain ⟨w2, hw2⟩ := hv2
    have hhead : encodeVal (.arr (.cons s.1 (.cons s.2 .nil)))
        = some (.arr (.cons (.str n) (.cons w2 .nil))) := by
      rw [show encodeVal (.arr (.cons s.1 (.cons s.2 .nil)))
          = (encodeList (.cons s.1 (.cons s.2 .nil))).map .arr from rfl]
      rw [encodeList_cons, h1]
      dsimp only
      rw [encodeList_cons, hw2]
      dsimp only
      rfl
    refine ⟨PList.cons (.arr (.cons (.str n) (.cons w2 .nil))) el, ?_⟩
    rw [List.foldr_cons, encodeList_cons, hhead]
    dsimp only
    rw [hel]
    rfl

theorem encode_steps_total (steps : List (PVal × PVal))
    (h : ∀ s ∈ steps, (∃ n : String, s.1 = PVal.str n) ∧ isEst s.2 = true) :
    ∃ sv, encodeVal (stepsToPVal steps) = some sv := by
  obtain ⟨el, hel⟩ := encode_steps_list steps h
  refine ⟨.arr el, ?_⟩
  rw [show encodeVal (stepsToPVal steps)
      = (encodeList (steps.foldr (fun (p : PVal × PVal) acc =>
          PList.cons (.arr (.cons p.1 (.cons p.2 .nil))) acc) .nil)).map .arr
    from rfl, hel]
  rfl

/-! ## Signature-deriver lemmas -/

theorem sigLoop_cons (dumpsStr : PVal → String) (param : String) (d : PVal)
    (rest : List (String × PVal)) :
    sigLoop dumpsStr ((param, d) :: rest) =
      if plainJson d then
        match pyTypeOf d with
        | some t => ((param, typeMapGet t) :: (sigLoop dumpsStr rest).1,
            (⟨param, d, t⟩ : SigParam) :: (sigLoop dumpsStr rest).2)
        | none => ((param, QType.QStr) :: (sigLoop dumpsStr rest).1,
            (⟨param, PVal.str (dumpsStr d), PyType.strT⟩ : SigParam)
              :: (sigLoop dumpsStr rest).2)
      else sigLoop dumpsStr rest := rfl

theorem sigLoop_forward (dumpsStr : PVal → String) :
    ∀ (items : List (String × PVal)) (k : String) (v : PVal),
    (k, v) ∈ items → plainJson v = true →
    ((∀ t, pyTypeOf v = some t →
        (k, typeMapGet t) ∈ (sigLoop dumpsStr items).1 ∧
        (⟨k, v, t⟩ : SigParam) ∈ (sigLoop dumpsStr items).2) ∧
     (pyTypeOf v = none →
        (k, QType.QStr) ∈ (sigLoop dumpsStr items).1 ∧
        (⟨k, PVal.str (dumpsStr v), PyType.strT⟩ : SigParam)
          ∈ (sigLoop dumpsStr items).2)) := by
  intro items
  induction items with
  | nil => intro k v hm; simp at hm
  | cons x rest ih =>
    obtain ⟨p0, d0⟩ := x
    intro k v hm hpj
    rw [sigLoop_cons]
    rcases List.mem_cons.mp hm with hhead | htail
    · obtain ⟨hk, hv⟩ := Prod.mk.injEq .. ▸ hhead
      subst hk
      subst hv
      rw [if_pos hpj]
      constructor
      · intro t hvt
        rw [hvt]
        exact ⟨List.mem_cons_self _ _, List.mem_cons_self _ _⟩
      · intro hvn
        rw [hvn]
        exact ⟨List.mem_cons_self _ _, List.mem_cons_self _ _⟩
    · by_cases hd : plainJson d0 = true
      · rw [if_pos hd]
        match hpt : pyTypeOf d0 with
        | some t0 =>
          constructor
          · intro t hvt
            obtain ⟨h1, h2⟩ := (ih k v htail hpj).1 t hvt
            exact ⟨List.mem_cons_of_mem _ h1, List.mem_cons_of_mem _ h2⟩
          · intro hvn
            obtain ⟨h1, h2⟩ := (ih k v htail hpj).2 hvn
            exact ⟨List.mem_cons_of_mem _ h1, List.mem_cons_of_mem _ h2⟩
        | none =>
          constructor
          · intro t hvt
            obtain ⟨h1, h2⟩ := (ih k v htail hpj).1 t hvt
            exact ⟨List.mem_cons_of_mem _ h1, List.mem_cons_of_mem _ h2⟩
          · intro hvn
            obtain ⟨h1, h2⟩ := (ih k v htail hpj).2 hvn
            exact ⟨List.mem_cons_of_mem _ h1, List.mem_cons_of_mem _ h2⟩
      · rw [if_neg hd]
        exact ih k v htail hpj

theorem sigLoop_backward (dumpsStr : PVal → String) :
    ∀ (items : List (String × PVal)) (sp : SigParam),
    sp ∈ (sigLoop dumpsStr items).2 →
    ∃ v, (sp.name, v) ∈ items ∧ plainJson v = true ∧
      ((pyTypeOf v = some sp.ann ∧ sp.default = v) ∨
       (pyTypeOf v = none ∧ sp.ann = PyType.strT ∧
        sp.default = PVal.str (dumpsStr v))) := by
  intro items
  induction items with
  | nil => intro sp h; simp [sigLoop] at h
  | cons x rest ih =>
    obtain ⟨p0, d0⟩ := x
    intro sp h
    rw [sigLoop_cons] at h
    by_cases hd : plainJson d0 = true
    · rw [if_pos hd] at h
      match hpt : pyTypeOf d0 with
      | some t0 =>
        rw [hpt] at h
        dsimp only at h
        rcases List.mem_cons.mp h with hsp | htail
        · subst hsp
          exact ⟨d0, List.mem_cons_self _ _, hd, Or.inl ⟨hpt, rfl⟩⟩
        · obtain ⟨v, hmem, hrest⟩ := ih sp htail
          exact ⟨v, List.mem_cons_of_mem _ hmem, hrest⟩
      | none =>
        rw [hpt] at h
        dsimp only at h
        rcases List.mem_cons.mp h with hsp | htail
        · subst hsp
          exact ⟨d0, List.mem_cons_self _ _, hd, Or.inr ⟨hpt, rfl, rfl⟩⟩
        · obtain ⟨v, hmem, hrest⟩ := ih sp htail
          exact ⟨v, List.mem_cons_of_mem _ hmem, hrest⟩
    · rw [if_neg hd] at h
      obtain ⟨v, hmem, hrest⟩ := ih sp h
      exact ⟨v, List.mem_cons_of_mem _ hmem, hrest⟩

theorem mem_insertByKey {y x : String × PVal} : ∀ {l : List (String × PVal)},
    y ∈ insertByKey x l ↔ y = x ∨ y ∈ l := by
  intro l
  induction l with
  | nil => simp [insertByKey]
  | cons z t ih =>
    simp only [insertByKey]
    by_cases hle : x.1 ≤ z.1
    · rw [if_pos hle]
      simp [List.mem_cons]
    · rw [if_neg hle]
      simp only [List.mem_cons, ih]
      tauto

theorem mem_sortByKey {y : String × PVal} : ∀ {l : List (String × PVal)},
    y ∈ sortByKey l ↔ y ∈ l := by
  intro l
  induction l with
  | nil => simp [sortByKey]
  | cons z t ih =>
    simp only [sortByKey, mem_insertByKey, List.mem_cons, ih]

/-! ## Resolver case analysis -/

theorem walkImport_ok_all (env : Env) : ∀ (l : List String) {u : Unit},
    walkImport env l = .ok u →
    l.all (fun p => (env.sklearn.lookup p).isSome
      && env.sklearnPkgs.contains p) = true := by
  intro l
  induction l with
  | nil => intro u _; rfl
  | cons p rest ih =>
    intro u h
    unfold walkImport at h
    by_cases h1 : (env.sklearn.lookup p).isSome
    · rw [if_pos h1] at h
      by_cases h2 : env.sklearnPkgs.contains p
      · rw [if_pos h2] at h
        simp only [List.all_cons, Bool.and_eq_true]
        exact ⟨⟨h1, h2⟩, ih h⟩
      · rw [if_neg h2] at h
        cases rest <;> simp at h
    · rw [if_neg h1] at h
      simp at h

theorem walkImport_err_all (env : Env) : ∀ (l : List String) {e : LoadErr},
    walkImport env l = .error e →
    l.all (fun p => (env.sklearn.lookup p).isSome
      && env.sklearnPkgs.contains p) = false := by
  intro l
  induction l with
  | nil => intro e h; simp [walkImport] at h
  | cons p rest ih =>
    intro e h
    unfold walkImport at h
    by_cases h1 : (env.sklearn.lookup p).isSome
    · rw [if_pos h1] at h
      by_cases h2 : env.sklearnPkgs.contains p
      · rw [if_pos h2] at h
        simp only [List.all_cons]
        rw [ih h]
        simp
      · have h2f : env.sklearnPkgs.contains p = false := Bool.eq_false_iff.mpr h2
        simp only [List.all_cons, h2f, Bool.and_false, Bool.false_and]
    · have h1f : (env.sklearn.lookup p).isSome = false := Bool.eq_false_iff.mpr h1
      simp only [List.all_cons, h1f, Bool.false_and]

theorem walkImport_err_kinds (env : Env) : ∀ (l : List String) {e : LoadErr},
    walkImport env l = .error e →
    (∃ p, e = .moduleNotFound p) ∨ (∃ p, e = .notAPackage p) ∨
      (∃ p, e = .noPathAttr p) := by
  intro l
  induction l with
  | nil => intro e h; simp [walkImport] at h
  | cons p rest ih =>
    intro e h
    unfold walkImport at h
    by_cases h1 : (env.sklearn.lookup p).isSome
    · rw [if_pos h1] at h
      by_cases h2 : env.sklearnPkgs.contains p
      · rw [if_pos h2] at h
        exact ih h
      · rw [if_neg h2] at h
        cases rest with
        | nil =>
          dsimp only at h
          cases h
          exact Or.inr (Or.inr ⟨_, rfl⟩)
        | cons q t =>
          dsimp only at h
          cases h
          exact Or.inr (Or.inl ⟨_, rfl⟩)
    · rw [if_neg h1] at h
      cases h
      exact Or.inl ⟨_, rfl⟩

/-- Exhaustive case analysis of the resolver: it either succeeds (exactly
on `resolvableSpec` tags), raises plain ImportError on a relative
namespace (`relativeEscape`), escapes through the `ModuleNotFoundError`s
of the parent import (`importEscape`), escapes through the parent's
missing `__path__` (`pathEscape`), escapes through `issubclass`'s
`TypeError` (`classEscape`), or raises the uniform `ValueError`. -/
theorem load_class_cases (env : Env) (s : String) :
    (resolvableSpec env s = true ∧ relativeEscape s = false ∧
      importEscape env s = false ∧ pathEscape env s = false ∧
      classEscape env s = false ∧
      ∃ m c info, _load_class env s = .ok (m, c, info)) ∨
    (resolvableSpec env s = false ∧ relativeEscape s = true ∧
      importEscape env s = false ∧ pathEscape env s = false ∧
      classEscape env s = false ∧
      _load_class env s = .error (.importErr
        "attempted relative import beyond top-level package")) ∨
    (resolvableSpec env s = false ∧ relativeEscape s = false ∧
      importEscape env s = true ∧ pathEscape env s = false ∧
      classEscape env s = false ∧
      (∃ p, _load_class env s = .error (.moduleNotFound p) ∨
        _load_class env s = .error (.notAPackage p))) ∨
    (resolvableSpec env s = false ∧ relativeEscape s = false ∧
      importEscape env s = false ∧ pathEscape env s = true ∧
      classEscape env s = false ∧
      ∃ p, _load_class env s = .error (.noPathAttr p)) ∨
    (resolvableSpec env s = false ∧ relativeEscape s = false ∧
      importEscape env s = false ∧ pathEscape env s = false ∧
      classEscape env s = true ∧
      _load_class env s = .error (.typeError "issubclass() arg 1 must be a class")) ∨
    (resolvableSpec env s = false ∧ relativeEscape s = false ∧
      importEscape env s = false ∧ pathEscape env s = false ∧
      classEscape env s = false ∧
      _load_class env s = .error (.valueError (errMsg s))) := by
  by_cases hdot : hasChar '.' s
  · match hrs : rsplitDot s with
    | (module, klass) =>
      by_cases hcu : module = "custom"
      · have hload0 : _load_class env s
            = (match env.custom.lookup klass with
               | none => .error (.valueError (errMsg s))
               | some .other => .error (.typeError "issubclass() arg 1 must be a class")
               | some (.cls i) =>
                 if i.isEstimator then .ok ("q2_feature_classifier.custom", klass, i)
                 else .error (.valueError (errMsg s))) := by
          unfold _load_class
          rw [if_neg (by simp [hdot]), hrs]
          dsimp only
          rw [if_pos hcu]
        have hrel : relativeEscape s = false := by
          unfold relativeEscape
          simp [hdot, hrs, hcu]
        have himp : importEscape env s = false := by
          unfold importEscape
          simp [hdot, hrs, hcu]
        have hpath : pathEscape env s = false := by
          unfold pathEscape
          simp [hdot, hrs, hcu]
        match hlk : env.custom.lookup klass with
        | none =>
          refine Or.inr (Or.inr (Or.inr (Or.inr (Or.inr
            ⟨?_, hrel, himp, hpath, ?_, ?_⟩))))
          · unfold resolvableSpec estClassAt
            simp [hdot, hrs, hcu, hlk]
          · unfold classEscape
            simp [hdot, hrs, hcu, hlk]
          · rw [hload0, hlk]
        | some .other =>
          refine Or.inr (Or.inr (Or.inr (Or.inr (Or.inl
            ⟨?_, hrel, himp, hpath, ?_, ?_⟩))))
          · unfold resolvableSpec estClassAt
            simp [hdot, hrs, hcu, hlk]
          · unfold classEscape
            simp [hdot, hrs, hcu, hlk]
          · rw [hload0, hlk]
        | some (.cls i) =>
          by_cases hest : i.isEstimator
          · refine Or.inl ⟨?_, hrel, himp, hpath, ?_,
              "q2_feature_classifier.custom", klass, i, ?_⟩
            · unfold resolvableSpec estClassAt
              simp [hdot, hrs, hcu, hlk, hest]
            · unfold classEscape
              simp [hdot, hrs, hcu, hlk]
            · rw [hload0, hlk]
              dsimp only
              rw [if_pos hest]
          · refine Or.inr (Or.inr (Or.inr (Or.inr (Or.inr
              ⟨?_, hrel, himp, hpath, ?_, ?_⟩))))
            · unfold resolvableSpec estClassAt
              simp [hdot, hrs, hcu, hlk, hest]
            · unfold classEscape
              simp [hdot, hrs, hcu, hlk]
            · rw [hload0, hlk]
              dsimp only
              rw [if_neg hest]
      · by_cases hemp : module = ""
        · have hfs : findSpecSk env module = .ok true := by
            unfold findSpecSk
            rw [if_pos hemp]
          have hload0 : _load_class env s
              = (match env.sklearnTop.lookup klass with
                 | none => .error (.valueError (errMsg s))
                 | some .other => .error (.typeError "issubclass() arg 1 must be a class")
                 | some (.cls i) =>
                   if i.isEstimator then .ok ("sklearn", klass, i)
                   else .error (.valueError (errMsg s))) := by
            unfold _load_class
            rw [if_neg (by simp [hdot]), hrs]
            dsimp only
            rw [if_neg hcu, hfs]
            dsimp only
            rw [importSk, if_pos hemp]
          have hrel : relativeEscape s = false := by
            unfold relativeEscape
            simp [hdot, hrs, hemp]
          have himp : importEscape env s = false := by
            unfold importEscape
            simp [hdot, hrs, hemp]
          have hpath : pathEscape env s = false := by
            unfold pathEscape
            simp [hdot, hrs, hemp]
          match hlk : env.sklearnTop.lookup klass with
          | none =>
            refine Or.inr (Or.inr (Or.inr (Or.inr (Or.inr
              ⟨?_, hrel, himp, hpath, ?_, ?_⟩))))
            · unfold resolvableSpec estClassAt
              simp [hdot, hrs, hcu, hemp, hlk]
            · unfold classEscape
              simp [hdot, hrs, hcu, hemp, hlk]
            · rw [hload0, hlk]
          | some .other =>
            refine Or.inr (Or.inr (Or.inr (Or.inr (Or.inl
              ⟨?_, hrel, himp, hpath, ?_, ?_⟩))))
            · unfold resolvableSpec estClassAt
              simp [hdot, hrs, hcu, hemp, hlk]
            · unfold classEscape
              simp [hdot, hrs, hcu, hemp, hlk]
            · rw [hload0, hlk]
          | some (.cls i) =>
            by_cases hest : i.isEstimator
            · refine Or.inl ⟨?_, hrel, himp, hpath, ?_, "sklearn", klass, i, ?_⟩
              · unfold resolvableSpec estClassAt
                simp [hdot, hrs, hcu, hemp, hlk, hest]
              · unfold classEscape
                simp [hdot, hrs, hcu, hemp, hlk]
              · rw [hload0, hlk]
                dsimp only
                rw [if_pos hest]
            · refine Or.inr (Or.inr (Or.inr (Or.inr (Or.inr
                ⟨?_, hrel, himp, hpath, ?_, ?_⟩))))
              · unfold resolvableSpec estClassAt
                simp [hdot, hrs, hcu, hemp, hlk, hest]
              · unfold classEscape
                simp [hdot, hrs, hcu, hemp, hlk]
              · rw [hload0, hlk]
                dsimp only
                rw [if_neg hest]
        · by_cases hrelp : strPre "." module = true
          · have hfs : findSpecSk env module = .error (.importErr
                "attempted relative import beyond top-level package") := by
              unfold findSpecSk
              rw [if_neg hemp, if_pos hrelp]
            have hload0 : _load_class env s = .error (.importErr
                "attempted relative import beyond top-level package") := by
              unfold _load_class
              rw [if_neg (by simp [hdot]), hrs]
              dsimp only
              rw [if_neg hcu, hfs]
            refine Or.inr (Or.inl ⟨?_, ?_, ?_, ?_, ?_, hload0⟩)
            · unfold resolvableSpec
              simp [hdot, hrs, hcu, hemp, hrelp]
            · unfold relativeEscape
              simp [hdot, hrs, hcu, hemp, hrelp]
            · unfold importEscape
              simp [hdot, hrs, hrelp]
            · unfold pathEscape
              simp [hdot, hrs, hrelp]
            · unfold classEscape
              simp [hdot, hrs, hcu, hemp, hrelp]
          · have hrel : relativeEscape s = false := by
              unfold relativeEscape
              simp [hdot, hrs, hrelp]
            match hpar : parentOf module with
            | none =>
              have hfs0 : findSpecSk env module
                  = .ok (env.sklearn.lookup module).isSome := by
                unfold findSpecSk
                rw [if_neg hemp, if_neg hrelp, hpar]
              have himp : importEscape env s = false := by
                unfold importEscape
                simp [hdot, hrs, hpar]
              have hpath : pathEscape env s = false := by
                unfold pathEscape
                simp [hdot, hrs, hpar]
              match hms : env.sklearn.lookup module with
              | none =>
                have hload0 : _load_class env s = .error (.valueError (errMsg s)) := by
                  unfold _load_class
                  rw [if_neg (by simp [hdot]), hrs]
                  dsimp only
                  rw [if_neg hcu, hfs0, hms]
                  rfl
                refine Or.inr (Or.inr (Or.inr (Or.inr (Or.inr
                  ⟨?_, hrel, himp, hpath, ?_, hload0⟩))))
                · unfold resolvableSpec estClassAt
                  simp [hdot, hrs, hcu, hemp, hrelp, hpar, hms]
                · unfold classEscape
                  simp [hdot, hrs, hcu, hemp, hrelp, hpar, hms]
              | some tbl =>
                have hfs : findSpecSk env module = .ok true := by
                  rw [hfs0, hms]
                  rfl
                have hload0 : _load_class env s
                    = (match tbl.lookup klass with
                       | none => .error (.valueError (errMsg s))
                       | some .other =>
                         .error (.typeError "issubclass() arg 1 must be a class")
                       | some (.cls i) =>
                         if i.isEstimator then .ok ("sklearn." ++ module, klass, i)
                         else .error (.valueError (errMsg s))) := by
                  unfold _load_class
                  rw [if_neg (by simp [hdot]), hrs]
                  dsimp only
                  rw [if_neg hcu, hfs]
                  dsimp only
                  rw [importSk, if_neg hemp, hms]
                  rfl
                match hlk : tbl.lookup klass with
                | none =>
                  refine Or.inr (Or.inr (Or.inr (Or.inr (Or.inr
                    ⟨?_, hrel, himp, hpath, ?_, ?_⟩))))
                  · unfold resolvableSpec estClassAt
                    simp [hdot, hrs, hcu, hemp, hrelp, hpar, hms, hlk]
                  · unfold classEscape
                    simp [hdot, hrs, hcu, hemp, hrelp, hpar, hms, hlk]
                  · rw [hload0, hlk]
                | some .other =>
                  refine Or.inr (Or.inr (Or.inr (Or.inr (Or.inl
                    ⟨?_, hrel, himp, hpath, ?_, ?_⟩))))
                  · unfold resolvableSpec estClassAt
                    simp [hdot, hrs, hcu, hemp, hrelp, hpar, hms, hlk]
                  · unfold classEscape
                    simp [hdot, hrs, hcu, hemp, hrelp, hpar, hms, hlk]
                  · rw [hload0, hlk]
                | some (.cls i) =>
                  by_cases hest : i.isEstimator
                  · refine Or.inl ⟨?_, hrel, himp, hpath, ?_,
                      "sklearn." ++ module, klass, i, ?_⟩
                    · unfold resolvableSpec estClassAt
                      simp [hdot, hrs, hcu, hemp, hrelp, hpar, hms, hlk, hest]
                    · unfold classEscape
                      simp [hdot, hrs, hcu, hemp, hrelp, hpar, hms, hlk]
                    · rw [hload0, hlk]
                      dsimp only
                      rw [if_pos hest]
                  · refine Or.inr (Or.inr (Or.inr (Or.inr (Or.inr
                      ⟨?_, hrel, himp, hpath, ?_, ?_⟩))))
                    · unfold resolvableSpec estClassAt
                      simp [hdot, hrs, hcu, hemp, hrelp, hpar, hms, hlk, hest]
                    · unfold classEscape
                      simp [hdot, hrs, hcu, hemp, hrelp, hpar, hms, hlk]
                    · rw [hload0, hlk]
                      dsimp only
                      rw [if_neg hest]
            | some par =>
              match hwk : walkImport env (dottedPrefixes par) with
              | .ok u =>
                have hpk : prefixPackagesOK env par = true :=
                  walkImport_ok_all env (dottedPrefixes par) hwk
                have himp : importEscape env s = false := by
                  unfold importEscape
                  simp [hdot, hrs, hpar, hwk]
                have hpath : pathEscape env s = false := by
                  unfold pathEscape
                  simp [hdot, hrs, hpar, hwk]
                have hfs0 : findSpecSk env module
                    = .ok (env.sklearn.lookup module).isSome := by
                  unfold findSpecSk
                  rw [if_neg hemp, if_neg hrelp, hpar]
                  dsimp only
                  rw [hwk]
                match hms : env.sklearn.lookup module with
                | none =>
                  have hload0 : _load_class env s = .error (.valueError (errMsg s)) := by
                    unfold _load_class
                    rw [if_neg (by simp [hdot]), hrs]
                    dsimp only
                    rw [if_neg hcu, hfs0, hms]
                    rfl
                  refine Or.inr (Or.inr (Or.inr (Or.inr (Or.inr
                    ⟨?_, hrel, himp, hpath, ?_, hload0⟩))))
                  · unfold resolvableSpec estClassAt
                    simp [hdot, hrs, hcu, hemp, hrelp, hpar, hms]
                  · unfold classEscape
                    simp [hdot, hrs, hcu, hemp, hrelp, hpar, hms]
                | some tbl =>
                  have hfs : findSpecSk env module = .ok true := by
                    rw [hfs0, hms]
                    rfl
                  have hload0 : _load_class env s
                      = (match tbl.lookup klass with
                         | none => .error (.valueError (errMsg s))
                         | some .other =>
                           .error (.typeError "issubclass() arg 1 must be a class")
                         | some (.cls i) =>
                           if i.isEstimator then .ok ("sklearn." ++ module, klass, i)
                           else .error (.valueError (errMsg s))) := by
                    unfold _load_class
                    rw [if_neg (by simp [hdot]), hrs]
                    dsimp only
                    rw [if_neg hcu, hfs]
                    dsimp only
                    rw [importSk, if_neg hemp, hms]
                    rfl
                  match hlk : tbl.lookup klass with
                  | none =>
                    refine Or.inr (Or.inr (Or.inr (Or.inr (Or.inr
                      ⟨?_, hrel, himp, hpath, ?_, ?_⟩))))
                    · unfold resolvableSpec estClassAt
                      simp [hdot, hrs, hcu, hemp, hrelp, hpar, hpk, hms, hlk]
                    · unfold classEscape
                      simp [hdot, hrs, hcu, hemp, hrelp, hpar, hpk, hms, hlk]
                    · rw [hload0, hlk]
                  | some .other =>
                    refine Or.inr (Or.inr (Or.inr (Or.inr (Or.inl
                      ⟨?_, hrel, himp, hpath, ?_, ?_⟩))))
                    · unfold resolvableSpec estClassAt
                      simp [hdot, hrs, hcu, hemp, hrelp, hpar, hpk, hms, hlk]
                    · unfold classEscape
                      simp [hdot, hrs, hcu, hemp, hrelp, hpar, hpk, hms, hlk]
                    · rw [hload0, hlk]
                  | some (.cls i) =>
                    by_cases hest : i.isEstimator
                    · refine Or.inl ⟨?_, hrel, himp, hpath, ?_,
                        "sklearn." ++ module, klass, i, ?_⟩
                      · unfold resolvableSpec estClassAt
                        simp [hdot, hrs, hcu, hemp, hrelp, hpar, hpk, hms, hlk, hest]
                      · unfold classEscape
                        simp [hdot, hrs, hcu, hemp, hrelp, hpar, hpk, hms, hlk]
                      · rw [hload0, hlk]
                        dsimp only
                        rw [if_pos hest]
                    · refine Or.inr (Or.inr (Or.inr (Or.inr (Or.inr
                        ⟨?_, hrel, himp, hpath, ?_, ?_⟩))))
                      · unfold resolvableSpec estClassAt
                        simp [hdot, hrs, hcu, hemp, hrelp, hpar, hpk, hms, hlk, hest]
                      · unfold classEscape
                        simp [hdot, hrs, hcu, hemp, hrelp, hpar, hpk, hms, hlk]
                      · rw [hload0, hlk]
                        dsimp only
                        rw [if_neg hest]
              | .error e =>
                have hpk : prefixPackagesOK env par = false :=
                  walkImport_err_all env (dottedPrefixes par) hwk
                have hfs : findSpecSk env module = .error e := by
                  unfold findSpecSk
                  rw [if_neg hemp, if_neg hrelp, hpar]
                  dsimp only
                  rw [hwk]
                have hload0 : _load_class env s = .error e := by
                  unfold _load_class
                  rw [if_neg (by simp [hdot]), hrs]
                  dsimp only
                  rw [if_neg hcu, hfs]
                have hres : resolvableSpec env s = false := by
                  unfold resolvableSpec
                  simp [hdot, hrs, hcu, hemp, hrelp, hpar, hpk]
                have hcls : classEscape env s = false := by
                  unfold classEscape
                  simp [hdot, hrs, hcu, hemp, hrelp, hpar, hpk]
                rcases walkImport_err_kinds env (dottedPrefixes par) hwk with
                    ⟨p, hp⟩ | ⟨p, hp⟩ | ⟨p, hp⟩
                · subst hp
                  refine Or.inr (Or.inr (Or.inl
                    ⟨hres, hrel, ?_, ?_, hcls, p, Or.inl hload0⟩))
                  · unfold importEscape
                    simp [hdot, hrs, hcu, hemp, hrelp, hpar, hwk]
                  · unfold pathEscape
                    simp [hdot, hrs, hpar, hwk]
                · subst hp
                  refine Or.inr (Or.inr (Or.inl
                    ⟨hres, hrel, ?_, ?_, hcls, p, Or.inr hload0⟩))
                  · unfold importEscape
                    simp [hdot, hrs, hcu, hemp, hrelp, hpar, hwk]
                  · unfold pathEscape
                    simp [hdot, hrs, hpar, hwk]
                · subst hp
                  refine Or.inr (Or.inr (Or.inr (Or.inl
                    ⟨hres, hrel, ?_, ?_, hcls, p, hload0⟩)))
                  · unfold importEscape
                    simp [hdot, hrs, hpar, hwk]
                  · unfold pathEscape
                    simp [hdot, hrs, hcu, hemp, hrelp, hpar, hwk]
  · refine Or.inr (Or.inr (Or.inr (Or.inr (Or.inr ⟨?_, ?_, ?_, ?_, ?_, ?_⟩))))
    · unfold resolvableSpec
      simp [hdot]
    · unfold relativeEscape
      simp [hdot]
    · unfold importEscape
      simp [hdot]
    · unfold pathEscape
      simp [hdot]
    · unfold classEscape
      simp [hdot]
    · unfold _load_class
      rw [if_pos (by simp [hdot])]

/-! ## Claim theorems -/

/-- Claim C3: classifying an empty read stream yields the hard error
`"empty reads input"` in both the orientation detector and the classify
orchestrator, for every reverse-complement operation, every external
predict contract, every sample size, every confidence and every
orientation setting — the result does not depend on the predict contract,
so the error is raised before any prediction is attempted. -/
theorem c3_empty_reads_error (rc : Read → Read) (predictO : PredictOracle)
    (assign : Assigner) (n : Nat) (t : Rat) (ro : Option String) :
    _autodetect_orientation rc predictO [] n ro = .error "empty reads input" ∧
    classify_sklearn rc assign [] t ro = .error "empty reads input" :=
  ⟨rfl, rfl⟩

/-- C3 at a concrete instantiation of the external contracts. -/
theorem c3_empty_reads_error_witness :
    _autodetect_orientation (fun r => r) (fun _ _ => []) [] 100 none
        = .error "empty reads input" ∧
    classify_sklearn (fun r => r) (fun _ => []) [] 0 none
        = .error "empty reads input" :=
  c3_empty_reads_error (fun r => r) (fun _ _ => []) (fun _ => []) 100 0 none

/-- Claim C5: with `read_orientation` unset, orientation autodetection
samples exactly the first `n = 100` reads, makes exactly two trial calls to
the external predict contract — the sample as-is and the sample
reverse-complemented, both with confidence `0` (computation forced on) —
and keeps the original orientation iff the median of (same-orientation
confidence minus reverse-orientation confidence) over the sample is
strictly positive, otherwise reverse-complements the whole stream; the
output stream is the sampled prefix prepended back to the remainder, so no
read is consumed twice and no read beyond the prefix enters a trial
call. -/
theorem c5_orientation_autodetect (rc : Read → Read)
    (predictO : PredictOracle) (reads : List Read) (h : reads ≠ []) :
    _autodetect_orientation rc predictO reads 100 none =
      .ok (if
          medianRat (List.zipWith (· - ·)
            ((predictO (reads.take 100) 0).map (fun t => t.2.2))
            ((predictO ((reads.take 100).map rc) 0).map (fun t => t.2.2))) > 0
        then reads else reads.map rc,
        [(reads.take 100, 0), ((reads.take 100).map rc, 0)]) :=
  autodetect_none_eq rc predictO reads h 100

/-- C5 at a concrete single-read stream whose same-orientation trial
confidence (1) beats the reverse trial (0): the original orientation is
kept and the trial-call log shows exactly the two sample calls at
confidence 0. -/
theorem c5_orientation_autodetect_witness :
    _autodetect_orientation (fun r => Read.mk r.rid (r.seq ++ "c"))
      (fun rs _ => rs.map (fun r => (r.rid, "T", if r.seq = "A" then (1 : Rat) else 0)))
      [Read.mk "r1" "A"] 100 none =
      .ok ([Read.mk "r1" "A"],
        [([Read.mk "r1" "A"], 0), ([Read.mk "r1" "Ac"], 0)]) := by
  have h := c5_orientation_autodetect (fun r => Read.mk r.rid (r.seq ++ "c"))
    (fun rs _ => rs.map (fun r => (r.rid, "T", if r.seq = "A" then (1 : Rat) else 0)))
    [Read.mk "r1" "A"] (by simp)
  rw [h]
  split
  · rfl
  next hc => exact absurd (show (0 : Rat) < 1 - 0 by norm_num) hc

/-- Claim C10: the emptiness check happens before the orientation branch —
on an empty stream both the detector and the orchestrator raise the same
`"empty reads input"` error even when `read_orientation` is explicitly set
(to `same`, `reverse-complement`, or anything else), and on a nonempty
stream the `same` setting passes the reads through unchanged (the peeked
first read restored in front) with no trial predict calls. -/
theorem c10_empty_check_before_orientation (rc : Read → Read)
    (predictO : PredictOracle) (assign : Assigner) (n : Nat) (t : Rat)
    (ro : Option String) (reads : List Read) (h : reads ≠ []) :
    _autodetect_orientation rc predictO [] n ro = .error "empty reads input" ∧
    classify_sklearn rc assign [] t ro = .error "empty reads input" ∧
    _autodetect_orientation rc predictO reads n (some "same") = .ok (reads, []) := by
  refine ⟨rfl, rfl, ?_⟩
  match reads with
  | [] => exact absurd rfl h
  | r :: rest => rfl

/-- C10 at concrete inputs: the empty stream errors under an explicit
`reverse-complement` orientation, and a one-read stream under `same` passes
through with an empty trial-call log. -/
theorem c10_empty_check_before_orientation_witness :
    _autodetect_orientation (fun r => r) (fun _ _ => []) [] 3
        (some "reverse-complement") = .error "empty reads input" ∧
    classify_sklearn (fun r => r) (fun _ => []) [] (1/2)
        (some "reverse-complement") = .error "empty reads input" ∧
    _autodetect_orientation (fun r => r) (fun _ _ => []) [Read.mk "x" "G"] 3
        (some "same") = .ok ([Read.mk "x" "G"], []) :=
  c10_empty_check_before_orientation (fun r => r) (fun _ _ => [])
    (fun _ => []) 3 (1/2) (some "reverse-complement") [Read.mk "x" "G"]
    (by decide)

/-- Claim C4: the three confidence regimes of `classify_sklearn`.  With
`confidence = -1` every output row carries the sentinel confidence and the
read's label untruncated; with `confidence = 0` (given that running
confidences are nonnegative, as they are probabilities) every label is
either the full untruncated label or `Unassigned` for a read with no
assignment at all — never a proper truncation; with `confidence = t > 0`
every output row either has label exactly `Unassigned` or reports the
running confidence of its deepest retained rank, which is `≥ t`. -/
theorem c4_confidence_regimes (rc : Read → Read) (assign : Assigner)
    (reads : List Read) (t : Rat) (ro : Option String)
    (rows : List (String × String × Rat))
    (hok : classify_sklearn rc assign reads t ro = .ok rows) :
    (t = -1 → ∀ row ∈ rows, ∃ r : Read,
      row = (r.rid, joinRanks ((assign r).map (fun p => p.1)), sentinelConfidence)) ∧
    (t = 0 → (∀ r : Read, ∀ p ∈ assign r, (0 : Rat) ≤ p.2) →
      ∀ row ∈ rows, ∃ r : Read,
        (assign r = [] ∧ row.2.1 = "Unassigned") ∨
        row.2.1 = joinRanks ((assign r).map (fun p => p.1))) ∧
    (0 < t → ∀ row ∈ rows, row.2.1 = "Unassigned" ∨ t ≤ row.2.2) := by
  obtain ⟨oriented, hrows⟩ := classify_rows_shape hok
  subst hrows
  refine ⟨?_, ?_, ?_⟩
  · intro ht row hrow
    obtain ⟨r, hr⟩ := predictModel_row hrow
    subst ht
    rw [if_pos rfl] at hr
    exact ⟨r, hr⟩
  · intro ht hconf row hrow
    obtain ⟨r, hr⟩ := predictModel_row hrow
    subst ht
    rw [if_neg (by norm_num)] at hr
    have hkeep : (assign r).takeWhile (fun p => decide ((0 : Rat) ≤ p.2)) = assign r :=
      List.takeWhile_eq_self_iff.mpr
        (fun p hp => decide_eq_true (hconf r p hp))
    rw [hkeep] at hr
    refine ⟨r, ?_⟩
    match hl : (assign r).getLast? with
    | none =>
      rw [hl] at hr
      dsimp only at hr
      exact Or.inl ⟨List.getLast?_eq_none_iff.mp hl, by rw [hr]⟩
    | some last =>
      rw [hl] at hr
      dsimp only at hr
      exact Or.inr (by rw [hr])
  · intro ht row hrow
    obtain ⟨r, hr⟩ := predictModel_row hrow
    rw [if_neg (fun he => by rw [he] at ht; norm_num at ht)] at hr
    match hl : ((assign r).takeWhile (fun p => decide (t ≤ p.2))).getLast? with
    | none =>
      rw [hl] at hr
      dsimp only at hr
      exact Or.inl (by rw [hr])
    | some last =>
      rw [hl] at hr
      dsimp only at hr
      refine Or.inr ?_
      have hmem : last ∈ (assign r).takeWhile (fun p => decide (t ≤ p.2)) :=
        getLast?_some_mem hl
      have hp := List.mem_takeWhile_imp hmem
      have hle : t ≤ last.2 := of_decide_eq_true hp
      rw [hr]
      exact hle

/-- C4 at a concrete input: one read whose sole rank has running confidence
0, classified at threshold 1, comes back as literally `Unassigned`. -/
theorem c4_confidence_regimes_witness :
    ("a", "Unassigned", (0 : Rat)).2.1 = "Unassigned" ∨
      (1 : Rat) ≤ ("a", "Unassigned", (0 : Rat)).2.2 :=
  (c4_confidence_regimes (fun r => r) (fun _ => [("k", (0 : Rat))])
    [Read.mk "a" "A"] 1 (some "same") [("a", "Unassigned", 0)]
    (by decide)).2.2 (by norm_num) ("a", "Unassigned", 0) (by simp)

/-- Claim C6: on a pipeline whose steps are string-named recognised
estimators, encoding (`spec_from_pipeline`) never fails; and every
estimator node (class `c` of a dotted module `top.rest`, duplicate-free
direct parameters `ps`) encodes to a dict that is its parameter block `w`
plus the `'__type__'` tag `rest ++ "." ++ c` (the module path minus its
top-level package, a dot, and the class name), where `w` keeps every
directly-owned JSON-serialisable parameter value as-is, recursively encodes
estimator-valued parameters, contains no key matching a collected
`subobjs` prefix — a key `j ++ "__"` exactly when some parameter `j` of
the flattened mapping holds an estimator — and silently omits every
parameter whose value fails to serialise. -/
theorem c6_encoder_totality_and_node_shape (p : Pipeline)
    (hp : ∀ s ∈ p.steps, (∃ n : String, s.1 = PVal.str n) ∧ isEst s.2 = true)
    (m c top rest : String) (ps : PKVs)
    (hm : m = top ++ "." ++ rest) (htop : '.' ∉ top.data)
    (hnd : PKVs.nodupKeys ps = true) :
    (∃ s, spec_from_pipeline p = some s) ∧
    (∃ w, encodeVal (PVal.est m c ps) =
        some (.obj (PKVs.append w
          (.cons "__type__" (.str (rest ++ "." ++ c)) .nil))) ∧
      (∀ k v, PKVs.entryMem k v ps = true →
        subDropped (subobjsOf (flattenKVs ps)) k = false →
        plainJson v = true → PKVs.entryMem k v w = true) ∧
      (∀ k m' c' qs, PKVs.entryMem k (PVal.est m' c' qs) ps = true →
        subDropped (subobjsOf (flattenKVs ps)) k = false →
        ∃ ev, encodeVal (PVal.est m' c' qs) = some ev ∧
          PKVs.entryMem k ev w = true) ∧
      (∀ k, subDropped (subobjsOf (flattenKVs ps)) k = true →
        PKVs.hasKey w k = false) ∧
      (∀ k, subDropped (subobjsOf (flattenKVs ps)) k = true →
        ∃ j u, PKVs.entryMem j u (flattenKVs ps) = true ∧ isEst u = true ∧
          strPre (j ++ "__") k = true) ∧
      (∀ k v, PKVs.entryMem k v ps = true → encodeVal v = none →
        PKVs.hasKey w k = false)) := by
  subst hm
  refine ⟨encode_steps_total p.steps hp,
    encodeParams (subobjsOf (flattenKVs ps)) ps, ?_, ?_, ?_, ?_, ?_, ?_⟩
  · rw [show encodeVal (PVal.est (top ++ "." ++ rest) c ps)
        = some (.obj (PKVs.append
            (encodeParams (subobjsOf (flattenKVs ps)) ps)
            (.cons "__type__" (.str (tagOf (top ++ "." ++ rest) c)) .nil)))
      from rfl, tagOf_dotted top rest c htop]
  · exact fun k v hmem hkeep hpj =>
      encodeParams_keep (subobjsOf (flattenKVs ps)) ps hmem hkeep
        (encode_plain v hpj)
  · exact fun k m' c' qs hmem hkeep =>
      ⟨_, rfl, encodeParams_keep (subobjsOf (flattenKVs ps)) ps hmem hkeep rfl⟩
  · intro k hdrop
    by_cases hk : PKVs.hasKey (encodeParams (subobjsOf (flattenKVs ps)) ps) k = true
    · exact absurd hdrop
        (by simp [(encodeParams_hasKey (subobjsOf (flattenKVs ps)) ps hk).2])
    · exact Bool.eq_false_iff.mpr hk
  · exact fun k hdrop => subDropped_elim hdrop
  · exact fun k v hmem henc =>
      encodeParams_drop_none (subobjsOf (flattenKVs ps)) ps hnd hmem henc

/-- C6 at a concrete pipeline: one step named `"n"` holding an estimator of
class `C` from module `a.b` — the whole pipeline encodes successfully. -/
theorem c6_encoder_totality_and_node_shape_witness :
    ∃ s, spec_from_pipeline
      ⟨[(PVal.str "n", PVal.est "a.b" "C" (.cons "x" (.int 1) .nil))]⟩ = some s :=
  (c6_encoder_totality_and_node_shape
    ⟨[(PVal.str "n", PVal.est "a.b" "C" (.cons "x" (.int 1) .nil))]⟩
    (by
      intro s hs
      rw [List.mem_singleton] at hs
      subst hs
      exact ⟨⟨"n", rfl⟩, rfl⟩)
    "a.b" "C" "a" "b" (.cons "x" (.int 1) .nil)
    (by decide) (by decide) (by decide)).1

/-- Claim C7: the decoder reconstructs depth-first, bottom-up.  A dict
value first has all its entries decoded (each entry's value reconstructed
before the enclosing dict is considered, per the second conjunct); if the
decoded mapping carries the reserved `'__type__'` key (a string tag) the
dict is replaced by an instance of the class the resolver finds for the
tag, constructed with all remaining key/value pairs as keyword parameters,
and otherwise stays a plain dict; and a successful `pipeline_from_spec`
run is exactly a successful decode of the whole spec whose outermost list
of `[name, object]` pairs — unpacked in order by the fourth conjunct —
becomes the `Pipeline`'s ordered steps. -/
theorem c7_decoder_bottom_up (env : Env) :
    (∀ (kvs : PKVs) (v : PVal), decodeVal env (.obj kvs) = .ok v →
      ∃ kvs', decodeKVs env kvs = .ok kvs' ∧
        ((PKVs.lookupKV kvs' "__type__" = none ∧ v = .obj kvs') ∨
         (∃ tag m c info, PKVs.lookupKV kvs' "__type__" = some (.str tag) ∧
           _load_class env tag = .ok (m, c, info) ∧
           kwargsOk info.defaults (PKVs.removeKey kvs' "__type__") = true ∧
           v = .est m c (bindDefaults info.defaults
             (PKVs.removeKey kvs' "__type__"))))) ∧
    (∀ (k : String) (v v' : PVal) (t t' : PKVs),
      decodeVal env v = .ok v' → decodeKVs env t = .ok t' →
      decodeKVs env (.cons k v t) = .ok (.cons k v' t')) ∧
    (∀ (s : PVal) (p : Pipeline), pipeline_from_spec env s = .ok p →
      ∃ decoded, plainJson s = true ∧ decodeVal env s = .ok decoded ∧
        toSteps decoded = .ok p.steps) ∧
    (∀ (n v : PVal) (tl : PList) (st : List (PVal × PVal)),
      stepsOfList (.cons (.arr (.cons n (.cons v .nil))) tl) = .ok st →
      ∃ st', stepsOfList tl = .ok st' ∧ st = (n, v) :: st') := by
  refine ⟨?_, ?_, ?_, ?_⟩
  · intro kvs v h
    rw [show decodeVal env (.obj kvs) = (match decodeKVs env kvs with
        | .ok kvs' => decodeHook env kvs'
        | .error e => .error e) from rfl] at h
    match hdk : decodeKVs env kvs with
    | .error e => rw [hdk] at h; simp at h
    | .ok kvs' =>
      rw [hdk] at h
      dsimp only at h
      refine ⟨kvs', rfl, ?_⟩
      unfold decodeHook at h
      match hl : PKVs.lookupKV kvs' "__type__" with
      | none =>
        rw [hl] at h
        dsimp only at h
        cases h
        exact Or.inl ⟨rfl, rfl⟩
      | some (.str tag) =>
        rw [hl] at h
        dsimp only at h
        match hlc : _load_class env tag with
        | .error e => rw [hlc] at h; simp at h
        | .ok (m, c, info) =>
          rw [hlc] at h
          dsimp only at h
          unfold construct at h
          by_cases hkw : kwargsOk info.defaults (PKVs.removeKey kvs' "__type__") = true
          · rw [if_pos hkw] at h
            dsimp only at h
            cases h
            exact Or.inr ⟨tag, m, c, info, rfl, hlc, hkw, rfl⟩
          · rw [if_neg hkw] at h
            simp at h
      | some .null => rw [hl] at h; simp at h
      | some (.bool b) => rw [hl] at h; simp at h
      | some (.int n) => rw [hl] at h; simp at h
      | some (.float q) => rw [hl] at h; simp at h
      | some (.arr xs) => rw [hl] at h; simp at h
      | some (.obj o) => rw [hl] at h; simp at h
      | some (.est em ec eps) => rw [hl] at h; simp at h
      | some (.blob b) => rw [hl] at h; simp at h
  · intro k v v' t t' hv ht
    rw [show decodeKVs env (.cons k v t) = (match decodeVal env v with
        | .ok v' => (match decodeKVs env t with
            | .ok t' => .ok (.cons k v' t')
            | .error e => .error e)
        | .error e => .error e) from rfl, hv]
    dsimp only
    rw [ht]
  · intro s p h
    unfold pipeline_from_spec at h
    by_cases hpl : plainJson s = true
    · rw [if_neg (not_not_intro hpl)] at h
      match hd : decodeVal env s with
      | .error e => rw [hd] at h; simp at h
      | .ok decoded =>
        rw [hd] at h
        dsimp only at h
        match hts : toSteps decoded with
        | .error e => rw [hts] at h; simp at h
        | .ok steps =>
          rw [hts] at h
          dsimp only at h
          cases h
          exact ⟨decoded, hpl, rfl, hts⟩
    · rw [if_pos hpl] at h
      simp at h
  · intro n v tl st h
    rw [show stepsOfList (.cons (.arr (.cons n (.cons v .nil))) tl)
        = (match stepsOfList tl with
           | .ok st' => .ok ((n, v) :: st')
           | .error e => .error e) from rfl] at h
    match hst : stepsOfList tl with
    | .error e => rw [hst] at h; simp at h
    | .ok st' =>
      rw [hst] at h
      dsimp only at h
      cases h
      exact ⟨st', rfl, rfl⟩

/-- C7 at a concrete spec: a one-step spec `[["n", {}]]` under the
empty import universe decodes, and its outermost pair list becomes the
step list `[(n, {})]`. -/
theorem c7_decoder_bottom_up_witness :
    ∃ decoded,
      plainJson (PVal.arr (.cons
        (.arr (.cons (.str "n") (.cons (.obj .nil) .nil))) .nil)) = true ∧
      decodeVal ⟨[], [], [], []⟩ (PVal.arr (.cons
        (.arr (.cons (.str "n") (.cons (.obj .nil) .nil))) .nil)) = .ok decoded ∧
      toSteps decoded =
        .ok (Pipeline.mk [(PVal.str "n", PVal.obj .nil)]).steps :=
  (c7_decoder_bottom_up ⟨[], [], [], []⟩).2.2.1
    (PVal.arr (.cons (.arr (.cons (.str "n") (.cons (.obj .nil) .nil))) .nil))
    ⟨[(PVal.str "n", PVal.obj .nil)]⟩ (by decide)

/-- Claim C8: the signature deriver on a fixed pipeline spec runs the
signature loop over the pipeline's sorted flattened parameter items
(sorting does not add or remove items); among them it keeps exactly those
whose current default is JSON-serialisable: a default of exact runtime type
`int`, `float` or `bool` (or `str`) is declared with the corresponding
primitive parameter type and its default kept as-is, and every other kept
parameter is declared `Str` with its default pre-encoded to its JSON text
by `json.dumps` — every emitted signature parameter arises this way from a
serialisable item (the "exactly" direction). -/
theorem c8_signature_serializable_params (env : Env) (dumpsStr : PVal → String)
    (spec : PVal) (p : Pipeline) (params : List (String × PVal))
    (hp : pipeline_from_spec env spec = .ok p)
    (hparams : pipelineGetParams p = .ok params) :
    _pipeline_signature env dumpsStr spec
      = .ok (sigLoop dumpsStr (sortByKey params)) ∧
    (∀ x : String × PVal, x ∈ sortByKey params ↔ x ∈ params) ∧
    (∀ k v, (k, v) ∈ sortByKey params → plainJson v = true →
      (∀ t, pyTypeOf v = some t →
        (k, typeMapGet t) ∈ (sigLoop dumpsStr (sortByKey params)).1 ∧
        (⟨k, v, t⟩ : SigParam) ∈ (sigLoop dumpsStr (sortByKey params)).2) ∧
      (pyTypeOf v = none →
        (k, QType.QStr) ∈ (sigLoop dumpsStr (sortByKey params)).1 ∧
        (⟨k, PVal.str (dumpsStr v), PyType.strT⟩ : SigParam)
          ∈ (sigLoop dumpsStr (sortByKey params)).2)) ∧
    (∀ sp, sp ∈ (sigLoop dumpsStr (sortByKey params)).2 →
      ∃ v, (sp.name, v) ∈ params ∧ plainJson v = true ∧
        ((pyTypeOf v = some sp.ann ∧ sp.default = v) ∨
         (pyTypeOf v = none ∧ sp.ann = PyType.strT ∧
          sp.default = PVal.str (dumpsStr v)))) := by
  refine ⟨?_, fun x => mem_sortByKey,
    fun k v hm hpj => sigLoop_forward dumpsStr (sortByKey params) k v hm hpj,
    fun sp hsp => ?_⟩
  · unfold _pipeline_signature
    rw [hp]
    dsimp only
    rw [hparams]
  · obtain ⟨v, hmem, hrest⟩ := sigLoop_backward dumpsStr (sortByKey params) sp hsp
    exact ⟨v, mem_sortByKey.mp hmem, hrest⟩

/-- C8 at a concrete one-step spec under the empty import universe: the
deriver returns exactly the signature loop's output on the sorted
parameter items of the reconstructed pipeline. -/
theorem c8_signature_serializable_params_witness :
    _pipeline_signature ⟨[], [], [], []⟩ (fun _ => "null")
        (PVal.arr (.cons
          (.arr (.cons (.str "n") (.cons (.obj .nil) .nil))) .nil))
      = .ok (sigLoop (fun _ => "null") (sortByKey
          [("steps", stepsToPVal [(PVal.str "n", PVal.obj .nil)]),
           ("n", PVal.obj .nil)])) :=
  (c8_signature_serializable_params ⟨[], [], [], []⟩ (fun _ => "null")
    (PVal.arr (.cons (.arr (.cons (.str "n") (.cons (.obj .nil) .nil))) .nil))
    ⟨[(PVal.str "n", PVal.obj .nil)]⟩
    [("steps", stepsToPVal [(PVal.str "n", PVal.obj .nil)]),
     ("n", PVal.obj .nil)]
    (by decide) (by decide)).1

/-- Claim C9: a catalog-derived fitter call best-effort-parses every
incoming keyword value before applying it: the call succeeds whenever the
pipeline spec decodes, returning the overrides with each string value
replaced by its `json.loads` parse when one exists; a string whose
structured decode fails is used verbatim as the raw string, and a
non-string value (where `json.loads` raises `TypeError`, also caught)
passes through unchanged. -/
theorem c9_fitter_best_effort (env : Env) (loadsO : String → Option PVal)
    (spec : PVal) (kwargs : List (String × PVal)) (p : Pipeline)
    (hp : pipeline_from_spec env spec = .ok p) :
    generic_fitter env loadsO spec kwargs =
      .ok (p, kwargs.map (fun kv => (kv.1, bestEffortParse loadsO kv.2))) ∧
    (∀ s w, loadsO s = some w → bestEffortParse loadsO (.str s) = w) ∧
    (∀ s, loadsO s = none → bestEffortParse loadsO (.str s) = .str s) ∧
    (∀ v, (∀ s, v ≠ .str s) → bestEffortParse loadsO v = v) := by
  refine ⟨?_, ?_, ?_, ?_⟩
  · unfold generic_fitter
    rw [hp]
  · intro s w h
    simp [bestEffortParse, h]
  · intro s h
    simp [bestEffortParse, h]
  · intro v h
    match v, h with
    | .null, _ => rfl
    | .bool _, _ => rfl
    | .int _, _ => rfl
    | .float _, _ => rfl
    | .str s, h => exact absurd rfl (h s)
    | .arr _, _ => rfl
    | .obj _, _ => rfl
    | .est _ _ _, _ => rfl
    | .blob _, _ => rfl

/-- C9 at concrete inputs: the keyword `"a"` holds a decodable string
(parsed to the integer 7), `"b"` holds a string that fails to decode (kept
verbatim), and `"c"` holds a non-string (kept unchanged). -/
theorem c9_fitter_best_effort_witness :
    generic_fitter ⟨[], [], [], []⟩
        (fun s => if s = "x" then some (.int 7) else none)
        (PVal.arr (.cons
          (.arr (.cons (.str "n") (.cons (.obj .nil) .nil))) .nil))
        [("a", PVal.str "x"), ("b", PVal.str "y"), ("c", PVal.int 2)] =
      .ok (⟨[(PVal.str "n", PVal.obj .nil)]⟩,
        [("a", PVal.int 7), ("b", PVal.str "y"), ("c", PVal.int 2)]) :=
  ((c9_fitter_best_effort ⟨[], [], [], []⟩
    (fun s => if s = "x" then some (.int 7) else none)
    (PVal.arr (.cons (.arr (.cons (.str "n") (.cons (.obj .nil) .nil))) .nil))
    [("a", PVal.str "x"), ("b", PVal.str "y"), ("c", PVal.int 2)]
    ⟨[(PVal.str "n", PVal.obj .nil)]⟩ (by decide)).1).trans (by decide)

/-- Claim C1, counterexample to the frozen statement "every violation ...
raises the same uniform ValueError": three failure families escape the
uniform error.  A dotted namespace whose parent package is missing
propagates `ModuleNotFoundError` out of `importlib.util.find_spec`; a
dotted namespace whose parent is an importable plain module (here
`naive_bayes`, a file module with no `__path__`) fails `find_spec`'s
`parent.__path__` access (`AttributeError` on Python 3.5/3.6,
`ModuleNotFoundError` from 3.7) instead of returning `None`; and a tag
naming an attribute that exists but is not a class makes `issubclass`
raise `TypeError`. -/
theorem c1_uniform_error_counterexample :
    _load_class ⟨[], [], [], []⟩ "foo.bar.Baz"
        = .error (.moduleNotFound "sklearn.foo") ∧
    _load_class ⟨[], [], [], []⟩ "foo.bar.Baz"
        ≠ .error (.valueError (errMsg "foo.bar.Baz")) ∧
    _load_class ⟨[], [], [("naive_bayes", [])], []⟩ "naive_bayes.x.C"
        = .error (.noPathAttr "sklearn.naive_bayes") ∧
    _load_class ⟨[], [], [("naive_bayes", [])], []⟩ "naive_bayes.x.C"
        ≠ .error (.valueError (errMsg "naive_bayes.x.C")) ∧
    _load_class ⟨[], [], [("m", [("F", Attr.other)])], []⟩ "m.F"
        = .error (.typeError "issubclass() arg 1 must be a class") ∧
    _load_class ⟨[], [], [("m", [("F", Attr.other)])], []⟩ "m.F"
        ≠ .error (.valueError (errMsg "m.F")) :=
  ⟨by decide, by decide, by decide, by decide, by decide, by decide⟩

/-- Claim C1 (amended): resolution succeeds iff the tag has a namespace
separator and its namespace part resolves — as the literal `custom`, as
sklearn itself, or as an importable sklearn submodule whose dotted parent
prefixes are all importable packages — to a module holding an estimator
class of the tag's class name (`resolvableSpec`); failures raise the
uniform `ValueError` `classname + ' is not a recognised class'` except on
four escape channels of `find_spec`: a namespace part itself starting with
a dot raises plain ImportError from relative-name resolution; a missing or
plain-module-intermediate parent prefix raises `ModuleNotFoundError` from
`__import__`; an importable plain-module immediate parent fails the
`parent.__path__` access (`AttributeError` on Python 3.5/3.6,
`ModuleNotFoundError` from 3.7); and an attribute that is not a class
makes `issubclass` raise `TypeError`.  `_load_class` returns the resolved
class without constructing any object. -/
theorem c1_resolver_characterization (env : Env) (s : String) :
    ((∃ m c info, _load_class env s = .ok (m, c, info)) ↔
      resolvableSpec env s = true) ∧
    (relativeEscape s = true →
      _load_class env s = .error (.importErr
        "attempted relative import beyond top-level package")) ∧
    (importEscape env s = true →
      ∃ p, _load_class env s = .error (.moduleNotFound p) ∨
        _load_class env s = .error (.notAPackage p)) ∧
    (pathEscape env s = true →
      ∃ p, _load_class env s = .error (.noPathAttr p)) ∧
    (classEscape env s = true →
      _load_class env s = .error (.typeError "issubclass() arg 1 must be a class")) ∧
    (relativeEscape s = false → importEscape env s = false →
      pathEscape env s = false → classEscape env s = false →
      resolvableSpec env s = false →
      _load_class env s = .error (.valueError (errMsg s))) := by
  rcases load_class_cases env s with
      ⟨h1, h2, h3, h4, h5, m, c, info, h6⟩ | ⟨h1, h2, h3, h4, h5, h6⟩ |
      ⟨h1, h2, h3, h4, h5, h6⟩ | ⟨h1, h2, h3, h4, h5, h6⟩ |
      ⟨h1, h2, h3, h4, h5, h6⟩ | ⟨h1, h2, h3, h4, h5, h6⟩
  · refine ⟨⟨fun _ => h1, fun _ => ⟨m, c, info, h6⟩⟩, ?_, ?_, ?_, ?_, ?_⟩
    · intro hx
      simp [h2] at hx
    · intro hx
      simp [h3] at hx
    · intro hx
      simp [h4] at hx
    · intro hx
      simp [h5] at hx
    · intro _ _ _ _ hx
      simp [h1] at hx
  · refine ⟨⟨?_, ?_⟩, fun _ => h6, ?_, ?_, ?_, ?_⟩
    · rintro ⟨m, c, info, heq⟩
      rw [h6] at heq
      exact absurd heq (by simp)
    · intro hx
      simp [h1] at hx
    · intro hx
      simp [h3] at hx
    · intro hx
      simp [h4] at hx
    · intro hx
      simp [h5] at hx
    · intro hx
      simp [h2] at hx
  · refine ⟨⟨?_, ?_⟩, ?_, fun _ => h6, ?_, ?_, ?_⟩
    · rintro ⟨m, c, info, heq⟩
      obtain ⟨p, hp⟩ := h6
      rcases hp with hp | hp <;> rw [hp] at heq <;> exact absurd heq (by simp)
    · intro hx
      simp [h1] at hx
    · intro hx
      simp [h2] at hx
    · intro hx
      simp [h4] at hx
    · intro hx
      simp [h5] at hx
    · intro _ hx
      simp [h3] at hx
  · refine ⟨⟨?_, ?_⟩, ?_, ?_, fun _ => h6, ?_, ?_⟩
    · rintro ⟨m, c, info, heq⟩
      obtain ⟨p, hp⟩ := h6
      rw [hp] at heq
      exact absurd heq (by simp)
    · intro hx
      simp [h1] at hx
    · intro hx
      simp [h2] at hx
    · intro hx
      simp [h3] at hx
    · intro hx
      simp [h5] at hx
    · intro _ _ hx
      simp [h4] at hx
  · refine ⟨⟨?_, ?_⟩, ?_, ?_, ?_, fun _ => h6, ?_⟩
    · rintro ⟨m, c, info, heq⟩
      rw [h6] at heq
      exact absurd heq (by simp)
    · intro hx
      simp [h1] at hx
    · intro hx
      simp [h2] at hx
    · intro hx
      simp [h3] at hx
    · intro hx
      simp [h4] at hx
    · intro _ _ _ hx
      simp [h5] at hx
  · refine ⟨⟨?_, ?_⟩, ?_, ?_, ?_, ?_, fun _ _ _ _ _ => h6⟩
    · rintro ⟨m, c, info, heq⟩
      rw [h6] at heq
      exact absurd heq (by simp)
    · intro hx
      simp [h1] at hx
    · intro hx
      simp [h2] at hx
    · intro hx
      simp [h3] at hx
    · intro hx
      simp [h4] at hx
    · intro hx
      simp [h5] at hx

/-- C1 (amended) at a concrete resolvable tag: the catalog-style tag
`naive_bayes.MultinomialNB` resolves in an environment where
`naive_bayes` is an importable plain module — an undotted namespace needs
no package parent, so the fixed model still resolves the catalog. -/
theorem c1_resolver_characterization_witness :
    ∃ m c info,
      _load_class
        ⟨[], [], [("naive_bayes", [("MultinomialNB", Attr.cls ⟨true, .nil⟩)])], []⟩
        "naive_bayes.MultinomialNB" = .ok (m, c, info) :=
  (c1_resolver_characterization
    ⟨[], [], [("naive_bayes", [("MultinomialNB", Attr.cls ⟨true, .nil⟩)])], []⟩
    "naive_bayes.MultinomialNB").1.mpr (by decide)

/-- Claim C2: round-trip idempotence.  For every spec that decodes to a
pipeline under a well-formed import universe — as each built-in catalog
spec does — encoding is a fixed point after one round trip: the decoded
pipeline encodes to some `s1`, `s1` decodes again, and the re-decoded
pipeline re-encodes to exactly `s1`; in test terms,
`spec_one = spec_from_pipeline (pipeline_from_spec spec)` and
`spec_two = spec_from_pipeline (pipeline_from_spec spec_one)` are equal,
even though the encoder deliberately drops parameters matching a nested
estimator's `subobjs` prefixes. -/
theorem c2_roundtrip_fixed_point (env : Env) (hwf : EnvWF env = true)
    (s : PVal) (hnd : nodupObjs s = true) (p : Pipeline)
    (hdec : pipeline_from_spec env s = .ok p) :
    ∃ s1, spec_from_pipeline p = some s1 ∧
      ∃ p1, pipeline_from_spec env s1 = .ok p1 ∧
        spec_from_pipeline p1 = some s1 :=
  spec_roundtrip env hwf s hnd p hdec

/-- C2 at a concrete catalog-shaped spec: one step whose dict carries
`'__type__': 'custom.C'` for an estimator class with a single default
parameter.  The hypotheses are discharged by computation. -/
theorem c2_roundtrip_fixed_point_witness :
    ∃ s1, spec_from_pipeline
        ⟨[(PVal.str "n", PVal.est "q2_feature_classifier.custom" "C"
            (.cons "x" (.int 0) .nil))]⟩ = some s1 ∧
      ∃ p1, pipeline_from_spec
          ⟨[("C", Attr.cls ⟨true, PKVs.cons "x" (.int 0) .nil⟩)], [], [], []⟩ s1
          = .ok p1 ∧
        spec_from_pipeline p1 = some s1 :=
  c2_roundtrip_fixed_point
    ⟨[("C", Attr.cls ⟨true, PKVs.cons "x" (.int 0) .nil⟩)], [], [], []⟩
    (by decide)
    (PVal.arr (.cons (.arr (.cons (.str "n")
      (.cons (.obj (.cons "__type__" (.str "custom.C") .nil)) .nil))) .nil))
    (by decide)
    ⟨[(PVal.str "n", PVal.est "q2_feature_classifier.custom" "C"
        (.cons "x" (.int 0) .nil))]⟩
    (by decide)

end Q2FC
